import Mathlib

/-!
Verification of the `dynalist` repository (an XOR-compressed doubly linked
list with cursors, and an intrusive reference-counted list) against its
natural-language specification.

The source is shallowly embedded: raw pointers are machine addresses
modelled as `Nat` with `0` the null sentinel, and the store of heap nodes
is a finite association list from nonzero addresses to node records.  The
allocator is modelled by a `fresh` counter that hands out increasing
nonzero addresses (a successful allocation is never null, matching §6 of
the spec).  Writes through `as_mut` references are modelled as in-place
updates of the association list; `Raw::take` removes the binding.
-/

namespace Dynalist

/-! ## Model of src/raw.rs

`Raw<T>` wraps one machine word for sized `T`, and an address word plus an
independent metadata word for unsized `T`.  `xor` combines the words
bitwise and componentwise; `null` is the all-zero pattern. -/

/-- Model of `Raw::xor` for sized `T` (src/raw.rs lines 61-68): bitwise xor of
the two address words. -/
def rawXor (a b : Nat) : Nat := a ^^^ b

/-- Model of `Raw::xor` for unsized `T` (src/raw.rs lines 69-77): the address
word and the metadata word are combined independently. -/
def rawXorWide (a b : Nat × Nat) : Nat × Nat := (a.1 ^^^ b.1, a.2 ^^^ b.2)

/-- Model of `Raw::null` (sized): the zero bit pattern. -/
def rawNull : Nat := 0

/-- Model of `Raw::null` (unsized): zero address and zero metadata word. -/
def rawNullWide : Nat × Nat := (0, 0)

/-! ## Heap model

A heap is a finite association list from nonzero addresses to node values.
Lookups and updates act on the first matching binding; all well-formed
states keep the key list nodup, with `0` never a key, so the first match is
the only one.  `hUpdate` models a write through an `as_mut` reference (a
no-op on an absent key, which in the real program would be undefined
behaviour and is unreachable from well-formed states); `hErase` models
`Raw::take`, removing the binding. -/

variable {β : Type}

def hLookup : List (Nat × β) → Nat → Option β
  | [], _ => none
  | (b, nd) :: t, a => if a = b then some nd else hLookup t a

def hUpdate : List (Nat × β) → Nat → (β → β) → List (Nat × β)
  | [], _, _ => []
  | (b, nd) :: t, a, f => if a = b then (b, f nd) :: t else (b, nd) :: hUpdate t a f

def hErase : List (Nat × β) → Nat → List (Nat × β)
  | [], _ => []
  | (b, nd) :: t, a => if a = b then t else (b, nd) :: hErase t a

def keysOf (h : List (Nat × β)) : List Nat := h.map Prod.fst

/-! ## Model of src/xorlist.rs

A `Node<T>` holds the xor-compressed link word and the payload.  The
`XorList<T>` struct holds only the head and tail pointers; the nodes live in
a shared `Mem` (heap plus allocator counter), so that several lists (e.g. a
list and a splice donor, or the two halves of a split) can coexist exactly
as they do in real memory. -/

structure XNode (α : Type) where
  link : Nat
  data : α
deriving DecidableEq

abbrev Heap (α : Type) := List (Nat × XNode α)

structure Mem (α : Type) where
  heap : Heap α
  fresh : Nat
deriving DecidableEq

/-- The `XorList` struct itself (src/xorlist.rs lines 35-38): head and tail. -/
structure XLst where
  head : Nat
  tail : Nat
deriving DecidableEq

variable {α : Type}

/-- Link field of the node at `a`; the `as_ref().unwrap().link` reads of the
source, with a default for the unreachable null/none case. -/
def getLink (h : Heap α) (a : Nat) : Nat :=
  match hLookup h a with
  | some nd => nd.link
  | none => 0

/-- Model of `link = link.xor(&x)` through an `as_mut` reference. -/
def hXorLink (h : Heap α) (a x : Nat) : Heap α :=
  hUpdate h a fun nd => ⟨nd.link ^^^ x, nd.data⟩

/-- Model of `link = v` through an `as_mut` reference. -/
def hSetLink (h : Heap α) (a v : Nat) : Heap α :=
  hUpdate h a fun nd => ⟨v, nd.data⟩

/-- Model of `XorList::new` (src/xorlist.rs lines 44-49). -/
def XLst.new : XLst := ⟨0, 0⟩

/-- Model of `XorList::push_back` (src/xorlist.rs lines 55-78).  Three cases:
empty list; exactly one node (`tail` still null); general xor patch. -/
def push_back (m : Mem α) (l : XLst) (v : α) : Mem α × XLst :=
  let a := m.fresh
  if l.head = 0 then
    (⟨(a, ⟨0, v⟩) :: m.heap, a + 1⟩, ⟨a, l.tail⟩)
  else if l.tail = 0 then
    let h1 := (a, ⟨l.head, v⟩) :: m.heap
    (⟨hSetLink h1 l.head a, a + 1⟩, ⟨l.head, a⟩)
  else
    let h1 := (a, ⟨l.tail, v⟩) :: m.heap
    (⟨hXorLink h1 l.tail a, a + 1⟩, ⟨l.head, a⟩)

/-- Model of `XorList::push_front` (src/xorlist.rs lines 83-107). -/
def push_front (m : Mem α) (l : XLst) (v : α) : Mem α × XLst :=
  let a := m.fresh
  if l.head = 0 then
    (⟨(a, ⟨0, v⟩) :: m.heap, a + 1⟩, ⟨a, l.tail⟩)
  else if l.tail = 0 then
    let h1 := (a, ⟨l.head, v⟩) :: m.heap
    (⟨hSetLink h1 l.head a, a + 1⟩, ⟨a, l.head⟩)
  else
    let h1 := (a, ⟨l.head, v⟩) :: m.heap
    (⟨hXorLink h1 l.head a, a + 1⟩, ⟨a, l.tail⟩)

/-- Model of `XorList::pop_back` (src/xorlist.rs lines 112-139). -/
def pop_back (m : Mem α) (l : XLst) : Option α × Mem α × XLst :=
  if l.head = 0 then (none, m, l)
  else if l.tail = 0 then
    match hLookup m.heap l.head with
    | some nd => (some nd.data, ⟨hErase m.heap l.head, m.fresh⟩, ⟨0, l.tail⟩)
    | none => (none, m, l)
  else
    let hl := getLink m.heap l.head
    let tl := getLink m.heap l.tail
    if hl = l.tail ∧ tl = l.head then
      match hLookup m.heap l.tail with
      | some nd =>
          (some nd.data, ⟨hSetLink (hErase m.heap l.tail) l.head 0, m.fresh⟩, ⟨l.head, 0⟩)
      | none => (none, m, l)
    else
      let a := l.tail
      let nt := getLink m.heap a
      match hLookup m.heap a with
      | some nd => (some nd.data, ⟨hErase (hXorLink m.heap nt a) a, m.fresh⟩, ⟨l.head, nt⟩)
      | none => (none, m, l)

/-- Model of `XorList::pop_front` (src/xorlist.rs lines 144-172). -/
def pop_front (m : Mem α) (l : XLst) : Option α × Mem α × XLst :=
  if l.head = 0 then (none, m, l)
  else if l.tail = 0 then
    match hLookup m.heap l.head with
    | some nd => (some nd.data, ⟨hErase m.heap l.head, m.fresh⟩, ⟨0, l.tail⟩)
    | none => (none, m, l)
  else
    let hl := getLink m.heap l.head
    let tl := getLink m.heap l.tail
    if hl = l.tail ∧ tl = l.head then
      match hLookup m.heap l.head with
      | some nd =>
          (some nd.data, ⟨hErase (hSetLink m.heap l.tail 0) l.head, m.fresh⟩, ⟨l.tail, 0⟩)
      | none => (none, m, l)
    else
      let a := l.head
      let nh := getLink m.heap a
      match hLookup m.heap a with
      | some nd => (some nd.data, ⟨hErase (hXorLink m.heap nh a) a, m.fresh⟩, ⟨nh, l.tail⟩)
      | none => (none, m, l)

/-- Model of `XorList::is_empty` (src/xorlist.rs lines 204-206). -/
def XLst.is_empty (l : XLst) : Prop := l.head = 0

/-- One step of `Iter::next` (src/xorlist.rs lines 231-245), iterated with
fuel: starting from `(prev, curr)` the iterator yields the node at `curr`
and advances to `prev ^^^ curr.link`, stopping at null (or, in the model, at
an address with no binding, where the real program would dereference a
dangling pointer). -/
def iterFuel (h : Heap α) : Nat → Nat → Nat → List α
  | 0, _, _ => []
  | fuel + 1, p, c =>
    match hLookup h c with
    | some nd => nd.data :: iterFuel h fuel c (p ^^^ nd.link)
    | none => []

/-- The element sequence of a list: `iter` run from `(null, head)`. -/
def toList (m : Mem α) (l : XLst) : List α :=
  iterFuel m.heap (m.heap.length + 1) 0 l.head

/-- Model of `XorList::clear` (src/xorlist.rs lines 211-213): `pop_back` until
empty, with fuel bounded by the heap size. -/
def clearFuel : Nat → Mem α → XLst → Mem α × XLst
  | 0, m, l => (m, l)
  | n + 1, m, l =>
    match pop_back m l with
    | (some _, m', l') => clearFuel n m' l'
    | (none, m', l') => (m', l')

def clear (m : Mem α) (l : XLst) : Mem α × XLst := clearFuel (m.heap.length + 1) m l

/-! ## Model of `Cursor` (src/xorlist.rs lines 302-665)

A cursor holds `(prev, curr)` cells and a pointer to the list it traverses;
the model bundles the memory, the list struct and the two cells. -/

structure XCur (α : Type) where
  m : Mem α
  l : XLst
  p : Nat
  c : Nat
deriving DecidableEq

/-- Model of `XorList::cursor` (src/xorlist.rs lines 195-202). -/
def cursor (m : Mem α) (l : XLst) : XCur α := ⟨m, l, 0, l.head⟩

/-- Model of `Cursor::at_start` / `Cursor::at_end`. -/
def XCur.at_start (k : XCur α) : Prop := k.p = 0

def XCur.at_end (k : XCur α) : Prop := k.c = 0

/-- Model of `Cursor::next` (src/xorlist.rs lines 325-339).  `prev` is set to
`curr` unconditionally; on a non-null `curr` the element is returned and
`curr` advances to `prev ^^^ curr.link`. -/
def XCur.next (k : XCur α) : Option α × XCur α :=
  match hLookup k.m.heap k.c with
  | some nd => (some nd.data, { k with p := k.c, c := k.p ^^^ nd.link })
  | none => (none, { k with p := k.c })

/-- Model of `Cursor::prev` (src/xorlist.rs lines 345-359).  `curr` is set to
`prev` unconditionally; on a non-null `prev` the element is returned and
`prev` retreats to `curr ^^^ prev.link`. -/
def XCur.prev (k : XCur α) : Option α × XCur α :=
  match hLookup k.m.heap k.p with
  | some nd => (some nd.data, { k with p := k.c ^^^ nd.link, c := k.p })
  | none => (none, { k with c := k.p })

/-- The loop of `Cursor::skip_forwards` (src/xorlist.rs lines 365-372): call
`next` until it fails or `n` successful steps were made. -/
def skipLoopF : Nat → XCur α → XCur α
  | 0, k => k
  | n + 1, k =>
    match XCur.next k with
    | (some _, k') => skipLoopF n k'
    | (none, k') => k'

/-- Model of `Cursor::skip_forwards` (src/xorlist.rs lines 365-372). -/
def skip_forwards (k : XCur α) (n : Nat) : XCur α :=
  if n = 0 then k else skipLoopF n k

/-- The loop of `Cursor::skip_backwards` (src/xorlist.rs lines 379-386); the
source's loop body also calls `self.next()`. -/
def skipLoopB : Nat → XCur α → XCur α
  | 0, k => k
  | n + 1, k =>
    match XCur.next k with
    | (some _, k') => skipLoopB n k'
    | (none, k') => k'

/-- Model of `Cursor::skip_backwards` (src/xorlist.rs lines 379-386). -/
def skip_backwards (k : XCur α) (n : Nat) : XCur α :=
  if n = 0 then k else skipLoopB n k

/-- Model of `Cursor::seek_to_start` (src/xorlist.rs lines 391-396). -/
def seek_to_start (k : XCur α) : XCur α := { k with p := 0, c := k.l.head }

/-- Model of `Cursor::seek_to_end` (src/xorlist.rs lines 401-406). -/
def seek_to_end (k : XCur α) : XCur α := { k with p := k.l.tail, c := 0 }

/-- Model of `Cursor::peek` (src/xorlist.rs lines 411-417). -/
def XCur.peek (k : XCur α) : Option α := (hLookup k.m.heap k.c).map XNode.data

/-- Model of `Cursor::remove` (src/xorlist.rs lines 433-479): the head and
tail positions delegate to `pop_front` / `pop_back`; in the middle the node
at `curr` is taken out and the two neighbour links are xor-patched. -/
def XCur.remove (k : XCur α) : Option α × XCur α :=
  if k.l.head = k.c then
    match pop_front k.m k.l with
    | (r, m', l') => (r, { k with m := m', l := l', c := l'.head })
  else if k.l.tail = k.c then
    match pop_back k.m k.l with
    | (r, m', l') => (r, { k with m := m', l := l', c := 0 })
  else
    match hLookup k.m.heap k.c with
    | none => (none, { k with c := 0 })
    | some nd =>
      let n := k.p ^^^ nd.link
      let h1 := hErase k.m.heap k.c
      let h2 := match hLookup h1 k.p with
                | some pn => hSetLink h1 k.p (pn.link ^^^ k.c ^^^ n)
                | none => h1
      let h3 := match hLookup h2 n with
                | some nn => hSetLink h2 n (nn.link ^^^ k.c ^^^ k.p)
                | none => h2
      (some nd.data, { k with m := ⟨h3, k.m.fresh⟩, c := n })

/-- Model of `Cursor::insert_between` (src/xorlist.rs lines 540-556): the node
(already allocated, at address `a`) gets link `p ^^^ n`, and each non-null
neighbour's link is patched by xor-ing out the other neighbour and xor-ing
in the new node. -/
def insertBetween (h : Heap α) (p n a : Nat) (v : α) : Heap α :=
  let h1 := (a, ⟨p ^^^ n, v⟩) :: h
  let h2 := match hLookup h1 p with
            | some pn => hSetLink h1 p (pn.link ^^^ n ^^^ a)
            | none => h1
  match hLookup h2 n with
  | some nn => hSetLink h2 n (nn.link ^^^ p ^^^ a)
  | none => h2

/-- Model of `Cursor::insert_before` (src/xorlist.rs lines 484-508). -/
def XCur.insert_before (k : XCur α) (v : α) : XCur α :=
  if k.l.head = k.c then
    match push_front k.m k.l v with
    | (m', l') => { k with m := m', l := l', p := l'.head }
  else if k.c = 0 then
    match push_back k.m k.l v with
    | (m', l') => { k with m := m', l := l', p := l'.tail }
  else
    let a := k.m.fresh
    { k with m := ⟨insertBetween k.m.heap k.p k.c a v, a + 1⟩, p := a }

/-- Model of `Cursor::insert_after` (src/xorlist.rs lines 514-538). -/
def XCur.insert_after (k : XCur α) (v : α) : XCur α :=
  if k.l.head = k.c then
    match push_front k.m k.l v with
    | (m', l') => { k with m := m', l := l', c := l'.head }
  else if k.c = 0 then
    match push_back k.m k.l v with
    | (m', l') => { k with m := m', l := l', c := l'.tail }
  else
    let a := k.m.fresh
    { k with m := ⟨insertBetween k.m.heap k.p k.c a v, a + 1⟩, c := a }

/-- Model of `Cursor::splice` (src/xorlist.rs lines 562-625).  `none` models a
panic.  The branch for an empty receiving list transfers the donor's
head/tail and nulls them, but the source has no `return` there, so control
falls through to `list.head.take().unwrap()` on the just-nulled donor head,
which panics whenever the donor has two or more nodes. -/
def XCur.splice (k : XCur α) (d : XLst) : Option (XCur α) :=
  if d.head = 0 then some k
  else if d.tail = 0 then
    match hLookup k.m.heap d.head with
    | none => none
    | some nd =>
      let h' := insertBetween (hErase k.m.heap d.head) k.p k.c d.head nd.data
      let l' := if k.p = 0 then { k.l with head := d.head }
                else if k.c = 0 then { k.l with tail := d.head }
                else k.l
      some { k with m := ⟨h', k.m.fresh⟩, l := l', c := d.head }
  else if k.l.head = 0 then
    none
  else
    match hLookup k.m.heap d.head, hLookup k.m.heap d.tail with
    | some hn, some tn =>
      let h1 := hSetLink (hSetLink k.m.heap d.head (hn.link ^^^ k.p)) d.tail (tn.link ^^^ k.c)
      let hl2 := if k.p = 0 then (h1, XLst.mk d.head k.l.tail)
                 else (hXorLink h1 k.p (k.c ^^^ d.head), k.l)
      let hl3 := if k.c = 0 then (hl2.1, XLst.mk hl2.2.head d.tail)
                 else (hXorLink hl2.1 k.c (k.p ^^^ d.tail), hl2.2)
      some { k with m := ⟨hl3.1, k.m.fresh⟩, l := hl3.2, c := d.head }
    | _, _ => none

/-- Model of `Cursor::split` (src/xorlist.rs lines 630-664): returns the
cursor (with its list) and the new list.  Only head/tail pointers are
updated; no node link is touched. -/
def XCur.split (k : XCur α) : XCur α × XLst :=
  if k.c = 0 then (k, ⟨0, 0⟩)
  else if k.p = 0 then
    ({ k with l := ⟨0, 0⟩, c := 0 }, ⟨k.l.head, k.l.tail⟩)
  else
    ({ k with l := ⟨k.l.head, k.p⟩, c := 0 }, ⟨k.c, k.l.tail⟩)

/-! ## Concrete scenarios -/

/-- The empty memory with the allocator about to hand out address 1. -/
def mem0 : Mem Nat := ⟨[], 1⟩

/-- Build a list by repeated `push_back`. -/
def fromList (m : Mem α) (xs : List α) : Mem α × XLst :=
  xs.foldl (fun ml v => push_back ml.1 ml.2 v) (m, XLst.new)

/-- State of the C9 scenario after removing the front element of
`[0,1,2,3,4,5]` through a fresh cursor. -/
def scene9a : XCur Nat :=
  let ml := fromList mem0 [0, 1, 2, 3, 4, 5]
  ((cursor ml.1 ml.2).remove).2

/-- Final state of the C9 scenario: advance twice, insert 6 before the
cursor, remove at the cursor, insert 7 after the cursor. -/
def scene9b : XCur Nat :=
  ((((scene9a.next).2.next).2.insert_before 6).remove).2.insert_after 7

/-- Splitting the two-element list `[10, 20]` at the interior position (cursor
advanced once from the start). -/
def splitScene : XCur Nat × XLst :=
  (((cursor (fromList mem0 [10, 20]).1 (fromList mem0 [10, 20]).2).next).2).split

/-- A two-element donor list `[1, 2]` for the splice scenario. -/
def spliceDonor : Mem Nat × XLst := fromList mem0 [1, 2]

/-! ## Cursor walks (claim C3)

A walk is a list of calls, `true` for `next()` and `false` for `prev()`.
`runCalls` applies every call (as the claim allows calls made at the
boundaries, which return nothing); `netDisp` is the net displacement, where
a call that returns an element counts `+1`/`-1` and a call that returns
nothing moves the position by zero.  `runMoves` is the run that requires
every call to return an element. -/

def cstep (k : XCur α) : Bool → Option α × XCur α
  | true => XCur.next k
  | false => XCur.prev k

def runCalls : XCur α → List Bool → XCur α
  | k, [] => k
  | k, mv :: t => runCalls (cstep k mv).2 t

def netDisp : XCur α → List Bool → Int
  | _, [] => 0
  | k, mv :: t =>
    match cstep k mv with
    | (some _, k') => (if mv then 1 else -1) + netDisp k' t
    | (none, k') => netDisp k' t

def runMoves : XCur α → List Bool → Option (XCur α)
  | k, [] => some k
  | k, mv :: t =>
    match cstep k mv with
    | (some _, k') => runMoves k' t
    | (none, _) => none

/-- A one-element list `[5]` (node at address 1) with its cursor at the
start position. -/
def cexCursor : XCur Nat := ⟨⟨[(1, ⟨0, 5⟩)], 2⟩, ⟨1, 0⟩, 0, 1⟩

/-! ## Representation predicate for XorLists

`Seg h p c ps b q` says: starting from the cursor position `(prev = p,
curr = c)`, following the xor-decompression rule `next = prev ^^^ curr.link`
visits exactly the address/value pairs `ps`, after which the position is
`(prev = b, curr = q)`.  `repXL m l ps` ties a whole list to its contents:
the chain runs from `(0, head)` to `(tail-or-last, 0)`, the `tail` field is
null for lists of at most one element and the last address otherwise (the
source's representation), addresses are nonzero, distinct, below the
allocator counter, and the heap contains exactly the chain's nodes. -/

def Seg (h : Heap α) : Nat → Nat → List (Nat × α) → Nat → Nat → Prop
  | p, c, [], b, q => b = p ∧ q = c
  | p, c, (x, v) :: ps, b, q =>
    x = c ∧ c ≠ 0 ∧
    match hLookup h c with
    | some nd => nd.data = v ∧ Seg h c (p ^^^ nd.link) ps b q
    | none => False

/-- The representation predicate for a whole `XorList`. -/
def repXL (m : Mem α) (l : XLst) (ps : List (Nat × α)) : Prop :=
  ∃ b, Seg m.heap 0 l.head ps b 0 ∧
    l.tail = (if ps.length ≤ 1 then 0 else b) ∧
    (ps.map Prod.fst).Nodup ∧
    (keysOf m.heap).Nodup ∧
    0 < m.fresh ∧
    (∀ a ∈ keysOf m.heap, 0 < a ∧ a < m.fresh) ∧
    (∀ a : Nat, a ∈ keysOf m.heap ↔ a ∈ ps.map Prod.fst)

/-! ## FIFO property (claim C4) -/

/-- A step of the FIFO workload: `push_back` a value or `pop_front`. -/
inductive QOp (α : Type) where
  | push : α → QOp α
  | pop : QOp α
deriving DecidableEq

/-- Run a sequence of queue operations, accumulating the values returned by
the `pop_front` calls (the `None` results of popping an empty list are
ignored, as in the claim). -/
def runQ : Mem α → XLst → List α → List (QOp α) → Mem α × XLst × List α
  | m, l, acc, [] => (m, l, acc)
  | m, l, acc, QOp.push v :: ops =>
    match push_back m l v with
    | (m', l') => runQ m' l' acc ops
  | m, l, acc, QOp.pop :: ops =>
    match pop_front m l with
    | (some v, m', l') => runQ m' l' (acc ++ [v]) ops
    | (none, m', l') => runQ m' l' acc ops

/-- The values pushed by a workload, in order. -/
def pushedOf : List (QOp α) → List α
  | [] => []
  | QOp.push v :: ops => v :: pushedOf ops
  | QOp.pop :: ops => pushedOf ops

/-- A cursor positioned between `pre` and `post`: the list represents
`pre ++ post` and walking `pre` from the start leaves the cursor cells at
exactly `(k.p, k.c)`. -/
def repCur (k : XCur α) (pre post : List (Nat × α)) : Prop :=
  repXL k.m k.l (pre ++ post) ∧ Seg k.m.heap 0 k.l.head pre k.p k.c

/-- Scenario for the C10 counterexample: a one-element list `[5]` and a
one-node donor list `[9]` allocated in the same memory, then
`cursor.splice(donor)` with the cursor at the start of the receiver. -/
def sceneC10 : Option (XCur Nat) :=
  let one := push_back (⟨[], 1⟩ : Mem Nat) XLst.new 5
  let don := push_back one.1 XLst.new 9
  (cursor don.1 one.2).splice don.2

/-! ## Model of src/ilist.rs

An intrusive, reference-counted doubly linked list.  A `Node` holds a
reference count, raw `next`/`prev` pointers and the payload; an `INode` is a
counted handle to a node; an `IList` owns a sentinel node whose `count` is
`!0`.  The state bundles the node heap, the multiset of outstanding `INode`
handles (by address) and the allocator counter.  The sentinel's payload is
uninitialised in the source, hence `Option` data. -/

/-- The all-ones machine word `!0`, the sentinel marker (ilist.rs line 221)
and largest `usize` value. -/
def usizeMax : Nat := 2 ^ 64 - 1

structure INd (α : Type) where
  count : Nat
  next : Nat
  prev : Nat
  data : Option α
deriving DecidableEq

structure ISt (α : Type) where
  heap : List (Nat × INd α)
  handles : List Nat
  fresh : Nat
deriving DecidableEq

/-- `next.get()` through a raw pointer (null/absent reads as null). -/
def iNext (h : List (Nat × INd α)) (a : Nat) : Nat :=
  match hLookup h a with
  | some nd => nd.next
  | none => 0

/-- `prev.get()` through a raw pointer. -/
def iPrev (h : List (Nat × INd α)) (a : Nat) : Nat :=
  match hLookup h a with
  | some nd => nd.prev
  | none => 0

/-- `count.get()` through a raw pointer. -/
def iCount (h : List (Nat × INd α)) (a : Nat) : Nat :=
  match hLookup h a with
  | some nd => nd.count
  | none => 0

def iSetNext (h : List (Nat × INd α)) (a x : Nat) : List (Nat × INd α) :=
  hUpdate h a fun nd => ⟨nd.count, x, nd.prev, nd.data⟩

def iSetPrev (h : List (Nat × INd α)) (a x : Nat) : List (Nat × INd α) :=
  hUpdate h a fun nd => ⟨nd.count, nd.next, x, nd.data⟩

/-- `inc_count` (ilist.rs lines 224-227). -/
def iIncCount (h : List (Nat × INd α)) (a : Nat) : List (Nat × INd α) :=
  hUpdate h a fun nd => ⟨nd.count + 1, nd.next, nd.prev, nd.data⟩

/-- `dec_count` (ilist.rs lines 229-232). -/
def iDecCount (h : List (Nat × INd α)) (a : Nat) : List (Nat × INd α) :=
  hUpdate h a fun nd => ⟨nd.count - 1, nd.next, nd.prev, nd.data⟩

/-- Model of `INode::new` (ilist.rs lines 32-48): a fresh node with count 1
(for the returned handle) and null links. -/
def inode_new (s : ISt α) (v : α) : Nat × ISt α :=
  (s.fresh, ⟨(s.fresh, ⟨1, 0, 0, some v⟩) :: s.heap, s.fresh :: s.handles, s.fresh + 1⟩)

/-- Model of `Clone for INode` (ilist.rs lines 212-217). -/
def inode_clone (s : ISt α) (a : Nat) : ISt α :=
  ⟨iIncCount s.heap a, a :: s.handles, s.fresh⟩

/-- Model of `Node::is_sentinel` (ilist.rs lines 220-222). -/
def is_sentinel (h : List (Nat × INd α)) (a : Nat) : Prop := iCount h a = usizeMax

/-- Model of `INode::in_list` (ilist.rs lines 151-153). -/
def in_list (h : List (Nat × INd α)) (a : Nat) : Prop := iNext h a ≠ 0

/-- Model of `Node::remove_from_list` (ilist.rs lines 234-251): read both
neighbour pointers, null the own ones, then (if there was a `prev`)
decrement the own count — the `next` pointers keep the count up — and patch
`prev.next`; finally (if there was a `next`) patch `next.prev`. -/
def node_remove (h : List (Nat × INd α)) (a : Nat) : List (Nat × INd α) :=
  let p := iPrev h a
  let n := iNext h a
  let h1 := iSetPrev h a 0
  let h2 := iSetNext h1 a 0
  let h3 := if p ≠ 0 then iSetNext (iDecCount h2 a) p n else h2
  if n ≠ 0 then iSetPrev h3 n p else h3

/-- Model of `INode::remove_from_list` (ilist.rs lines 60-62). -/
def inode_remove_from_list (s : ISt α) (a : Nat) : ISt α :=
  ⟨node_remove s.heap a, s.handles, s.fresh⟩

/-- Model of `Drop for INode` (ilist.rs lines 192-210): decrement, and free
the node when the count reaches zero. -/
def inode_drop (s : ISt α) (a : Nat) : ISt α :=
  let h1 := iDecCount s.heap a
  if iCount h1 a = 0 then ⟨hErase h1 a, s.handles.erase a, s.fresh⟩
  else ⟨h1, s.handles.erase a, s.fresh⟩

/-- Model of `INode::insert_after` (ilist.rs lines 69-85).  `none` models the
`assert!(self.in_list())` panic.  The inserted handle is consumed by
`into_raw` (no count change: the handle's count becomes the list's). -/
def insert_after (s : ISt α) (a b : Nat) : Option (ISt α) :=
  if iNext s.heap a = 0 then none
  else
    let h1 := node_remove s.heap b
    let nx := iNext h1 a
    let h2 := iSetPrev h1 b a
    let h3 := iSetNext h2 b nx
    let h4 := iSetNext h3 a b
    let h5 := if nx ≠ 0 then iSetPrev h4 nx b else h4
    some ⟨h5, s.handles.erase b, s.fresh⟩

/-- Model of `INode::insert_before` (ilist.rs lines 92-108). -/
def insert_before (s : ISt α) (a b : Nat) : Option (ISt α) :=
  if iNext s.heap a = 0 then none
  else
    let h1 := node_remove s.heap b
    let pv := iPrev h1 a
    let h2 := iSetNext h1 b a
    let h3 := iSetPrev h2 b pv
    let h4 := iSetPrev h3 a b
    let h5 := if pv ≠ 0 then iSetNext h4 pv b else h4
    some ⟨h5, s.handles.erase b, s.fresh⟩

/-- Model of `INode::next` (ilist.rs lines 113-127): a new handle to the next
node unless it is null or the sentinel. -/
def inode_next (s : ISt α) (a : Nat) : Option Nat × ISt α :=
  let n := iNext s.heap a
  if n ≠ 0 then
    if iCount s.heap n = usizeMax then (none, s)
    else (some n, ⟨iIncCount s.heap n, n :: s.handles, s.fresh⟩)
  else (none, s)

/-- Model of `INode::prev` (ilist.rs lines 132-146). -/
def inode_prev (s : ISt α) (a : Nat) : Option Nat × ISt α :=
  let n := iPrev s.heap a
  if n ≠ 0 then
    if iCount s.heap n = usizeMax then (none, s)
    else (some n, ⟨iIncCount s.heap n, n :: s.handles, s.fresh⟩)
  else (none, s)

/-- Model of `make_sentinel` and `IList::new` (ilist.rs lines 255-289): a
fresh node with count `!0`, null links, uninitialised payload, and no
handle. -/
def ilist_new (s : ISt α) : Nat × ISt α :=
  (s.fresh, ⟨(s.fresh, ⟨usizeMax, 0, 0, none⟩) :: s.heap, s.handles, s.fresh + 1⟩)

/-- Model of `IList::is_empty` (ilist.rs lines 291-293). -/
def ilist_is_empty (s : ISt α) (sent : Nat) : Prop := iNext s.heap sent = 0

/-- Model of `IList::push_front` (ilist.rs lines 298-312): into an empty list
the node is linked both ways to the sentinel; otherwise
`sentinel.insert_after(val)`. -/
def ilist_push_front (s : ISt α) (sent b : Nat) : ISt α :=
  if iNext s.heap sent = 0 then
    let h1 := node_remove s.heap b
    let h2 := iSetNext h1 b sent
    let h3 := iSetPrev h2 b sent
    let h4 := iSetNext h3 sent b
    let h5 := iSetPrev h4 sent b
    ⟨h5, s.handles.erase b, s.fresh⟩
  else
    match insert_after s sent b with
    | some s2 => s2
    | none => s

/-- Model of `IList::push_back` (ilist.rs lines 317-331). -/
def ilist_push_back (s : ISt α) (sent b : Nat) : ISt α :=
  if iNext s.heap sent = 0 then
    let h1 := node_remove s.heap b
    let h2 := iSetNext h1 b sent
    let h3 := iSetPrev h2 b sent
    let h4 := iSetNext h3 sent b
    let h5 := iSetPrev h4 sent b
    ⟨h5, s.handles.erase b, s.fresh⟩
  else
    match insert_before s sent b with
    | some s2 => s2
    | none => s

/-- Model of `IList::head` (ilist.rs lines 336-344): `INode::from_raw` on
`sentinel.next`, incrementing the count for the new handle. -/
def ilist_head (s : ISt α) (sent : Nat) : Option Nat × ISt α :=
  if iNext s.heap sent = 0 then (none, s)
  else (some (iNext s.heap sent),
    ⟨iIncCount s.heap (iNext s.heap sent), iNext s.heap sent :: s.handles, s.fresh⟩)

/-- Model of `IList::tail` (ilist.rs lines 349-357). -/
def ilist_tail (s : ISt α) (sent : Nat) : Option Nat × ISt α :=
  if iNext s.heap sent = 0 then (none, s)
  else (some (iPrev s.heap sent),
    ⟨iIncCount s.heap (iPrev s.heap sent), iPrev s.heap sent :: s.handles, s.fresh⟩)

/-- The reference-count invariant of claim C6: every non-sentinel node's
count equals the number of outstanding handles to it plus one if it is
linked into a list — `in_list` in the source reads `next ≠ null`, and the
code comment in `remove_from_list` states that the `next` pointers are the
ones that keep the count up. -/
def refInv (s : ISt α) : Prop :=
  ∀ e ∈ s.heap, e.2.count ≠ usizeMax →
    e.2.count = s.handles.count e.1 + (if e.2.next ≠ 0 then 1 else 0)

/-- Well-formedness of an `IList` state: distinct, bounded, nonzero
addresses; handles name live non-sentinel nodes; counts fit in a machine
word; a node is never half-linked (null `next` iff null `prev`); no node
links to itself; `next`/`prev` pointers target live nodes consistently
(your `next`'s `prev` is you, and your `prev`'s `next` is you); and the
reference-count invariant holds. -/
def wfI (s : ISt α) : Prop :=
  (keysOf s.heap).Nodup ∧
  0 < s.fresh ∧
  (∀ a ∈ keysOf s.heap, 0 < a ∧ a < s.fresh) ∧
  (∀ a ∈ s.handles, a ∈ keysOf s.heap ∧ iCount s.heap a ≠ usizeMax) ∧
  (∀ e ∈ s.heap,
     e.2.count ≤ usizeMax ∧
     (e.2.next = 0 ↔ e.2.prev = 0) ∧
     e.2.next ≠ e.1 ∧ e.2.prev ≠ e.1 ∧
     (e.2.next ≠ 0 → e.2.next ∈ keysOf s.heap ∧ iPrev s.heap e.2.next = e.1) ∧
     (e.2.prev ≠ 0 → e.2.prev ∈ keysOf s.heap ∧ iNext s.heap e.2.prev = e.1)) ∧
  refInv s

/-- Scenario for the C6 counterexample, all public API calls: make a list
and a node with two handles, push the node, clone a third handle and pass
it to `insert_after` called on the node itself, then `remove_from_list`. -/
def sceneC6 : ISt Nat :=
  let s0 : ISt Nat := ⟨[], [], 1⟩
  let r1 := ilist_new s0
  let r2 := inode_new r1.2 7
  let s3 := inode_clone r2.2 2
  let s4 := ilist_push_front s3 1 2
  let s5 := inode_clone s4 2
  let s6 := match insert_after s5 2 2 with
            | some s7 => s7
            | none => s5
  inode_remove_from_list s6 2

/-- Scenario for the C7 witness: a list with sentinel 1 holding the single
node 2, and a detached node 3 with one outstanding handle. -/
def sceneC7 : ISt Nat :=
  ⟨[(1, ⟨usizeMax, 2, 2, none⟩), (2, ⟨1, 1, 1, some 10⟩), (3, ⟨1, 0, 0, some 20⟩)],
   [3], 4⟩

/-! ## Theorems -/

/-- C8: for all `Raw` pointer values `a` and `b`, including the null value,
`a.xor(b).xor(b) == a`; for unsized element types the extra metadata word is
xor-combined independently and the round-trip identity holds for it as
well (hence for the whole wide value componentwise). -/
theorem raw_xor_roundtrip :
    (∀ a b : Nat, rawXor (rawXor a b) b = a) ∧
    (∀ a b : Nat × Nat, rawXorWide (rawXorWide a b) b = a) ∧
    (∀ b : Nat, rawXor (rawXor rawNull b) b = rawNull) ∧
    (∀ b : Nat × Nat, rawXorWide (rawXorWide rawNullWide b) b = rawNullWide) := by
  refine ⟨fun a b => ?_, fun a b => ?_, fun b => ?_, fun b => ?_⟩
  · simp [rawXor, Nat.xor_assoc]
  · simp [rawXorWide, Nat.xor_assoc]
  · simp [rawXor, rawNull, Nat.xor_assoc]
  · simp [rawXorWide, rawNullWide, Nat.xor_assoc]

/-! ## Equivalence of the two skip loops (claim C5) -/

theorem skipLoopB_eq_skipLoopF : ∀ (n : Nat) (k : XCur α), skipLoopB n k = skipLoopF n k := by
  intro n
  induction n with
  | zero => intro k; rfl
  | succ n ih =>
    intro k
    simp only [skipLoopB, skipLoopF]
    cases XCur.next k with
    | mk r k' => cases r <;> simp [ih]

/-- C5: for every cursor state and every count `n`, `Cursor::skip_backwards(n)`
performs exactly the same cursor-state transition as
`Cursor::skip_forwards(n)`: both loops step with the forwarded primitive
`next()`, so the two operations are behaviorally equivalent on all inputs. -/
theorem skip_backwards_eq_skip_forwards (k : XCur α) (n : Nat) :
    skip_backwards k n = skip_forwards k n := by
  simp only [skip_backwards, skip_forwards, skipLoopB_eq_skipLoopF]

/-- C9: starting from the XorList `[0,1,2,3,4,5]` with a cursor at the start,
removing the front element gives `[1,2,3,4,5]`; advancing the cursor twice,
inserting 6 before the cursor, removing the element at the cursor and
inserting 7 after the cursor yields the element sequence `[1,2,6,7,4,5]`. -/
theorem cursor_scenario_sequence :
    toList scene9a.m scene9a.l = [1, 2, 3, 4, 5] ∧
    toList scene9b.m scene9b.l = [1, 2, 6, 7, 4, 5] := by
  exact ⟨rfl, rfl⟩

/-- C1 (failing-input evaluation): `split` at an interior cursor position does
not partition the list.  After splitting `[10, 20]` between its two elements,
iterating the original list still yields both elements and iterating the
returned list yields them again in reverse, because `split` only moves the
head/tail pointers and never patches the two boundary xor links.  The
concatenation of the two iterations is `[10, 20, 20, 10]`, not the original
sequence `[10, 20]`. -/
theorem split_fails_to_partition :
    toList splitScene.1.m splitScene.1.l = [10, 20] ∧
    toList splitScene.1.m splitScene.2 = [20, 10] ∧
    toList splitScene.1.m splitScene.1.l ++ toList splitScene.1.m splitScene.2 ≠ [10, 20] := by
  refine ⟨rfl, rfl, ?_⟩
  decide

/-- C2 (failing-input evaluation): splicing a donor with two or more nodes
into an empty list panics instead of transplanting head/tail: the branch for
an empty receiving list transfers and nulls the donor's pointers but does not
return, so the fall-through `list.head.take().unwrap()` unwraps `None`.  In
the model the panic is the `none` result. -/
theorem splice_into_empty_panics :
    (cursor spliceDonor.1 XLst.new).splice spliceDonor.2 = none := by
  decide

/-- C3 counterexample: on the one-element list `[5]`, the single-call
sequence `prev()` is made at the Start boundary and returns nothing, so its
net displacement is zero, yet it changes the cursor's `(prev, curr)` pair
from `(0, head)` to `(0, 0)`: `prev()` unconditionally writes `curr := prev`
before discovering that `prev` is null. -/
theorem cursor_net_zero_cex :
    netDisp cexCursor [false] = 0 ∧
    ((runCalls cexCursor [false]).p, (runCalls cexCursor [false]).c) ≠ (cexCursor.p, cexCursor.c) := by
  decide

theorem next_prev_cancel {k k' : XCur α} {v : α} (h : XCur.next k = (some v, k')) :
    XCur.prev k' = (some v, k) := by
  rcases hl : hLookup k.m.heap k.c with _ | nd <;> simp [XCur.next, hl] at h
  obtain ⟨hv, hk⟩ := h
  subst hv
  rw [← hk]
  simp [XCur.prev, hl, Nat.xor_assoc]

theorem prev_next_cancel {k k' : XCur α} {v : α} (h : XCur.prev k = (some v, k')) :
    XCur.next k' = (some v, k) := by
  rcases hl : hLookup k.m.heap k.p with _ | nd <;> simp [XCur.prev, hl] at h
  obtain ⟨hv, hk⟩ := h
  subst hv
  rw [← hk]
  simp [XCur.next, hl, Nat.xor_assoc]

theorem runMoves_append (l1 l2 : List Bool) (k : XCur α) :
    runMoves k (l1 ++ l2) = (runMoves k l1).bind fun k1 => runMoves k1 l2 := by
  induction l1 generalizing k with
  | nil => simp [runMoves]
  | cons mv t ih =>
    simp only [List.cons_append, runMoves]
    rcases hs : cstep k mv with ⟨_ | v, k'⟩ <;> simp [ih]

theorem runMoves_cons_some {k k' : XCur α} {mv : Bool} {t : List Bool}
    (h : runMoves k (mv :: t) = some k') :
    ∃ v k1, cstep k mv = (some v, k1) ∧ runMoves k1 t = some k' := by
  unfold runMoves at h
  rcases hs : cstep k mv with ⟨_ | v, k1⟩ <;> rw [hs] at h
  · simp at h
  · exact ⟨v, k1, rfl, h⟩

theorem runMoves_flip (mv : Bool) (suf : List Bool) (k1 k' : XCur α)
    (h : runMoves k1 (mv :: (!mv) :: suf) = some k') : runMoves k1 suf = some k' := by
  obtain ⟨v1, k2, h1, h⟩ := runMoves_cons_some h
  obtain ⟨v2, k3, h2, h⟩ := runMoves_cons_some h
  have hk : k3 = k1 := by
    cases mv
    · have hc : XCur.next k2 = (some v1, k1) := prev_next_cancel h1
      have h2' : XCur.next k2 = (some v2, k3) := h2
      rw [h2'] at hc
      exact congrArg Prod.snd hc
    · have hc : XCur.prev k2 = (some v1, k1) := next_prev_cancel h1
      have h2' : XCur.prev k2 = (some v2, k3) := h2
      rw [h2'] at hc
      exact congrArg Prod.snd hc
  rw [← hk]; exact h

theorem runMoves_cancel_pair (pre suf : List Bool) (mv : Bool) (k k' : XCur α)
    (h : runMoves k (pre ++ mv :: (!mv) :: suf) = some k') :
    runMoves k (pre ++ suf) = some k' := by
  rw [runMoves_append] at h ⊢
  rcases hp : runMoves k pre with _ | k1
  · rw [hp] at h; simp at h
  · rw [hp] at h
    simp only [Option.some_bind] at h ⊢
    exact runMoves_flip mv suf k1 k' h

theorem flip_or_replicate : ∀ ms : List Bool,
    (∃ pre mv suf, ms = pre ++ mv :: (!mv) :: suf) ∨ (∃ b, ms = List.replicate ms.length b) := by
  intro ms
  induction ms with
  | nil => right; exact ⟨true, rfl⟩
  | cons a t ih =>
    rcases ih with ⟨pre, mv, suf, rfl⟩ | ⟨b, hb⟩
    · left; exact ⟨a :: pre, mv, suf, rfl⟩
    · cases t with
      | nil => right; exact ⟨a, rfl⟩
      | cons c t' =>
        rw [List.length_cons, List.replicate_succ] at hb
        obtain ⟨hcb, ht⟩ := List.cons.inj hb
        by_cases hab : a = c
        · right
          refine ⟨b, ?_⟩
          rw [List.length_cons, List.length_cons, List.replicate_succ, List.replicate_succ]
          rw [hab, hcb, ← ht]
        · left
          have hc : c = !a := by cases a <;> cases c <;> revert hab <;> decide
          exact ⟨[], a, t', by rw [hc]; simp⟩

theorem replicate_count_eq_zero (n : Nat) (b : Bool)
    (h : (List.replicate n b).count true = (List.replicate n b).count false) : n = 0 := by
  cases b <;> simp [List.count_replicate] at h <;> omega

theorem runMoves_balanced_aux : ∀ (n : Nat) (ms : List Bool), ms.length ≤ n →
    ∀ (k k' : XCur α), runMoves k ms = some k' → ms.count true = ms.count false → k' = k := by
  intro n
  induction n with
  | zero =>
    intro ms hlen k k' hrun _
    have hms : ms = [] := List.eq_nil_of_length_eq_zero (Nat.le_zero.mp hlen)
    subst hms
    have hkk := hrun
    simp [runMoves] at hkk
    exact hkk.symm
  | succ n ih =>
    intro ms hlen k k' hrun hcnt
    rcases flip_or_replicate ms with ⟨pre, mv, suf, rfl⟩ | ⟨b, hb⟩
    · have hrun' : runMoves k (pre ++ suf) = some k' := runMoves_cancel_pair pre suf mv k k' hrun
      have hlen' : (pre ++ suf).length ≤ n := by
        simp only [List.length_append, List.length_cons] at hlen ⊢
        omega
      have hcnt' : (pre ++ suf).count true = (pre ++ suf).count false := by
        simp only [List.count_append, List.count_cons] at hcnt ⊢
        cases mv <;> simp at hcnt <;> omega
      exact ih (pre ++ suf) hlen' k k' hrun' hcnt'
    · have h0 : ms.length = 0 := by
        rw [hb] at hcnt
        exact replicate_count_eq_zero ms.length b hcnt
      have hms : ms = [] := List.eq_nil_of_length_eq_zero h0
      subst hms
      have hkk := hrun
      simp [runMoves] at hkk
      exact hkk.symm

/-- C3 (amended): for every cursor and every finite sequence of `next()` and
`prev()` calls in which every call returns an element (no call is made at
the Start or End boundary) and the numbers of `next` and `prev` calls are
equal (net displacement zero), the final cursor state, in particular its
`(prev, curr)` pair, is identical to the starting one.  The original claim,
which also admitted boundary calls returning nothing, is refuted by the
counterexample: such calls can change the pair. -/
theorem cursor_net_zero_of_success (k k' : XCur α) (ms : List Bool)
    (hrun : runMoves k ms = some k') (hbal : ms.count true = ms.count false) :
    (k'.p, k'.c) = (k.p, k.c) := by
  rw [runMoves_balanced_aux ms.length ms le_rfl k k' hrun hbal]

/-- Witness for `cursor_net_zero_of_success`: on the one-element list `[5]`,
the sequence `next(); prev()` succeeds at every call, is balanced, and
restores the cursor pair. -/
theorem cursor_net_zero_witness :
    runMoves cexCursor [true, false] = some cexCursor ∧
    ([true, false].count true = [true, false].count false) ∧
    ((cexCursor.p, cexCursor.c) = (cexCursor.p, cexCursor.c)) :=
  ⟨by decide, by decide,
    cursor_net_zero_of_success cexCursor cexCursor [true, false] (by decide) (by decide)⟩

/-! ## Association-list heap lemmas -/

theorem hLookup_eq_none {h : List (Nat × β)} {x : Nat} (hx : x ∉ keysOf h) :
    hLookup h x = none := by
  induction h with
  | nil => rfl
  | cons e t ih =>
    obtain ⟨b, nd⟩ := e
    simp only [keysOf, List.map_cons, List.mem_cons, not_or] at hx
    simp only [hLookup, if_neg hx.1]
    exact ih (by simpa [keysOf] using hx.2)

theorem mem_keysOf_of_hLookup {h : List (Nat × β)} {x : Nat} {nd : β}
    (hl : hLookup h x = some nd) : x ∈ keysOf h := by
  by_contra hx
  rw [hLookup_eq_none hx] at hl
  exact Option.noConfusion hl

theorem hLookup_hUpdate (h : List (Nat × β)) (a x : Nat) (f : β → β) :
    hLookup (hUpdate h a f) x = if x = a then (hLookup h a).map f else hLookup h x := by
  induction h with
  | nil => simp [hUpdate, hLookup]
  | cons e t ih =>
    obtain ⟨b, nd⟩ := e
    by_cases hab : a = b
    · by_cases hxb : x = b <;> simp [hUpdate, hLookup, hab, hxb]
    · have hba : ¬ b = a := fun hh => hab hh.symm
      by_cases hxb : x = b
      · have hxa : ¬ x = a := by rw [hxb]; exact hba
        simp [hUpdate, hLookup, hab, hxb, hxa, hba]
      · simp [hUpdate, hLookup, hab, hxb, ih]

theorem keysOf_hUpdate (h : List (Nat × β)) (a : Nat) (f : β → β) :
    keysOf (hUpdate h a f) = keysOf h := by
  induction h with
  | nil => rfl
  | cons e t ih =>
    obtain ⟨b, nd⟩ := e
    by_cases hab : a = b <;> simp [hUpdate, keysOf, hab] <;> simpa [keysOf] using ih

theorem keysOf_hErase (h : List (Nat × β)) (a : Nat) :
    keysOf (hErase h a) = (keysOf h).erase a := by
  induction h with
  | nil => rfl
  | cons e t ih =>
    obtain ⟨b, nd⟩ := e
    by_cases hab : a = b
    · simp [hErase, keysOf, hab, List.erase_cons]
    · have hba : ¬ b = a := fun hh => hab hh.symm
      simp [hErase, keysOf, hab, List.erase_cons, hba]
      simpa [keysOf] using ih

theorem hLookup_hErase {h : List (Nat × β)} (hn : (keysOf h).Nodup) (a x : Nat) :
    hLookup (hErase h a) x = if x = a then none else hLookup h x := by
  induction h with
  | nil => simp [hErase, hLookup]
  | cons e t ih =>
    obtain ⟨b, nd⟩ := e
    simp only [keysOf, List.map_cons, List.nodup_cons] at hn
    by_cases hab : a = b
    · by_cases hxa : x = a
      · rw [hErase, if_pos hab, if_pos hxa]
        exact hLookup_eq_none (by rw [hxa, hab]; simpa [keysOf] using hn.1)
      · have hxb : ¬ x = b := by rw [← hab]; exact hxa
        simp [hErase, hLookup, hab, hxa, hxb]
    · have hba : ¬ b = a := fun hh => hab hh.symm
      by_cases hxb : x = b
      · have hxa : ¬ x = a := by rw [hxb]; exact hba
        simp [hErase, hLookup, hab, hxb, hxa, hba]
      · simp [hErase, hLookup, hab, hxb, ih (by simpa [keysOf] using hn.2)]

theorem Seg_nil {h : Heap α} {p c b q : Nat} : Seg h p c [] b q ↔ (b = p ∧ q = c) :=
  Iff.rfl

theorem Seg_cons {h : Heap α} {p c b q x : Nat} {v : α} {ps : List (Nat × α)} :
    Seg h p c ((x, v) :: ps) b q ↔
      x = c ∧ c ≠ 0 ∧
        ∃ nd, hLookup h c = some nd ∧ nd.data = v ∧ Seg h c (p ^^^ nd.link) ps b q := by
  show (_ ∧ _ ∧ match hLookup h c with
    | some nd => nd.data = v ∧ Seg h c (p ^^^ nd.link) ps b q
    | none => False) ↔ _
  rcases hl : hLookup h c with _ | nd <;> simp [hl]

theorem Seg_append {h : Heap α} {ps qs : List (Nat × α)} : ∀ {p c b q : Nat},
    Seg h p c (ps ++ qs) b q ↔ ∃ b1 c1, Seg h p c ps b1 c1 ∧ Seg h b1 c1 qs b q := by
  induction ps with
  | nil =>
    intro p c b q
    constructor
    · intro hs; exact ⟨p, c, ⟨rfl, rfl⟩, hs⟩
    · rintro ⟨b1, c1, ⟨rfl, rfl⟩, hs⟩; exact hs
  | cons e ps ih =>
    intro p c b q
    obtain ⟨x, v⟩ := e
    simp only [List.cons_append, Seg_cons, ih]
    constructor
    · rintro ⟨rfl, hc, nd, hl, hd, b1, c1, h1, h2⟩
      exact ⟨b1, c1, ⟨rfl, hc, nd, hl, hd, h1⟩, h2⟩
    · rintro ⟨b1, c1, ⟨rfl, hc, nd, hl, hd, h1⟩, h2⟩
      exact ⟨rfl, hc, nd, hl, hd, b1, c1, h1, h2⟩

theorem Seg_frame {h h' : Heap α} : ∀ {ps : List (Nat × α)} {p c b q : Nat},
    (∀ x ∈ ps, hLookup h' (Prod.fst x) = hLookup h (Prod.fst x)) →
    Seg h p c ps b q → Seg h' p c ps b q := by
  intro ps
  induction ps with
  | nil => intro p c b q _ hs; exact hs
  | cons e ps ih =>
    intro p c b q hagree hs
    obtain ⟨x, v⟩ := e
    rw [Seg_cons] at hs ⊢
    obtain ⟨rfl, hc, nd, hl, hd, hrest⟩ := hs
    refine ⟨rfl, hc, nd, ?_, hd, ih (fun y hy => hagree y (List.mem_cons_of_mem _ hy)) hrest⟩
    rw [hagree (x, v) (List.mem_cons_self _ _)]
    exact hl

theorem Seg_mem {h : Heap α} : ∀ {ps : List (Nat × α)} {p c b q : Nat},
    Seg h p c ps b q → ∀ x ∈ ps,
      Prod.fst x ≠ 0 ∧ ∃ nd, hLookup h (Prod.fst x) = some nd ∧ nd.data = Prod.snd x := by
  intro ps
  induction ps with
  | nil => intro p c b q _ x hx; exact absurd hx (List.not_mem_nil x)
  | cons e ps ih =>
    intro p c b q hs x hx
    obtain ⟨y, v⟩ := e
    rw [Seg_cons] at hs
    obtain ⟨rfl, hc, nd, hl, hd, hrest⟩ := hs
    rcases List.mem_cons.mp hx with rfl | hx'
    · exact ⟨hc, nd, hl, hd⟩
    · exact ih hrest x hx'

theorem Seg_last {h : Heap α} : ∀ {ps : List (Nat × α)} {p c b q x : Nat} {v : α},
    Seg h p c (ps ++ [(x, v)]) b q → b = x := by
  intro ps
  induction ps with
  | nil =>
    intro p c b q x v hs
    rw [List.nil_append, Seg_cons] at hs
    obtain ⟨rfl, _, nd, _, _, hnil⟩ := hs
    exact hnil.1
  | cons e ps ih =>
    intro p c b q x v hs
    obtain ⟨y, w⟩ := e
    rw [List.cons_append, Seg_cons] at hs
    obtain ⟨rfl, _, nd, _, _, hrest⟩ := hs
    exact ih hrest

theorem Seg_last_of {h : Heap α} (ps : List (Nat × α)) {p c b q x : Nat} {v : α}
    (hs : Seg h p c (ps ++ [(x, v)]) b q) : b = x :=
  Seg_last hs

theorem repXL_nil_mem0 : repXL (⟨[], 1⟩ : Mem α) XLst.new [] := by
  exact ⟨0, ⟨rfl, rfl⟩, rfl, List.nodup_nil, List.nodup_nil, Nat.one_pos,
    fun a ha => absurd ha (List.not_mem_nil a), fun a => Iff.rfl⟩

theorem iterFuel_Seg {h : Heap α} (h0 : hLookup h 0 = none) :
    ∀ (ps : List (Nat × α)) (p c b fuel : Nat),
      Seg h p c ps b 0 → ps.length < fuel →
      iterFuel h fuel p c = ps.map Prod.snd := by
  intro ps
  induction ps with
  | nil =>
    intro p c b fuel hs hf
    obtain ⟨-, hc⟩ := hs
    cases fuel with
    | zero => omega
    | succ f => rw [← hc]; simp [iterFuel, h0]
  | cons e ps ih =>
    intro p c b fuel hs hf
    obtain ⟨x, v⟩ := e
    rw [Seg_cons] at hs
    obtain ⟨rfl, hc, nd, hl, hd, hrest⟩ := hs
    cases fuel with
    | zero => omega
    | succ f =>
      simp only [iterFuel, hl, List.map_cons]
      rw [hd, ih _ _ _ _ hrest (by simpa using Nat.lt_of_succ_lt_succ hf)]

theorem toList_repXL {m : Mem α} {l : XLst} {ps : List (Nat × α)} (hr : repXL m l ps) :
    toList m l = ps.map Prod.snd := by
  obtain ⟨b, hs, htl, hnd, hk, hpos, hbd, hiff⟩ := hr
  have h0 : hLookup m.heap 0 = none := by
    apply hLookup_eq_none
    intro h0m
    exact absurd (hbd 0 h0m).1 (lt_irrefl 0)
  have hperm : List.Perm (keysOf m.heap) (ps.map Prod.fst) :=
    (List.perm_ext_iff_of_nodup hk hnd).mpr hiff
  have hlen : m.heap.length = ps.length := by
    have hpl := hperm.length_eq
    simpa [keysOf, List.length_map] using hpl
  exact iterFuel_Seg h0 ps 0 l.head b (m.heap.length + 1) hs (by omega)

theorem Seg_nil_of_zero {h : Heap α} {p b q : Nat} {ps : List (Nat × α)}
    (hs : Seg h p 0 ps b q) : ps = [] := by
  cases ps with
  | nil => rfl
  | cons e t =>
    obtain ⟨x, v⟩ := e
    rw [Seg_cons] at hs
    exact absurd rfl hs.2.1

theorem hLookup_cons_self (b : Nat) (nd : β) (t : List (Nat × β)) :
    hLookup ((b, nd) :: t) b = some nd := by simp [hLookup]

theorem hLookup_cons_ne (b : Nat) (nd : β) (t : List (Nat × β)) {x : Nat} (hx : x ≠ b) :
    hLookup ((b, nd) :: t) x = hLookup t x := by simp [hLookup, hx]

theorem hLookup_hSetLink_self {h : Heap α} {a : Nat} {nd : XNode α}
    (hl : hLookup h a = some nd) (x : Nat) :
    hLookup (hSetLink h a x) a = some ⟨x, nd.data⟩ := by
  rw [hSetLink, hLookup_hUpdate, if_pos rfl, hl]; rfl

theorem hLookup_hSetLink_ne {h : Heap α} {a y : Nat} (hne : y ≠ a) (x : Nat) :
    hLookup (hSetLink h a x) y = hLookup h y := by
  rw [hSetLink, hLookup_hUpdate, if_neg hne]

theorem hLookup_hXorLink_self {h : Heap α} {a : Nat} {nd : XNode α}
    (hl : hLookup h a = some nd) (x : Nat) :
    hLookup (hXorLink h a x) a = some ⟨nd.link ^^^ x, nd.data⟩ := by
  rw [hXorLink, hLookup_hUpdate, if_pos rfl, hl]; rfl

theorem hLookup_hXorLink_ne {h : Heap α} {a y : Nat} (hne : y ≠ a) (x : Nat) :
    hLookup (hXorLink h a x) y = hLookup h y := by
  rw [hXorLink, hLookup_hUpdate, if_neg hne]

theorem keysOf_hSetLink (h : Heap α) (a x : Nat) : keysOf (hSetLink h a x) = keysOf h :=
  keysOf_hUpdate h a _

theorem keysOf_hXorLink (h : Heap α) (a x : Nat) : keysOf (hXorLink h a x) = keysOf h :=
  keysOf_hUpdate h a _

/-- A list of length at least two, in representation: it decomposes with a
nonzero last address equal to both the chain end and `l.tail`. -/
theorem repXL_ge_two {m : Mem α} {l : XLst} {ps : List (Nat × α)} {b : Nat}
    (hs : Seg m.heap 0 l.head ps b 0)
    (htl : l.tail = if ps.length ≤ 1 then 0 else b)
    (hh : l.head ≠ 0) (ht : l.tail ≠ 0) :
    ∃ x w mid t z, ps = (x, w) :: mid ++ [(t, z)] ∧ x = l.head ∧ t = b ∧ t ≠ 0 ∧ l.tail = b := by
  obtain ⟨x, w, ps', hps⟩ : ∃ x w ps', ps = (x, w) :: ps' := by
    cases ps with
    | nil => exact absurd ((Seg_nil.mp hs).2.symm) hh
    | cons e t => exact ⟨e.1, e.2, t, by simp⟩
  subst hps
  rcases List.eq_nil_or_concat ps' with rfl | ⟨mid, e, hmid⟩
  · rw [htl] at ht
    simp at ht
  · obtain ⟨t, z⟩ := e
    rw [List.concat_eq_append] at hmid
    subst hmid
    have hxh : x = l.head := by
      rw [Seg_cons] at hs
      exact hs.1
    have hb : b = t := Seg_last_of ((x, w) :: mid) (by simpa using hs)
    have ht0 : t ≠ 0 := (Seg_mem hs (t, z) (by simp)).1
    have hlen : ¬ ((x, w) :: (mid ++ [(t, z)])).length ≤ 1 := by
      simp [List.length_append]
    rw [htl, if_neg hlen]
    exact ⟨x, w, mid, t, z, rfl, hxh, hb.symm, ht0, rfl⟩

theorem keysOf_cons (b : Nat) (nd : β) (t : List (Nat × β)) :
    keysOf ((b, nd) :: t) = b :: keysOf t := rfl

/-- Book-keeping shared by all `push` branches: consing the fresh node onto
the heap and appending the fresh address to the contents keeps the nodup,
bound and exact-domain conditions. -/
theorem repXL_wf_snoc {m : Mem α} {ps : List (Nat × α)} (v : α)
    (hpos : 0 < m.fresh)
    (hnd : (ps.map Prod.fst).Nodup)
    (hk : (keysOf m.heap).Nodup)
    (hbd : ∀ a ∈ keysOf m.heap, 0 < a ∧ a < m.fresh)
    (hiff : ∀ a : Nat, a ∈ keysOf m.heap ↔ a ∈ ps.map Prod.fst) :
    ((ps ++ [(m.fresh, v)]).map Prod.fst).Nodup ∧
    (m.fresh :: keysOf m.heap).Nodup ∧
    (∀ a ∈ m.fresh :: keysOf m.heap, 0 < a ∧ a < m.fresh + 1) ∧
    (∀ a : Nat, a ∈ m.fresh :: keysOf m.heap ↔ a ∈ (ps ++ [(m.fresh, v)]).map Prod.fst) := by
  have hfk : m.fresh ∉ keysOf m.heap := fun hmem => absurd (hbd _ hmem).2 (lt_irrefl _)
  have hfps : m.fresh ∉ ps.map Prod.fst := fun hmem => hfk ((hiff _).mpr hmem)
  refine ⟨?_, List.Nodup.cons hfk hk, ?_, ?_⟩
  · rw [List.map_append, List.nodup_append]
    refine ⟨hnd, by simp, ?_⟩
    intro a ha hb
    simp only [List.map_cons, List.map_nil, List.mem_singleton] at hb
    exact hfps (hb ▸ ha)
  · intro a ha
    rcases List.mem_cons.mp ha with rfl | ha'
    · omega
    · have hb2 := hbd a ha'
      omega
  · intro a
    rw [List.map_append, List.mem_append, List.mem_cons]
    constructor
    · rintro (rfl | ha')
      · right; simp
      · left; exact (hiff a).mp ha'
    · rintro (ha' | ha')
      · right; exact (hiff a).mpr ha'
      · simp only [List.map_cons, List.map_nil, List.mem_singleton] at ha'
        left; exact ha'

theorem repXL_push_back {m : Mem α} {l : XLst} {ps : List (Nat × α)} {v : α}
    (hr : repXL m l ps) :
    repXL (push_back m l v).1 (push_back m l v).2 (ps ++ [(m.fresh, v)]) := by
  obtain ⟨b, hs, htl, hnd, hk, hpos, hbd, hiff⟩ := hr
  obtain ⟨hw1, hw2, hw3, hw4⟩ := @repXL_wf_snoc α m ps v hpos hnd hk hbd hiff
  have hfk : m.fresh ∉ keysOf m.heap := fun hmem => absurd (hbd _ hmem).2 (lt_irrefl _)
  have hfps : m.fresh ∉ ps.map Prod.fst := fun hmem => hfk ((hiff _).mpr hmem)
  have hf0 : m.fresh ≠ 0 := by omega
  by_cases hh : l.head = 0
  · -- empty list: the new node becomes the sole head
    have hps : ps = [] := Seg_nil_of_zero (hh ▸ hs)
    have htl0 : l.tail = 0 := by rw [htl, hps]; simp
    have hpb : push_back m l v =
        (⟨(m.fresh, ⟨0, v⟩) :: m.heap, m.fresh + 1⟩, ⟨m.fresh, l.tail⟩) := by
      simp [push_back, hh]
    rw [hpb]
    refine ⟨m.fresh, ?_, ?_, hw1, ?_, Nat.succ_pos _, ?_, ?_⟩
    · rw [hps, List.nil_append, Seg_cons]
      exact ⟨rfl, hf0, ⟨0, v⟩, hLookup_cons_self _ _ _, rfl, rfl, by simp⟩
    · rw [hps, htl0]
      simp
    · rw [keysOf_cons]; exact hw2
    · rw [keysOf_cons]; exact hw3
    · intro a; rw [keysOf_cons]; exact hw4 a
  · by_cases ht : l.tail = 0
    · -- exactly one node: second node becomes the tail, links set directly
      obtain ⟨x, w, ps', hps⟩ : ∃ x w ps', ps = (x, w) :: ps' := by
        cases ps with
        | nil => exact absurd ((Seg_nil.mp hs).2.symm) hh
        | cons e t => exact ⟨e.1, e.2, t, by simp⟩
      have hps' : ps' = [] := by
        rcases List.eq_nil_or_concat ps' with h' | ⟨mid, e, hmid⟩
        · exact h'
        · obtain ⟨t, z⟩ := e
          rw [List.concat_eq_append] at hmid
          rw [hps, hmid] at hs htl
          have hb : b = t := Seg_last_of ((x, w) :: mid) (by simpa using hs)
          have ht0 : t ≠ 0 := (Seg_mem hs (t, z) (by simp)).1
          have hlen : ¬ ((x, w) :: (mid ++ [(t, z)])).length ≤ 1 := by
            simp [List.length_append]
          rw [htl, if_neg hlen] at ht
          exact absurd (hb ▸ ht) ht0
      rw [hps'] at hps
      rw [hps] at hs
      rw [Seg_cons] at hs
      obtain ⟨hxh, hx0, nd, hl, hd, hbx, hq⟩ := hs
      subst hxh
      have hxa : l.head ≠ m.fresh := fun hc => hfps (by rw [hps, hc]; simp)
      have hpb : push_back m l v =
          (⟨hSetLink ((m.fresh, ⟨l.head, v⟩) :: m.heap) l.head m.fresh, m.fresh + 1⟩,
           ⟨l.head, m.fresh⟩) := by
        simp [push_back, hh, ht]
      rw [hpb]
      have hl1 : hLookup ((m.fresh, (⟨l.head, v⟩ : XNode α)) :: m.heap) l.head = some nd := by
        rw [hLookup_cons_ne _ _ _ hxa]
        exact hl
      refine ⟨m.fresh, ?_, ?_, hw1, ?_, Nat.succ_pos _, ?_, ?_⟩
      · rw [hps, List.cons_append, List.nil_append, Seg_cons]
        refine ⟨rfl, hx0, ⟨m.fresh, nd.data⟩, hLookup_hSetLink_self hl1 m.fresh, hd, ?_⟩
        rw [Nat.zero_xor, Seg_cons]
        refine ⟨rfl, hf0, ⟨l.head, v⟩, ?_, rfl, ?_⟩
        · rw [hLookup_hSetLink_ne (fun hc => hxa hc.symm) m.fresh]
          exact hLookup_cons_self _ _ _
        · rw [Seg_nil]
          simp
      · rw [hps]
        simp
      · rw [keysOf_hSetLink, keysOf_cons]; exact hw2
      · rw [keysOf_hSetLink, keysOf_cons]; exact hw3
      · intro a; rw [keysOf_hSetLink, keysOf_cons]; exact hw4 a
    · -- two or more nodes: general xor patch of the old tail
      obtain ⟨x, w, mid, t, z, hps, hxh, htb, ht0, hlt⟩ := repXL_ge_two hs htl hh ht
      have hltt : l.tail = t := by rw [hlt, htb]
      have hpb : push_back m l v =
          (⟨hXorLink ((m.fresh, ⟨t, v⟩) :: m.heap) t m.fresh, m.fresh + 1⟩,
           ⟨l.head, m.fresh⟩) := by
        rw [← hltt]
        simp [push_back, hh, ht]
      rw [hpb]
      have hsplit : ∃ b1 c1, Seg m.heap 0 l.head ((x, w) :: mid) b1 c1 ∧
          Seg m.heap b1 c1 [(t, z)] b 0 := by
        rw [← Seg_append]
        rw [hps] at hs
        simpa using hs
      obtain ⟨b1, c1, hfront, hlast⟩ := hsplit
      rw [Seg_cons] at hlast
      obtain ⟨htc, -, ndt, hlt2, hdt, hbt, hq⟩ := hlast
      have hlink : ndt.link = b1 := by
        have hxz : b1 ^^^ ndt.link = 0 := hq.symm
        have h2 := congrArg (fun y => b1 ^^^ y) hxz
        simpa [← Nat.xor_assoc] using h2
      have hndfull : (((x, w) :: mid).map Prod.fst ++ [t]).Nodup := by
        have hrw : ((x, w) :: mid).map Prod.fst ++ [t] =
            ((x, w) :: mid ++ [(t, z)]).map Prod.fst := by simp
        rw [hrw, ← hps]
        exact hnd
      rw [List.nodup_append] at hndfull
      have ht_notin : t ∉ ((x, w) :: mid).map Prod.fst := by
        intro hmem
        exact hndfull.2.2 hmem (by simp)
      have hframe : ∀ y ∈ (x, w) :: mid,
          hLookup (hXorLink ((m.fresh, (⟨t, v⟩ : XNode α)) :: m.heap) t m.fresh)
              (Prod.fst y) = hLookup m.heap (Prod.fst y) := by
        intro y hy
        have hyt : Prod.fst y ≠ t := fun hc =>
          ht_notin (hc ▸ List.mem_map_of_mem Prod.fst hy)
        have hymem : y ∈ (x, w) :: (mid ++ [(t, z)]) := by
          rcases List.mem_cons.mp hy with rfl | hy'
          · exact List.mem_cons_self _ _
          · exact List.mem_cons_of_mem _ (List.mem_append_left _ hy')
        have hyf : Prod.fst y ≠ m.fresh := by
          intro hc
          apply hfps
          rw [hps, ← hc]
          exact List.mem_map_of_mem Prod.fst hymem
        rw [hLookup_hXorLink_ne hyt, hLookup_cons_ne _ _ _ hyf]
      have htf : t ≠ m.fresh := fun hc => hfps (by rw [hps, ← hc]; simp)
      have hlt3 : hLookup ((m.fresh, (⟨t, v⟩ : XNode α)) :: m.heap) t = some ndt := by
        rw [hLookup_cons_ne _ _ _ htf, htc]
        exact hlt2
      refine ⟨m.fresh, ?_, ?_, hw1, ?_, Nat.succ_pos _, ?_, ?_⟩
      · have hlist : ps ++ [(m.fresh, v)] = ((x, w) :: mid) ++ [(t, z), (m.fresh, v)] := by
          rw [hps]; simp
        rw [hlist, Seg_append]
        have hfront2 : Seg m.heap 0 l.head ((x, w) :: mid) b1 t := by
          rw [htc]; exact hfront
        refine ⟨b1, t, Seg_frame hframe hfront2, ?_⟩
        rw [Seg_cons]
        refine ⟨rfl, ht0, ⟨ndt.link ^^^ m.fresh, ndt.data⟩, hLookup_hXorLink_self hlt3 m.fresh,
          hdt, ?_⟩
        rw [hlink, Seg_cons]
        have hb1f : b1 ^^^ (b1 ^^^ m.fresh) = m.fresh := by
          rw [← Nat.xor_assoc]
          simp
        rw [hb1f]
        refine ⟨rfl, hf0, ⟨t, v⟩, ?_, rfl, ?_⟩
        · rw [hLookup_hXorLink_ne (fun hc => htf hc.symm) m.fresh]
          exact hLookup_cons_self _ _ _
        · rw [Seg_nil]
          simp
      · rw [hps]
        simp [List.length_append]
      · rw [keysOf_hXorLink, keysOf_cons]; exact hw2
      · rw [keysOf_hXorLink, keysOf_cons]; exact hw3
      · intro a; rw [keysOf_hXorLink, keysOf_cons]; exact hw4 a

/-- Book-keeping shared by the `pop` branches: erasing the popped front
address from the heap keeps the nodup, bound and exact-domain conditions. -/
theorem repXL_wf_erase {m : Mem α} {x : Nat} {xv : α} {rest : List (Nat × α)}
    (hnd : (((x, xv) :: rest).map Prod.fst).Nodup)
    (hk : (keysOf m.heap).Nodup)
    (hbd : ∀ a ∈ keysOf m.heap, 0 < a ∧ a < m.fresh)
    (hiff : ∀ a : Nat, a ∈ keysOf m.heap ↔ a ∈ ((x, xv) :: rest).map Prod.fst) :
    (rest.map Prod.fst).Nodup ∧
    ((keysOf m.heap).erase x).Nodup ∧
    (∀ a ∈ (keysOf m.heap).erase x, 0 < a ∧ a < m.fresh) ∧
    (∀ a : Nat, a ∈ (keysOf m.heap).erase x ↔ a ∈ rest.map Prod.fst) := by
  rw [List.map_cons, List.nodup_cons] at hnd
  refine ⟨hnd.2, List.Nodup.erase x hk, ?_, ?_⟩
  · intro a ha
    exact hbd a (List.mem_of_mem_erase ha)
  · intro a
    rw [List.Nodup.mem_erase_iff hk]
    constructor
    · rintro ⟨hax, hain⟩
      rcases List.mem_cons.mp ((hiff a).mp hain) with rfl | hr'
      · exact absurd rfl hax
      · exact hr'
    · intro har
      refine ⟨fun hax => hnd.1 (hax ▸ har), (hiff a).mpr ?_⟩
      exact List.mem_cons_of_mem _ har

theorem pop_front_nil {m : Mem α} {l : XLst} (hr : repXL m l []) :
    pop_front m l = (none, m, l) := by
  obtain ⟨b, hs, -⟩ := hr
  obtain ⟨-, hc⟩ := hs
  rw [pop_front, if_pos hc.symm]

theorem repXL_pop_front {m : Mem α} {l : XLst} {x : Nat} {v : α} {rest : List (Nat × α)}
    (hr : repXL m l ((x, v) :: rest)) :
    (pop_front m l).1 = some v ∧
    repXL (pop_front m l).2.1 (pop_front m l).2.2 rest := by
  obtain ⟨b, hs, htl, hnd, hk, hpos, hbd, hiff⟩ := hr
  obtain ⟨hw1, hw2, hw3, hw4⟩ := repXL_wf_erase hnd hk hbd hiff
  rw [Seg_cons] at hs
  obtain ⟨hxh, hh0, ndx, hlx, hdx, hsrest⟩ := hs
  subst hxh
  rw [Nat.zero_xor] at hsrest
  have hh : ¬ l.head = 0 := hh0
  cases rest with
  | nil =>
    -- exactly one node
    obtain ⟨hbx, hq⟩ := hsrest
    have htl0 : l.tail = 0 := by rw [htl]; simp
    have hpf : pop_front m l = (some v, ⟨hErase m.heap l.head, m.fresh⟩, ⟨0, l.tail⟩) := by
      rw [pop_front, if_neg hh, if_pos htl0]
      simp only [hlx, hdx]
    rw [hpf]
    refine ⟨rfl, 0, ⟨rfl, rfl⟩, by rw [htl0]; simp, hw1, ?_, hpos, ?_, ?_⟩
    · rw [keysOf_hErase]; exact hw2
    · rw [keysOf_hErase]; exact hw3
    · intro a; rw [keysOf_hErase]; exact hw4 a
  | cons e rest2 =>
    obtain ⟨y, u⟩ := e
    rw [Seg_cons] at hsrest
    obtain ⟨hyc, hy0, ndy, hly, hdy, hsrest2⟩ := hsrest
    subst hyc
    have hglh : getLink m.heap l.head = ndx.link := by rw [getLink, hlx]
    have hxy : l.head ≠ ndx.link := by
      rw [List.map_cons, List.map_cons, List.nodup_cons] at hnd
      intro hc
      exact hnd.1 (hc ▸ List.mem_cons_self _ _)
    cases rest2 with
    | nil =>
      -- exactly two nodes
      obtain ⟨hby, hq2⟩ := hsrest2
      have hylink : ndy.link = l.head := by
        have hq3 : l.head ^^^ ndy.link = 0 := hq2.symm
        have h4 := congrArg (fun z => l.head ^^^ z) hq3
        simpa [← Nat.xor_assoc] using h4
      have htly : l.tail = ndx.link := by
        rw [htl, if_neg (by simp), hby]
      have hglt : getLink m.heap l.tail = l.head := by
        rw [htly, getLink, hly]
        exact hylink
      have hcond : getLink m.heap l.head = l.tail ∧ getLink m.heap l.tail = l.head :=
        ⟨by rw [hglh, htly], hglt⟩
      have hty0 : ¬ l.tail = 0 := by rw [htly]; exact hy0
      have hpf : pop_front m l =
          (some v, ⟨hErase (hSetLink m.heap l.tail 0) l.head, m.fresh⟩, ⟨l.tail, 0⟩) := by
        rw [pop_front, if_neg hh, if_neg hty0, if_pos hcond]
        simp only [hlx, hdx]
      rw [hpf, htly]
      have hyx : ndx.link ≠ l.head := fun hc => hxy hc.symm
      refine ⟨rfl, ndx.link, ?_, by simp, hw1, ?_, hpos, ?_, ?_⟩
      · rw [Seg_cons]
        refine ⟨rfl, hy0, ⟨0, ndy.data⟩, ?_, hdy, ?_⟩
        · rw [hLookup_hErase (by rw [keysOf_hSetLink]; exact hk) _ _,
            if_neg hyx, hLookup_hSetLink_self hly 0]
        · rw [Seg_nil]
          simp
      · rw [keysOf_hErase, keysOf_hSetLink]; exact hw2
      · rw [keysOf_hErase, keysOf_hSetLink]; exact hw3
      · intro a; rw [keysOf_hErase, keysOf_hSetLink]; exact hw4 a
    | cons e2 rest3 =>
      -- three or more nodes: general xor decompression
      obtain ⟨w2, u2⟩ := e2
      rcases List.eq_nil_or_concat ((w2, u2) :: rest3) with hcon | ⟨mid2, e3, hcon⟩
      · exact absurd hcon (by simp)
      obtain ⟨t, z⟩ := e3
      rw [List.concat_eq_append] at hcon
      have hfull : Seg m.heap 0 l.head
          ((l.head, v) :: (ndx.link, u) :: (w2, u2) :: rest3) b 0 := by
        rw [Seg_cons]
        refine ⟨rfl, hh0, ndx, hlx, hdx, ?_⟩
        rw [Nat.zero_xor, Seg_cons]
        exact ⟨rfl, hy0, ndy, hly, hdy, hsrest2⟩
      have hbt : b = t := by
        have hsh : ((l.head, v) :: (ndx.link, u) :: (w2, u2) :: rest3) =
            ((l.head, v) :: (ndx.link, u) :: mid2) ++ [(t, z)] := by
          rw [hcon]; simp
        exact Seg_last (by rw [hsh] at hfull; exact hfull)
      have ht0 : t ≠ 0 := by
        have hm := Seg_mem hfull (t, z) (by rw [hcon]; simp)
        exact hm.1
      have hlen : ¬ ((l.head, v) :: (ndx.link, u) :: (w2, u2) :: rest3).length ≤ 1 := by
        simp
      have htlb : l.tail = t := by rw [htl, if_neg hlen, hbt]
      have hty0 : ¬ l.tail = 0 := by rw [htlb]; exact ht0
      have hyt : ndx.link ≠ t := by
        rw [hcon] at hnd
        rw [List.map_cons, List.nodup_cons, List.map_cons, List.nodup_cons] at hnd
        intro hc
        apply hnd.2.1
        rw [hc]
        simp
      have hcond : ¬ (getLink m.heap l.head = l.tail ∧
          getLink m.heap l.tail = l.head) := by
        rintro ⟨hc1, -⟩
        rw [hglh, htlb] at hc1
        exact hyt hc1
      have hpf : pop_front m l =
          (some v, ⟨hErase (hXorLink m.heap (getLink m.heap l.head) l.head) l.head, m.fresh⟩,
           ⟨getLink m.heap l.head, l.tail⟩) := by
        rw [pop_front, if_neg hh, if_neg hty0, if_neg hcond]
        simp only [hlx, hdx]
      rw [hpf, hglh]
      have hxt : ∀ yy ∈ (w2, u2) :: rest3, Prod.fst yy ≠ l.head ∧ Prod.fst yy ≠ ndx.link := by
        intro yy hyy
        rw [List.map_cons, List.nodup_cons, List.map_cons, List.nodup_cons] at hnd
        constructor
        · intro hc
          have hmm : l.head ∈
              List.map Prod.fst ((ndx.link, u) :: (w2, u2) :: rest3) := by
            rw [← hc]
            exact List.mem_cons_of_mem _ (List.mem_map.mpr ⟨yy, hyy, rfl⟩)
          exact hnd.1 hmm
        · intro hc
          have hmm : ndx.link ∈ List.map Prod.fst ((w2, u2) :: rest3) := by
            rw [← hc]
            exact List.mem_map.mpr ⟨yy, hyy, rfl⟩
          exact hnd.2.1 hmm
      have hframe : ∀ yy ∈ (w2, u2) :: rest3,
          hLookup (hErase (hXorLink m.heap ndx.link l.head) l.head) (Prod.fst yy) =
            hLookup m.heap (Prod.fst yy) := by
        intro yy hyy
        obtain ⟨hc1, hc2⟩ := hxt yy hyy
        rw [hLookup_hErase (by rw [keysOf_hXorLink]; exact hk) _ _, if_neg hc1,
          hLookup_hXorLink_ne hc2]
      refine ⟨rfl, b, ?_, ?_, hw1, ?_, hpos, ?_, ?_⟩
      · rw [Seg_cons]
        refine ⟨rfl, hy0, ⟨ndy.link ^^^ l.head, ndy.data⟩, ?_, hdy, ?_⟩
        · rw [hLookup_hErase (by rw [keysOf_hXorLink]; exact hk) _ _,
            if_neg (fun hc => hxy hc.symm), hLookup_hXorLink_self hly l.head]
        · rw [Nat.zero_xor, Nat.xor_comm ndy.link l.head]
          exact Seg_frame hframe hsrest2
      · rw [htl, if_neg hlen]
        have hlen2 : ¬ ((ndx.link, u) :: (w2, u2) :: rest3).length ≤ 1 := by simp
        rw [if_neg hlen2]
      · rw [keysOf_hErase, keysOf_hXorLink]; exact hw2
      · rw [keysOf_hErase, keysOf_hXorLink]; exact hw3
      · intro a; rw [keysOf_hErase, keysOf_hXorLink]; exact hw4 a

theorem runQ_sim : ∀ (ops : List (QOp α)) (m : Mem α) (l : XLst)
    (ps : List (Nat × α)) (acc : List α), repXL m l ps →
    ∃ qs : List (Nat × α),
      repXL (runQ m l acc ops).1 (runQ m l acc ops).2.1 qs ∧
      (runQ m l acc ops).2.2 ++ qs.map Prod.snd = acc ++ ps.map Prod.snd ++ pushedOf ops := by
  intro ops
  induction ops with
  | nil =>
    intro m l ps acc hr
    exact ⟨ps, hr, by simp [runQ, pushedOf]⟩
  | cons op ops ih =>
    intro m l ps acc hr
    cases op with
    | push v =>
      have hstep : runQ m l acc (QOp.push v :: ops) =
          runQ (push_back m l v).1 (push_back m l v).2 acc ops := rfl
      rw [hstep]
      obtain ⟨qs, hq1, hq2⟩ := ih _ _ (ps ++ [(m.fresh, v)]) acc (repXL_push_back hr)
      refine ⟨qs, hq1, ?_⟩
      rw [hq2, pushedOf]
      simp [List.append_assoc]
    | pop =>
      cases ps with
      | nil =>
        have hpf := pop_front_nil hr
        have hstep : runQ m l acc (QOp.pop :: ops) = runQ m l acc ops := by
          show (match pop_front m l with
            | (some v, m', l') => runQ m' l' (acc ++ [v]) ops
            | (none, m', l') => runQ m' l' acc ops) = runQ m l acc ops
          rw [hpf]
        rw [hstep]
        obtain ⟨qs, hq1, hq2⟩ := ih _ _ [] acc hr
        exact ⟨qs, hq1, by rw [hq2]; simp [pushedOf]⟩
      | cons e rest =>
        obtain ⟨x, v⟩ := e
        obtain ⟨hval, hrep'⟩ := repXL_pop_front hr
        have hpf : pop_front m l =
            (some v, (pop_front m l).2.1, (pop_front m l).2.2) := by
          rw [← hval]
        have hstep : runQ m l acc (QOp.pop :: ops) =
            runQ (pop_front m l).2.1 (pop_front m l).2.2 (acc ++ [v]) ops := by
          show (match pop_front m l with
            | (some v, m', l') => runQ m' l' (acc ++ [v]) ops
            | (none, m', l') => runQ m' l' acc ops) =
            runQ (pop_front m l).2.1 (pop_front m l).2.2 (acc ++ [v]) ops
          rw [hpf]
        rw [hstep]
        obtain ⟨qs, hq1, hq2⟩ := ih _ _ rest (acc ++ [v]) hrep'
        refine ⟨qs, hq1, ?_⟩
        rw [hq2]
        simp [pushedOf, List.append_assoc]

/-- C4: for every finite sequence of `push_back` and `pop_front` operations
starting from an empty `XorList`, the sequence of elements returned by the
`pop_front` calls (ignoring `None` results on an empty list) equals, in
order, a prefix of the sequence of elements pushed. -/
theorem xorlist_fifo (α : Type) (ops : List (QOp α)) :
    ∃ t, (runQ (⟨[], 1⟩ : Mem α) XLst.new [] ops).2.2 ++ t = pushedOf ops := by
  obtain ⟨qs, -, heq⟩ := runQ_sim ops (⟨[], 1⟩ : Mem α) XLst.new [] [] repXL_nil_mem0
  exact ⟨qs.map Prod.snd, by simpa using heq⟩

/-! ## Preservation by the remaining list operations (for claim C10) -/

theorem repXL_wf_cons {m : Mem α} {ps : List (Nat × α)} (v : α)
    (hpos : 0 < m.fresh)
    (hnd : (ps.map Prod.fst).Nodup)
    (hk : (keysOf m.heap).Nodup)
    (hbd : ∀ a ∈ keysOf m.heap, 0 < a ∧ a < m.fresh)
    (hiff : ∀ a : Nat, a ∈ keysOf m.heap ↔ a ∈ ps.map Prod.fst) :
    (((m.fresh, v) :: ps).map Prod.fst).Nodup ∧
    (m.fresh :: keysOf m.heap).Nodup ∧
    (∀ a ∈ m.fresh :: keysOf m.heap, 0 < a ∧ a < m.fresh + 1) ∧
    (∀ a : Nat, a ∈ m.fresh :: keysOf m.heap ↔ a ∈ ((m.fresh, v) :: ps).map Prod.fst) := by
  have hfk : m.fresh ∉ keysOf m.heap := fun hmem => absurd (hbd _ hmem).2 (lt_irrefl _)
  have hfps : m.fresh ∉ ps.map Prod.fst := fun hmem => hfk ((hiff _).mpr hmem)
  refine ⟨?_, List.Nodup.cons hfk hk, ?_, ?_⟩
  · rw [List.map_cons, List.nodup_cons]
    exact ⟨hfps, hnd⟩
  · intro a ha
    rcases List.mem_cons.mp ha with rfl | ha'
    · omega
    · have hb2 := hbd a ha'
      omega
  · intro a
    rw [List.map_cons, List.mem_cons, List.mem_cons]
    constructor
    · rintro (rfl | ha')
      · left; rfl
      · right; exact (hiff a).mp ha'
    · rintro (rfl | ha')
      · left; rfl
      · right; exact (hiff a).mpr ha'

theorem repXL_push_front {m : Mem α} {l : XLst} {ps : List (Nat × α)} {v : α}
    (hr : repXL m l ps) :
    repXL (push_front m l v).1 (push_front m l v).2 ((m.fresh, v) :: ps) := by
  obtain ⟨b, hs, htl, hnd, hk, hpos, hbd, hiff⟩ := hr
  obtain ⟨hw1, hw2, hw3, hw4⟩ := @repXL_wf_cons α m ps v hpos hnd hk hbd hiff
  have hfk : m.fresh ∉ keysOf m.heap := fun hmem => absurd (hbd _ hmem).2 (lt_irrefl _)
  have hfps : m.fresh ∉ ps.map Prod.fst := fun hmem => hfk ((hiff _).mpr hmem)
  have hf0 : m.fresh ≠ 0 := by omega
  by_cases hh : l.head = 0
  · -- empty list: identical to the push_back branch
    have hps : ps = [] := Seg_nil_of_zero (hh ▸ hs)
    have heq : push_front m l v = push_back m l v := by
      simp [push_front, push_back, hh]
    rw [heq, hps]
    have hr2 := @repXL_push_back α m l ps v
      ⟨b, hs, htl, hnd, hk, hpos, hbd, hiff⟩
    rw [hps] at hr2
    simpa using hr2
  · obtain ⟨x, w, rest, hps⟩ : ∃ x w rest, ps = (x, w) :: rest := by
      cases ps with
      | nil => exact absurd ((Seg_nil.mp hs).2.symm) hh
      | cons e t => exact ⟨e.1, e.2, t, by simp⟩
    rw [hps] at hs
    rw [Seg_cons] at hs
    obtain ⟨hxh, hh0, ndx, hlx, hdx, hsrest⟩ := hs
    subst hxh
    rw [Nat.zero_xor] at hsrest
    have hxa : l.head ≠ m.fresh := fun hc => hfps (by rw [hps, hc]; simp)
    by_cases ht : l.tail = 0
    · -- exactly one node
      have hrest : rest = [] := by
        cases rest with
        | nil => rfl
        | cons e2 r2 =>
          rw [hps] at htl
          rcases List.eq_nil_or_concat (e2 :: r2) with hcc | ⟨mid2, e3, hcc⟩
          · exact absurd hcc (by simp)
          obtain ⟨t, z⟩ := e3
          rw [List.concat_eq_append] at hcc
          rw [hcc] at hsrest htl
          have hfull2 : Seg m.heap 0 l.head (((l.head, w) :: mid2) ++ [(t, z)]) b 0 := by
            rw [List.cons_append, Seg_cons]
            exact ⟨rfl, hh0, ndx, hlx, hdx, by rw [Nat.zero_xor]; exact hsrest⟩
          have hb : b = t := Seg_last hfull2
          have ht0 : t ≠ 0 := (Seg_mem hsrest (t, z) (by simp)).1
          rw [if_neg (by simp)] at htl
          have ht2 := ht
          rw [htl, hb] at ht2
          exact absurd ht2 ht0
      rw [hrest] at hps hsrest
      obtain ⟨hbx, hq⟩ := hsrest
      have hpf : push_front m l v =
          (⟨hSetLink ((m.fresh, ⟨l.head, v⟩) :: m.heap) l.head m.fresh, m.fresh + 1⟩,
           ⟨m.fresh, l.head⟩) := by
        simp [push_front, hh, ht]
      rw [hpf, hps]
      have hl1 : hLookup ((m.fresh, (⟨l.head, v⟩ : XNode α)) :: m.heap) l.head = some ndx := by
        rw [hLookup_cons_ne _ _ _ hxa]
        exact hlx
      refine ⟨l.head, ?_, by simp, ?_, ?_, Nat.succ_pos _, ?_, ?_⟩
      · rw [Seg_cons]
        refine ⟨rfl, hf0, ⟨l.head, v⟩, ?_, rfl, ?_⟩
        · rw [hLookup_hSetLink_ne (fun hc => hxa hc.symm) m.fresh]
          exact hLookup_cons_self _ _ _
        · rw [Nat.zero_xor, Seg_cons]
          refine ⟨rfl, hh0, ⟨m.fresh, ndx.data⟩, hLookup_hSetLink_self hl1 m.fresh, hdx, ?_⟩
          rw [Seg_nil]
          simp
      · rw [← hps]; exact hw1
      · rw [keysOf_hSetLink, keysOf_cons]; exact hw2
      · rw [keysOf_hSetLink, keysOf_cons]; exact hw3
      · intro a; rw [keysOf_hSetLink, keysOf_cons, ← hps]; exact hw4 a
    · -- two or more nodes
      have hrest0 : rest ≠ [] := by
        intro hc
        rw [hps, hc] at htl
        simp at htl
        exact ht htl
      have hpf : push_front m l v =
          (⟨hXorLink ((m.fresh, ⟨l.head, v⟩) :: m.heap) l.head m.fresh, m.fresh + 1⟩,
           ⟨m.fresh, l.tail⟩) := by
        simp [push_front, hh, ht]
      rw [hpf, hps]
      have hl1 : hLookup ((m.fresh, (⟨l.head, v⟩ : XNode α)) :: m.heap) l.head = some ndx := by
        rw [hLookup_cons_ne _ _ _ hxa]
        exact hlx
      have hframe : ∀ y ∈ rest,
          hLookup (hXorLink ((m.fresh, (⟨l.head, v⟩ : XNode α)) :: m.heap) l.head m.fresh)
            (Prod.fst y) = hLookup m.heap (Prod.fst y) := by
        intro y hy
        have hnd2 := hnd
        rw [hps, List.map_cons, List.nodup_cons] at hnd2
        have hy1 : Prod.fst y ≠ l.head := by
          intro hc
          apply hnd2.1
          rw [← hc]
          exact List.mem_map.mpr ⟨y, hy, rfl⟩
        have hy2 : Prod.fst y ≠ m.fresh := by
          intro hc
          apply hfps
          rw [hps, ← hc]
          exact List.mem_cons_of_mem _ (List.mem_map.mpr ⟨y, hy, rfl⟩)
        rw [hLookup_hXorLink_ne hy1, hLookup_cons_ne _ _ _ hy2]
      refine ⟨b, ?_, ?_, ?_, ?_, Nat.succ_pos _, ?_, ?_⟩
      · rw [Seg_cons]
        refine ⟨rfl, hf0, ⟨l.head, v⟩, ?_, rfl, ?_⟩
        · rw [hLookup_hXorLink_ne (fun hc => hxa hc.symm) m.fresh]
          exact hLookup_cons_self _ _ _
        · rw [Nat.zero_xor, Seg_cons]
          refine ⟨rfl, hh0, ⟨ndx.link ^^^ m.fresh, ndx.data⟩,
            hLookup_hXorLink_self hl1 m.fresh, hdx, ?_⟩
          have hxx : m.fresh ^^^ (ndx.link ^^^ m.fresh) = ndx.link := by
            rw [Nat.xor_comm ndx.link m.fresh, ← Nat.xor_assoc]
            simp
          rw [hxx]
          exact Seg_frame hframe hsrest
      · cases rest with
        | nil => exact absurd rfl hrest0
        | cons e2 r2 =>
          rw [hps] at htl
          rw [htl, if_neg (by simp), if_neg (by simp)]
      · rw [← hps]; exact hw1
      · rw [keysOf_hXorLink, keysOf_cons]; exact hw2
      · rw [keysOf_hXorLink, keysOf_cons]; exact hw3
      · intro a; rw [keysOf_hXorLink, keysOf_cons, ← hps]; exact hw4 a

theorem repXL_push_front_v {m : Mem α} {l : XLst} {ps : List (Nat × α)} (v : α)
    (hr : repXL m l ps) :
    repXL (push_front m l v).1 (push_front m l v).2 ((m.fresh, v) :: ps) :=
  repXL_push_front hr

theorem repXL_push_back_v {m : Mem α} {l : XLst} {ps : List (Nat × α)} (v : α)
    (hr : repXL m l ps) :
    repXL (push_back m l v).1 (push_back m l v).2 (ps ++ [(m.fresh, v)]) :=
  repXL_push_back hr

theorem pop_back_nil {m : Mem α} {l : XLst} (hr : repXL m l []) :
    pop_back m l = (none, m, l) := by
  obtain ⟨b, hs, -⟩ := hr
  obtain ⟨-, hc⟩ := hs
  rw [pop_back, if_pos hc.symm]

/-- Book-keeping for `pop_back`: erasing the last address. -/
theorem repXL_wf_erase_snoc {m : Mem α} {t : Nat} {z : α} {ps : List (Nat × α)}
    (hnd : ((ps ++ [(t, z)]).map Prod.fst).Nodup)
    (hk : (keysOf m.heap).Nodup)
    (hbd : ∀ a ∈ keysOf m.heap, 0 < a ∧ a < m.fresh)
    (hiff : ∀ a : Nat, a ∈ keysOf m.heap ↔ a ∈ ((ps ++ [(t, z)]).map Prod.fst)) :
    (ps.map Prod.fst).Nodup ∧
    ((keysOf m.heap).erase t).Nodup ∧
    (∀ a ∈ (keysOf m.heap).erase t, 0 < a ∧ a < m.fresh) ∧
    (∀ a : Nat, a ∈ (keysOf m.heap).erase t ↔ a ∈ ps.map Prod.fst) := by
  rw [List.map_append, List.nodup_append] at hnd
  have htn : t ∉ ps.map Prod.fst := fun hmem => hnd.2.2 hmem (by simp)
  refine ⟨hnd.1, List.Nodup.erase t hk, ?_, ?_⟩
  · intro a ha
    exact hbd a (List.mem_of_mem_erase ha)
  · intro a
    rw [List.Nodup.mem_erase_iff hk]
    constructor
    · rintro ⟨hax, hain⟩
      have h2 := (hiff a).mp hain
      rw [List.map_append, List.mem_append] at h2
      rcases h2 with h2 | h2
      · exact h2
      · simp only [List.map_cons, List.map_nil, List.mem_singleton] at h2
        exact absurd h2 hax
    · intro har
      refine ⟨fun hax => htn (hax ▸ har), (hiff a).mpr ?_⟩
      rw [List.map_append, List.mem_append]
      exact Or.inl har

theorem repXL_pop_back {m : Mem α} {l : XLst} {ps : List (Nat × α)} {t : Nat} {z : α}
    (hr : repXL m l (ps ++ [(t, z)])) :
    (pop_back m l).1 = some z ∧
    repXL (pop_back m l).2.1 (pop_back m l).2.2 ps := by
  obtain ⟨b, hs, htl, hnd, hk, hpos, hbd, hiff⟩ := hr
  obtain ⟨hw1, hw2, hw3, hw4⟩ := repXL_wf_erase_snoc hnd hk hbd hiff
  have hbt : b = t := Seg_last hs
  subst hbt
  have ht0 : b ≠ 0 := (Seg_mem hs (b, z) (by simp)).1
  cases ps with
  | nil =>
    -- exactly one node
    rw [List.nil_append, Seg_cons] at hs
    obtain ⟨hth, hh0, ndt, hlt, hdt, hnil⟩ := hs
    obtain ⟨hbx, hq⟩ := hnil
    have htl0 : l.tail = 0 := by rw [htl]; simp
    have hh : ¬ l.head = 0 := hh0
    have hpb : pop_back m l = (some z, ⟨hErase m.heap l.head, m.fresh⟩, ⟨0, l.tail⟩) := by
      rw [pop_back, if_neg hh, if_pos htl0]
      simp only [hlt, hdt]
    rw [hpb]
    have hht : l.head = b := hth.symm
    refine ⟨rfl, 0, ⟨rfl, rfl⟩, by rw [htl0]; simp, hw1, ?_, hpos, ?_, ?_⟩
    · rw [keysOf_hErase, hht]; exact hw2
    · rw [keysOf_hErase, hht]; exact hw3
    · intro a; rw [keysOf_hErase, hht]; exact hw4 a
  | cons e rest =>
    obtain ⟨x, v⟩ := e
    rw [List.cons_append, Seg_cons] at hs
    obtain ⟨hxh, hh0, ndx, hlx, hdx, hsrest⟩ := hs
    subst hxh
    rw [Nat.zero_xor] at hsrest
    have hh : ¬ l.head = 0 := hh0
    have hlen : ¬ (((l.head, v) :: rest) ++ [(b, z)]).length ≤ 1 := by simp
    have htlt : l.tail = b := by rw [htl, if_neg (by rw [List.cons_append]; exact hlen)]
    have hty0 : ¬ l.tail = 0 := by rw [htlt]; exact ht0
    have hglh : getLink m.heap l.head = ndx.link := by rw [getLink, hlx]
    have hxt : l.head ≠ b := by
      rw [List.cons_append, List.map_cons, List.nodup_cons] at hnd
      intro hc
      exact hnd.1 (by rw [hc]; simp)
    cases rest with
    | nil =>
      -- exactly two nodes
      rw [List.nil_append, Seg_cons] at hsrest
      obtain ⟨htc, -, ndt, hlt, hdt, hnil⟩ := hsrest
      obtain ⟨hbx, hq⟩ := hnil
      have htlink : ndt.link = l.head := by
        have hq3 : l.head ^^^ ndt.link = 0 := hq.symm
        have h4 := congrArg (fun y => l.head ^^^ y) hq3
        simpa [← Nat.xor_assoc] using h4
      have hlb : hLookup m.heap b = some ndt := by rw [htc]; exact hlt
      have hcond : getLink m.heap l.head = l.tail ∧ getLink m.heap l.tail = l.head := by
        refine ⟨by rw [hglh, htlt, htc], ?_⟩
        rw [htlt, getLink, hlb]
        exact htlink
      have hpb : pop_back m l =
          (some z, ⟨hSetLink (hErase m.heap l.tail) l.head 0, m.fresh⟩, ⟨l.head, 0⟩) := by
        rw [pop_back, if_neg hh, if_neg hty0, if_pos hcond, htlt]
        simp only [hlb, hdt]
      rw [hpb]
      refine ⟨rfl, l.head, ?_, by simp, hw1, ?_, hpos, ?_, ?_⟩
      · rw [Seg_cons]
        refine ⟨rfl, hh0, ⟨0, ndx.data⟩, ?_, hdx, ?_⟩
        · have hle : hLookup (hErase m.heap l.tail) l.head = some ndx := by
            rw [htlt, hLookup_hErase hk _ _, if_neg hxt]
            exact hlx
          rw [hLookup_hSetLink_self hle 0]
        · rw [Seg_nil]
          simp
      · rw [keysOf_hSetLink, keysOf_hErase, htlt]; exact hw2
      · rw [keysOf_hSetLink, keysOf_hErase, htlt]; exact hw3
      · intro a; rw [keysOf_hSetLink, keysOf_hErase, htlt]; exact hw4 a
    | cons e2 rest2 =>
      -- three or more nodes: general xor decompression at the tail
      obtain ⟨y, u⟩ := e2
      rw [List.cons_append, Seg_cons] at hsrest
      obtain ⟨hyc, hy0, ndy, hly, hdy, hsrest2⟩ := hsrest
      subst hyc
      have hyt : ndx.link ≠ b := by
        rw [List.cons_append, List.map_cons, List.nodup_cons, List.cons_append,
          List.map_cons, List.nodup_cons] at hnd
        intro hc
        exact hnd.2.1 (by rw [hc]; simp)
      have hcond : ¬ (getLink m.heap l.head = l.tail ∧
          getLink m.heap l.tail = l.head) := by
        rintro ⟨hc1, -⟩
        rw [hglh, htlt] at hc1
        exact hyt hc1
      have hfull : Seg m.heap 0 l.head
          (((l.head, v) :: (ndx.link, u) :: rest2) ++ [(b, z)]) b 0 := by
        rw [List.cons_append, Seg_cons]
        refine ⟨rfl, hh0, ndx, hlx, hdx, ?_⟩
        rw [Nat.zero_xor, List.cons_append, Seg_cons]
        exact ⟨rfl, hy0, ndy, hly, hdy, hsrest2⟩
      obtain ⟨init2, q, u1, hF⟩ : ∃ init2 q u1,
          (l.head, v) :: (ndx.link, u) :: rest2 = init2 ++ [(q, u1)] := by
        rcases List.eq_nil_or_concat ((l.head, v) :: (ndx.link, u) :: rest2) with
          hcc | ⟨mid3, e3, hcc⟩
        · exact absurd hcc (by simp)
        · exact ⟨mid3, e3.1, e3.2, by rw [hcc, List.concat_eq_append]⟩
      have hassoc : ((l.head, v) :: (ndx.link, u) :: rest2) ++ [(b, z)] =
          init2 ++ [(q, u1), (b, z)] := by rw [hF]; simp
      rw [hassoc] at hfull
      rw [Seg_append] at hfull
      obtain ⟨b2, c2, hinit, hlast2⟩ := hfull
      rw [Seg_cons] at hlast2
      obtain ⟨hqc, hq0, ndq, hlq, hdq, hlast3⟩ := hlast2
      subst hqc
      rw [Seg_cons] at hlast3
      obtain ⟨hteq, ht0b, ndt, hlt2, hdt, hlast4⟩ := hlast3
      obtain ⟨-, hq2⟩ := hlast4
      rw [← hteq] at hlt2
      have hntq : ndt.link = q := by
        have hq3 : q ^^^ ndt.link = 0 := hq2.symm
        have h4 := congrArg (fun w2 => q ^^^ w2) hq3
        simpa [← Nat.xor_assoc] using h4
      have hnqlink : ndq.link = b2 ^^^ b := by
        have h4 := congrArg (fun w2 => b2 ^^^ w2) hteq
        simpa [← Nat.xor_assoc] using h4.symm
      have hnt : getLink m.heap l.tail = q := by
        rw [htlt, getLink, hlt2]
        exact hntq
      have hpb : pop_back m l =
          (some z, ⟨hErase (hXorLink m.heap q b) b, m.fresh⟩, ⟨l.head, q⟩) := by
        rw [pop_back, if_neg hh, if_neg hty0, if_neg hcond, htlt]
        simp only [getLink, hlt2, hdt, hntq]
      rw [hpb, hF]
      have hndA := hnd
      rw [hassoc] at hndA
      rw [List.map_append, List.nodup_append] at hndA
      have hqt : q ≠ b := by
        have h5 := hndA.2.1
        simp only [List.map_cons, List.map_nil, List.nodup_cons] at h5
        intro hc
        exact h5.1 (by rw [hc]; simp)
      have hinitne : ∀ yy ∈ init2, Prod.fst yy ≠ q ∧ Prod.fst yy ≠ b := by
        intro yy hyy
        have hd2 := hndA.2.2 (List.mem_map.mpr ⟨yy, hyy, rfl⟩)
        simp only [List.map_cons, List.map_nil, List.mem_cons, List.not_mem_nil,
          or_false] at hd2
        exact ⟨fun hc => hd2 (Or.inl hc), fun hc => hd2 (Or.inr hc)⟩
      have hframe : ∀ yy ∈ init2,
          hLookup (hErase (hXorLink m.heap q b) b) (Prod.fst yy) =
            hLookup m.heap (Prod.fst yy) := by
        intro yy hyy
        obtain ⟨hc1, hc2⟩ := hinitne yy hyy
        rw [hLookup_hErase (by rw [keysOf_hXorLink]; exact hk) _ _, if_neg hc2,
          hLookup_hXorLink_ne hc1]
      have hinit2len : init2.length + 1 = rest2.length + 2 := by
        have h6 := congrArg List.length hF
        simp [List.length_append] at h6
        omega
      refine ⟨rfl, q, ?_, ?_, ?_, ?_, hpos, ?_, ?_⟩
      · rw [Seg_append]
        refine ⟨b2, q, Seg_frame hframe hinit, ?_⟩
        rw [Seg_cons]
        refine ⟨rfl, hq0, ⟨ndq.link ^^^ b, ndq.data⟩, ?_, hdq, ?_⟩
        · rw [hLookup_hErase (by rw [keysOf_hXorLink]; exact hk) _ _, if_neg hqt]
          exact hLookup_hXorLink_self hlq b
        · rw [Seg_nil, hnqlink, Nat.xor_cancel_right]
          simp
      · have hlen2 : ¬ (init2 ++ [(q, u1)]).length ≤ 1 := by
          rw [List.length_append, List.length_singleton]
          omega
        rw [if_neg hlen2]
      · rw [← hF]; exact hw1
      · rw [keysOf_hErase, keysOf_hXorLink]; exact hw2
      · rw [keysOf_hErase, keysOf_hXorLink]; exact hw3
      · intro a
        rw [keysOf_hErase, keysOf_hXorLink, ← hF]
        exact hw4 a

/-! ## Determinism of chain traversal, and `clear` -/

theorem Seg_det {h : Heap α} : ∀ {ps : List (Nat × α)} {p c b q b2 q2 : Nat},
    Seg h p c ps b q → Seg h p c ps b2 q2 → b = b2 ∧ q = q2 := by
  intro ps
  induction ps with
  | nil =>
    intro p c b q b2 q2 h1 h2
    obtain ⟨rfl, rfl⟩ := h1
    obtain ⟨rfl, rfl⟩ := h2
    exact ⟨rfl, rfl⟩
  | cons e ps ih =>
    intro p c b q b2 q2 h1 h2
    obtain ⟨x, v⟩ := e
    rw [Seg_cons] at h1 h2
    obtain ⟨rfl, hc, nd, hl, hd, hr1⟩ := h1
    obtain ⟨-, -, nd2, hl2, hd2, hr2⟩ := h2
    rw [hl] at hl2
    injection hl2 with he
    subst he
    exact ih hr1 hr2

theorem repXL_heap_length {m : Mem α} {l : XLst} {ps : List (Nat × α)}
    (hr : repXL m l ps) : ps.length = m.heap.length := by
  obtain ⟨b, hs, htl, hnd, hk, hpos, hbd, hiff⟩ := hr
  have hperm : (keysOf m.heap).Perm (ps.map Prod.fst) :=
    (List.perm_ext_iff_of_nodup hk hnd).mpr hiff
  have h1 := hperm.length_eq
  simp only [keysOf, List.length_map] at h1
  exact h1.symm

theorem clearFuel_rep : ∀ (n : Nat) (m : Mem α) (l : XLst) (ps : List (Nat × α)),
    repXL m l ps → ps.length ≤ n →
    repXL (clearFuel n m l).1 (clearFuel n m l).2 [] := by
  intro n
  induction n with
  | zero =>
    intro m l ps hr hlen
    have hnil : ps = [] := List.eq_nil_of_length_eq_zero (Nat.le_zero.mp hlen)
    subst hnil
    exact hr
  | succ n ih =>
    intro m l ps hr hlen
    rcases List.eq_nil_or_concat ps with rfl | ⟨init, e, hcon⟩
    · have hpb := pop_back_nil hr
      have hstep : clearFuel (n + 1) m l = (m, l) := by
        show (match pop_back m l with
          | (some _, m2, l2) => clearFuel n m2 l2
          | (none, m2, l2) => (m2, l2)) = (m, l)
        rw [hpb]
      rw [hstep]
      exact hr
    · obtain ⟨t, z⟩ := e
      rw [List.concat_eq_append] at hcon
      subst hcon
      obtain ⟨hval, hrep2⟩ := repXL_pop_back hr
      have hpb : pop_back m l = (some z, (pop_back m l).2.1, (pop_back m l).2.2) := by
        rw [← hval]
      have hstep : clearFuel (n + 1) m l =
          clearFuel n (pop_back m l).2.1 (pop_back m l).2.2 := by
        show (match pop_back m l with
          | (some _, m2, l2) => clearFuel n m2 l2
          | (none, m2, l2) => (m2, l2)) =
          clearFuel n (pop_back m l).2.1 (pop_back m l).2.2
        rw [hpb]
      rw [hstep]
      have hl2 : init.length ≤ n := by
        have h3 := congrArg List.length (rfl : init ++ [(t, z)] = init ++ [(t, z)])
        simp only [List.length_append, List.length_cons, List.length_nil] at hlen ⊢
        omega
      exact ih _ _ init hrep2 hl2

theorem repXL_clear {m : Mem α} {l : XLst} {ps : List (Nat × α)}
    (hr : repXL m l ps) : repXL (clear m l).1 (clear m l).2 [] := by
  have hlen : ps.length ≤ m.heap.length + 1 := by
    rw [repXL_heap_length hr]
    omega
  exact clearFuel_rep (m.heap.length + 1) m l ps hr hlen

/-! ## The pointer-shape consequences of the representation predicate -/

theorem repXL_props {m : Mem α} {l : XLst} {ps : List (Nat × α)} (hr : repXL m l ps) :
    (l.head = 0 ↔ ps = []) ∧
    (ps.length = 1 → l.tail = 0 ∧ getLink m.heap l.head = 0) ∧
    (2 ≤ ps.length → l.head ≠ 0 ∧ l.tail ≠ 0 ∧ l.head ≠ l.tail) := by
  obtain ⟨b, hs, htl, hnd, hk, hpos, hbd, hiff⟩ := hr
  refine ⟨?_, ?_, ?_⟩
  · cases ps with
    | nil =>
      obtain ⟨-, hq⟩ := hs
      simp [← hq]
    | cons e rest =>
      obtain ⟨x, v⟩ := e
      rw [Seg_cons] at hs
      obtain ⟨rfl, hc, -⟩ := hs
      simp [hc]
  · intro hlen
    obtain ⟨x, v, hps⟩ : ∃ x v, ps = [(x, v)] := by
      cases ps with
      | nil => simp at hlen
      | cons e rest =>
        cases rest with
        | nil => exact ⟨e.1, e.2, by simp⟩
        | cons e2 r2 => simp at hlen
    subst hps
    rw [Seg_cons] at hs
    obtain ⟨rfl, hc, nd, hl, hd, hnil⟩ := hs
    obtain ⟨hb, hq⟩ := hnil
    have hlink : nd.link = 0 := by
      have h4 := congrArg (fun w => 0 ^^^ w) hq.symm
      simpa using h4
    refine ⟨by rw [htl]; simp, ?_⟩
    rw [getLink]
    simp only [hl]
    exact hlink
  · intro hlen
    obtain ⟨x, w, rest, hps⟩ : ∃ x w rest, ps = (x, w) :: rest := by
      cases ps with
      | nil => simp at hlen
      | cons e t2 => exact ⟨e.1, e.2, t2, by simp⟩
    subst hps
    rcases List.eq_nil_or_concat rest with rfl | ⟨mid, e2, hcon⟩
    · simp at hlen
    obtain ⟨t, z⟩ := e2
    rw [List.concat_eq_append] at hcon
    subst hcon
    rw [Seg_cons] at hs
    obtain ⟨rfl, hc, nd, hl, hd, hrest⟩ := hs
    have hbt : b = t := Seg_last_of ((l.head, w) :: mid) (by
      rw [List.cons_append, Seg_cons]
      exact ⟨rfl, hc, nd, hl, hd, hrest⟩)
    have ht0 : t ≠ 0 := (Seg_mem hrest (t, z) (by simp)).1
    have hlen2 : ¬ ((l.head, w) :: (mid ++ [(t, z)])).length ≤ 1 := by
      simp [List.length_append]
    have htlt : l.tail = t := by rw [htl, if_neg hlen2, hbt]
    refine ⟨hc, by rw [htlt]; exact ht0, ?_⟩
    rw [htlt]
    rw [List.map_cons, List.nodup_cons] at hnd
    intro hcon2
    exact hnd.1 (by rw [hcon2]; simp [List.map_append])

/-! ## Cursor motions do not touch the store -/

theorem XCur.next_store (k : XCur α) : ((XCur.next k).2.m = k.m ∧ (XCur.next k).2.l = k.l) := by
  rw [XCur.next]
  cases hLookup k.m.heap k.c <;> exact ⟨rfl, rfl⟩

theorem XCur.prev_store (k : XCur α) : ((XCur.prev k).2.m = k.m ∧ (XCur.prev k).2.l = k.l) := by
  rw [XCur.prev]
  cases hLookup k.m.heap k.p <;> exact ⟨rfl, rfl⟩

theorem skipLoopF_store : ∀ (n : Nat) (k : XCur α),
    (skipLoopF n k).m = k.m ∧ (skipLoopF n k).l = k.l := by
  intro n
  induction n with
  | zero => intro k; exact ⟨rfl, rfl⟩
  | succ n ih =>
    intro k
    have hns := XCur.next_store k
    have hstep : skipLoopF (n + 1) k = (match XCur.next k with
      | (some _, k2) => skipLoopF n k2
      | (none, k2) => k2) := rfl
    rcases hn : XCur.next k with ⟨r, k2⟩
    rw [hn] at hns
    cases r with
    | none =>
      have heq : skipLoopF (n + 1) k = k2 := by rw [hstep, hn]
      rw [heq]
      exact hns
    | some v =>
      have heq : skipLoopF (n + 1) k = skipLoopF n k2 := by rw [hstep, hn]
      rw [heq]
      obtain ⟨h1, h2⟩ := ih k2
      exact ⟨h1.trans hns.1, h2.trans hns.2⟩

theorem skip_forwards_store (k : XCur α) (n : Nat) :
    (skip_forwards k n).m = k.m ∧ (skip_forwards k n).l = k.l := by
  rw [skip_forwards]
  split
  · exact ⟨rfl, rfl⟩
  · exact skipLoopF_store n k

theorem skip_backwards_store (k : XCur α) (n : Nat) :
    (skip_backwards k n).m = k.m ∧ (skip_backwards k n).l = k.l := by
  rw [skip_backwards, skipLoopB_eq_skipLoopF]
  split
  · exact ⟨rfl, rfl⟩
  · exact skipLoopF_store n k

/-! ## Valid cursor positions -/

theorem repCur_decomp {k : XCur α} {pre post : List (Nat × α)} (hrc : repCur k pre post) :
    ∃ b, Seg k.m.heap 0 k.l.head pre k.p k.c ∧ Seg k.m.heap k.p k.c post b 0 ∧
      k.l.tail = (if (pre ++ post).length ≤ 1 then 0 else b) ∧
      ((pre ++ post).map Prod.fst).Nodup ∧ (keysOf k.m.heap).Nodup ∧ 0 < k.m.fresh ∧
      (∀ a ∈ keysOf k.m.heap, 0 < a ∧ a < k.m.fresh) ∧
      (∀ a : Nat, a ∈ keysOf k.m.heap ↔ a ∈ (pre ++ post).map Prod.fst) := by
  obtain ⟨⟨b, hs, htl, hnd, hk, hpos, hbd, hiff⟩, hpre⟩ := hrc
  rw [Seg_append] at hs
  obtain ⟨b1, c1, hs1, hs2⟩ := hs
  obtain ⟨hb1, hc1⟩ := Seg_det hs1 hpre
  subst hb1
  subst hc1
  exact ⟨b, hpre, hs2, htl, hnd, hk, hpos, hbd, hiff⟩

theorem repCur_head_nil {k : XCur α} {pre post : List (Nat × α)}
    (hrc : repCur k pre post) (hh : k.l.head = k.c) : pre = [] := by
  obtain ⟨b, hpre, hpost, htl, hnd, hk, hpos, hbd, hiff⟩ := repCur_decomp hrc
  cases pre with
  | nil => rfl
  | cons e pre2 =>
    exfalso
    obtain ⟨x, w⟩ := e
    rw [Seg_cons] at hpre
    obtain ⟨rfl, hh0, nd, hl, hd, -⟩ := hpre
    cases post with
    | nil =>
      obtain ⟨-, hq⟩ := hpost
      rw [← hq] at hh
      exact absurd hh hh0
    | cons e2 post2 =>
      obtain ⟨y, u⟩ := e2
      rw [Seg_cons] at hpost
      obtain ⟨rfl, -, -⟩ := hpost
      rw [List.cons_append, List.map_cons, List.nodup_cons] at hnd
      apply hnd.1
      rw [List.map_append, List.mem_append]
      right
      rw [hh]
      simp

theorem repCur_end_nil {k : XCur α} {pre post : List (Nat × α)}
    (hrc : repCur k pre post) (hc : k.c = 0) : post = [] := by
  obtain ⟨b, hpre, hpost, -⟩ := repCur_decomp hrc
  cases hpo : post with
  | nil => rfl
  | cons e post2 =>
    obtain ⟨y, u⟩ := e
    rw [hpo, Seg_cons] at hpost
    obtain ⟨-, hc0, -⟩ := hpost
    exact absurd hc hc0

/-- Book-keeping for inserting a fresh node in the middle of the contents. -/
theorem repXL_wf_insert {m : Mem α} {pre post : List (Nat × α)} (v : α)
    (hpos : 0 < m.fresh)
    (hnd : ((pre ++ post).map Prod.fst).Nodup)
    (hk : (keysOf m.heap).Nodup)
    (hbd : ∀ a ∈ keysOf m.heap, 0 < a ∧ a < m.fresh)
    (hiff : ∀ a : Nat, a ∈ keysOf m.heap ↔ a ∈ (pre ++ post).map Prod.fst) :
    ((pre ++ (m.fresh, v) :: post).map Prod.fst).Nodup ∧
    (m.fresh :: keysOf m.heap).Nodup ∧
    (∀ a ∈ m.fresh :: keysOf m.heap, 0 < a ∧ a < m.fresh + 1) ∧
    (∀ a : Nat, a ∈ m.fresh :: keysOf m.heap ↔ a ∈ (pre ++ (m.fresh, v) :: post).map Prod.fst) := by
  have hfk : m.fresh ∉ keysOf m.heap := fun hmem => absurd (hbd _ hmem).2 (lt_irrefl _)
  have hfps : m.fresh ∉ (pre ++ post).map Prod.fst := fun hmem => hfk ((hiff _).mpr hmem)
  have hf1 : m.fresh ∉ List.map Prod.fst pre := fun hmem =>
    hfps (by rw [List.map_append, List.mem_append]; exact Or.inl hmem)
  have hf2 : m.fresh ∉ List.map Prod.fst post := fun hmem =>
    hfps (by rw [List.map_append, List.mem_append]; exact Or.inr hmem)
  refine ⟨?_, List.Nodup.cons hfk hk, ?_, ?_⟩
  · rw [List.map_append, List.nodup_append] at hnd
    rw [List.map_append, List.map_cons, List.nodup_append]
    refine ⟨hnd.1, ?_, ?_⟩
    · rw [List.nodup_cons]
      exact ⟨hf2, hnd.2.1⟩
    · intro a ha
      rw [List.mem_cons]
      rintro (rfl | hmem)
      · exact hf1 ha
      · exact hnd.2.2 ha hmem
  · intro a ha
    rcases List.mem_cons.mp ha with rfl | ha2
    · omega
    · have hb2 := hbd a ha2
      omega
  · intro a
    rw [List.mem_cons]
    have hmm : a ∈ (pre ++ (m.fresh, v) :: post).map Prod.fst ↔
        a = m.fresh ∨ a ∈ (pre ++ post).map Prod.fst := by
      simp only [List.map_append, List.map_cons, List.mem_append, List.mem_cons]
      constructor
      · rintro (h1 | rfl | h3)
        · exact Or.inr (Or.inl h1)
        · exact Or.inl rfl
        · exact Or.inr (Or.inr h3)
      · rintro (rfl | h1 | h3)
        · exact Or.inr (Or.inl rfl)
        · exact Or.inl h1
        · exact Or.inr (Or.inr h3)
    rw [hmm]
    constructor
    · rintro (rfl | hmem)
      · exact Or.inl rfl
      · exact Or.inr ((hiff a).mp hmem)
    · rintro (rfl | hmem)
      · exact Or.inl rfl
      · exact Or.inr ((hiff a).mpr hmem)

/-! ## Cursor insertion preserves the representation -/

theorem repXL_insert_before {k : XCur α} {pre post : List (Nat × α)} (v : α)
    (hrc : repCur k pre post) :
    repXL (k.insert_before v).m (k.insert_before v).l (pre ++ (k.m.fresh, v) :: post) := by
  obtain ⟨b, hpre, hpost, htl, hnd, hk, hpos, hbd, hiff⟩ := repCur_decomp hrc
  by_cases hh : k.l.head = k.c
  · -- cursor at the front: the source delegates to push_front
    have hpre0 : pre = [] := repCur_head_nil hrc hh
    subst hpre0
    rcases hpf : push_front k.m k.l v with ⟨m2, l2⟩
    have hml : (k.insert_before v).m = m2 ∧ (k.insert_before v).l = l2 := by
      rw [XCur.insert_before, if_pos hh, hpf]
      exact ⟨rfl, rfl⟩
    rw [hml.1, hml.2]
    have hrep := repXL_push_front_v v hrc.1
    rw [hpf] at hrep
    exact hrep
  by_cases hc0 : k.c = 0
  · -- cursor at the end: the source delegates to push_back
    have hpost0 : post = [] := repCur_end_nil hrc hc0
    subst hpost0
    have hr2 : repXL k.m k.l pre := by
      have h2 := hrc.1
      rw [List.append_nil] at h2
      exact h2
    rcases hpf : push_back k.m k.l v with ⟨m2, l2⟩
    have hml : (k.insert_before v).m = m2 ∧ (k.insert_before v).l = l2 := by
      rw [XCur.insert_before, if_neg hh, if_pos hc0, hpf]
      exact ⟨rfl, rfl⟩
    rw [hml.1, hml.2]
    have hrep := repXL_push_back_v v hr2
    rw [hpf] at hrep
    exact hrep
  · -- interior insertion through insert_between
    have hpre_ne : pre ≠ [] := by
      intro hcon
      subst hcon
      obtain ⟨-, hch⟩ := hpre
      exact hh hch.symm
    rcases List.eq_nil_or_concat pre with hcon | ⟨pre0, ep, hpc⟩
    · exact absurd hcon hpre_ne
    obtain ⟨P, vp⟩ := ep
    rw [List.concat_eq_append] at hpc
    have hkp : k.p = P := Seg_last (by rw [hpc] at hpre; exact hpre)
    subst hkp
    have hpreA := hpre
    rw [hpc, Seg_append] at hpreA
    obtain ⟨b0, c0, hpre0, hlastP⟩ := hpreA
    rw [Seg_cons] at hlastP
    obtain ⟨hPc0, hc00, ndp, hlp, hdp, hlast2⟩ := hlastP
    subst hPc0
    obtain ⟨-, hkc⟩ := hlast2
    have hndp : ndp.link = b0 ^^^ k.c := by
      rw [hkc, ← Nat.xor_assoc, Nat.xor_self, Nat.zero_xor]
    cases post with
    | nil =>
      exfalso
      obtain ⟨-, hq⟩ := hpost
      exact hc0 hq.symm
    | cons ec post2 =>
      obtain ⟨y, vc⟩ := ec
      rw [Seg_cons] at hpost
      obtain ⟨rfl, hcne0, ndc, hlc, hdc, hrest⟩ := hpost
      -- address inequalities
      have haddr : ∀ x, x ∈ (pre ++ (k.c, vc) :: post2).map Prod.fst → x ≠ k.m.fresh :=
        fun x hx hxf =>
          absurd (hbd x ((hiff x).mpr hx)).2 (by rw [hxf]; exact lt_irrefl _)
      have hpmem : k.p ∈ List.map Prod.fst pre := by rw [hpc]; simp
      have hcmem : k.c ∈ List.map Prod.fst ((k.c, vc) :: post2) := by simp
      have hpa : k.p ≠ k.m.fresh :=
        haddr _ (by rw [List.map_append, List.mem_append]; exact Or.inl hpmem)
      have hca : k.c ≠ k.m.fresh :=
        haddr _ (by rw [List.map_append, List.mem_append]; exact Or.inr hcmem)
      have hndA := hnd
      rw [List.map_append, List.nodup_append] at hndA
      have hcp : k.c ≠ k.p := fun hcc =>
        hndA.2.2 hpmem (by rw [← hcc]; exact hcmem)
      have hndP := hndA.1
      rw [hpc, List.map_append, List.nodup_append] at hndP
      have hndQ := hndA.2.1
      rw [List.map_cons, List.nodup_cons] at hndQ
      have hf0 : k.m.fresh ≠ 0 := by omega
      -- reduce the operation
      have hml : (k.insert_before v).m =
          ⟨insertBetween k.m.heap k.p k.c k.m.fresh v, k.m.fresh + 1⟩ ∧
          (k.insert_before v).l = k.l := by
        rw [XCur.insert_before, if_neg hh, if_neg hc0]
        exact ⟨rfl, rfl⟩
      rw [hml.1, hml.2]
      -- the two patch lookups succeed
      have hlp1 : hLookup ((k.m.fresh, (⟨k.p ^^^ k.c, v⟩ : XNode α)) :: k.m.heap) k.p =
          some ndp := by
        rw [hLookup_cons_ne _ _ _ hpa]
        exact hlp
      have hlc2 : hLookup (hSetLink ((k.m.fresh, (⟨k.p ^^^ k.c, v⟩ : XNode α)) :: k.m.heap)
          k.p (ndp.link ^^^ k.c ^^^ k.m.fresh)) k.c = some ndc := by
        rw [hLookup_hSetLink_ne hcp _, hLookup_cons_ne _ _ _ hca]
        exact hlc
      have hIB : insertBetween k.m.heap k.p k.c k.m.fresh v =
          hSetLink (hSetLink ((k.m.fresh, ⟨k.p ^^^ k.c, v⟩) :: k.m.heap)
              k.p (ndp.link ^^^ k.c ^^^ k.m.fresh))
            k.c (ndc.link ^^^ k.p ^^^ k.m.fresh) := by
        rw [insertBetween]
        simp only [hlp1, hlc2]
      rw [hIB]
      obtain ⟨hw1, hw2, hw3, hw4⟩ :=
        @repXL_wf_insert α k.m pre ((k.c, vc) :: post2)
          v hpos hnd hk hbd hiff
      have hkeys : keysOf (hSetLink (hSetLink ((k.m.fresh, (⟨k.p ^^^ k.c, v⟩ : XNode α)) :: k.m.heap)
          k.p (ndp.link ^^^ k.c ^^^ k.m.fresh)) k.c (ndc.link ^^^ k.p ^^^ k.m.fresh)) =
          k.m.fresh :: keysOf k.m.heap := by
        rw [keysOf_hSetLink, keysOf_hSetLink, keysOf_cons]
      -- frame conditions
      have hframe0 : ∀ y2 ∈ pre0,
          hLookup (hSetLink (hSetLink ((k.m.fresh, (⟨k.p ^^^ k.c, v⟩ : XNode α)) :: k.m.heap)
              k.p (ndp.link ^^^ k.c ^^^ k.m.fresh)) k.c (ndc.link ^^^ k.p ^^^ k.m.fresh))
            (Prod.fst y2) = hLookup k.m.heap (Prod.fst y2) := by
        intro y2 hy2
        have hy2m : Prod.fst y2 ∈ List.map Prod.fst pre0 := List.mem_map.mpr ⟨y2, hy2, rfl⟩
        have hy2pre : Prod.fst y2 ∈ List.map Prod.fst pre := by
          rw [hpc, List.map_append, List.mem_append]
          exact Or.inl hy2m
        have hyp2 : Prod.fst y2 ≠ k.p := fun hcc =>
          hndP.2.2 hy2m (by rw [hcc]; simp)
        have hyc2 : Prod.fst y2 ≠ k.c := fun hcc =>
          hndA.2.2 hy2pre (by rw [hcc]; exact hcmem)
        have hyf2 : Prod.fst y2 ≠ k.m.fresh :=
          haddr _ (by rw [List.map_append, List.mem_append]; exact Or.inl hy2pre)
        rw [hLookup_hSetLink_ne hyc2 _, hLookup_hSetLink_ne hyp2 _,
          hLookup_cons_ne _ _ _ hyf2]
      have hframe2 : ∀ y2 ∈ post2,
          hLookup (hSetLink (hSetLink ((k.m.fresh, (⟨k.p ^^^ k.c, v⟩ : XNode α)) :: k.m.heap)
              k.p (ndp.link ^^^ k.c ^^^ k.m.fresh)) k.c (ndc.link ^^^ k.p ^^^ k.m.fresh))
            (Prod.fst y2) = hLookup k.m.heap (Prod.fst y2) := by
        intro y2 hy2
        have hy2m : Prod.fst y2 ∈ List.map Prod.fst post2 := List.mem_map.mpr ⟨y2, hy2, rfl⟩
        have hy2post : Prod.fst y2 ∈ List.map Prod.fst ((k.c, vc) :: post2) := by
          rw [List.map_cons]
          exact List.mem_cons_of_mem _ hy2m
        have hyc2 : Prod.fst y2 ≠ k.c := fun hcc => hndQ.1 (by rw [← hcc]; exact hy2m)
        have hyp2 : Prod.fst y2 ≠ k.p := fun hcc =>
          hndA.2.2 (by rw [← hcc] at hpmem; exact hpmem) hy2post
        have hyf2 : Prod.fst y2 ≠ k.m.fresh :=
          haddr _ (by rw [List.map_append, List.mem_append]; exact Or.inr hy2post)
        rw [hLookup_hSetLink_ne hyc2 _, hLookup_hSetLink_ne hyp2 _,
          hLookup_cons_ne _ _ _ hyf2]
      -- xor arithmetic for the three new links
      have hx1 : b0 ^^^ (ndp.link ^^^ k.c ^^^ k.m.fresh) = k.m.fresh := by
        rw [hndp, Nat.xor_cancel_right, ← Nat.xor_assoc, Nat.xor_self, Nat.zero_xor]
      have hx2 : k.p ^^^ (k.p ^^^ k.c) = k.c := by
        rw [← Nat.xor_assoc, Nat.xor_self, Nat.zero_xor]
      have hx3 : k.m.fresh ^^^ (ndc.link ^^^ k.p ^^^ k.m.fresh) = k.p ^^^ ndc.link := by
        rw [Nat.xor_comm (ndc.link ^^^ k.p) k.m.fresh, ← Nat.xor_assoc, Nat.xor_self,
          Nat.zero_xor, Nat.xor_comm]
      refine ⟨b, ?_, ?_, hw1, ?_, Nat.succ_pos _, ?_, ?_⟩
      · -- the new chain
        rw [hpc]
        have hassoc : (pre0 ++ [(k.p, vp)]) ++ (k.m.fresh, v) :: (k.c, vc) :: post2 =
            pre0 ++ ((k.p, vp) :: (k.m.fresh, v) :: (k.c, vc) :: post2) := by simp
        rw [hassoc, Seg_append]
        refine ⟨b0, k.p, Seg_frame hframe0 hpre0, ?_⟩
        rw [Seg_cons]
        refine ⟨rfl, hc00, ⟨ndp.link ^^^ k.c ^^^ k.m.fresh, ndp.data⟩, ?_, hdp, ?_⟩
        · rw [hLookup_hSetLink_ne (fun hcc => hcp hcc.symm) _]
          exact hLookup_hSetLink_self hlp1 _
        · rw [hx1, Seg_cons]
          refine ⟨rfl, hf0, ⟨k.p ^^^ k.c, v⟩, ?_, rfl, ?_⟩
          · rw [hLookup_hSetLink_ne (fun hcc => hca hcc.symm) _,
              hLookup_hSetLink_ne (fun hcc => hpa hcc.symm) _]
            exact hLookup_cons_self _ _ _
          · rw [hx2, Seg_cons]
            refine ⟨rfl, hcne0, ⟨ndc.link ^^^ k.p ^^^ k.m.fresh, ndc.data⟩,
              hLookup_hSetLink_self hlc2 _, hdc, ?_⟩
            rw [hx3]
            exact Seg_frame hframe2 hrest
      · -- the tail pointer is untouched and still names the last node
        have hpre_len : pre.length = pre0.length + 1 := by rw [hpc]; simp
        have hlenN : ¬ (pre ++ (k.m.fresh, v) :: (k.c, vc) :: post2).length ≤ 1 := by
          rw [List.length_append, List.length_cons, List.length_cons]
          omega
        have hlenO : ¬ (pre ++ (k.c, vc) :: post2).length ≤ 1 := by
          rw [List.length_append, List.length_cons, hpre_len]
          omega
        rw [if_neg hlenN, htl, if_neg hlenO]
      · rw [hkeys]
        exact hw2
      · rw [hkeys]
        exact hw3
      · intro a
        rw [hkeys]
        exact hw4 a

theorem insert_after_store (k : XCur α) (v : α) :
    (k.insert_after v).m = (k.insert_before v).m ∧
    (k.insert_after v).l = (k.insert_before v).l := by
  rw [XCur.insert_after, XCur.insert_before]
  by_cases h1 : k.l.head = k.c
  · rw [if_pos h1, if_pos h1]
    rcases push_front k.m k.l v with ⟨m2, l2⟩
    exact ⟨rfl, rfl⟩
  · rw [if_neg h1, if_neg h1]
    by_cases h2 : k.c = 0
    · rw [if_pos h2, if_pos h2]
      rcases push_back k.m k.l v with ⟨m2, l2⟩
      exact ⟨rfl, rfl⟩
    · rw [if_neg h2, if_neg h2]
      exact ⟨rfl, rfl⟩

theorem repXL_insert_after {k : XCur α} {pre post : List (Nat × α)} (v : α)
    (hrc : repCur k pre post) :
    repXL (k.insert_after v).m (k.insert_after v).l (pre ++ (k.m.fresh, v) :: post) := by
  obtain ⟨h1, h2⟩ := insert_after_store k v
  rw [h1, h2]
  exact repXL_insert_before v hrc

/-! ## Cursor removal preserves the representation -/

/-- Book-keeping for erasing an address out of the middle of the contents. -/
theorem repXL_wf_erase_mid {m : Mem α} {c : Nat} {vc : α} {pre rest : List (Nat × α)}
    (hnd : ((pre ++ (c, vc) :: rest).map Prod.fst).Nodup)
    (hk : (keysOf m.heap).Nodup)
    (hbd : ∀ a ∈ keysOf m.heap, 0 < a ∧ a < m.fresh)
    (hiff : ∀ a : Nat, a ∈ keysOf m.heap ↔ a ∈ (pre ++ (c, vc) :: rest).map Prod.fst) :
    ((pre ++ rest).map Prod.fst).Nodup ∧
    ((keysOf m.heap).erase c).Nodup ∧
    (∀ a ∈ (keysOf m.heap).erase c, 0 < a ∧ a < m.fresh) ∧
    (∀ a : Nat, a ∈ (keysOf m.heap).erase c ↔ a ∈ (pre ++ rest).map Prod.fst) := by
  have hndA := hnd
  rw [List.map_append, List.nodup_append, List.map_cons, List.nodup_cons] at hndA
  have hnd1 : ((pre ++ rest).map Prod.fst).Nodup := by
    rw [List.map_append, List.nodup_append]
    refine ⟨hndA.1, hndA.2.1.2, ?_⟩
    intro a ha hmem
    exact hndA.2.2 ha (List.mem_cons_of_mem _ hmem)
  have hcn : c ∉ (pre ++ rest).map Prod.fst := by
    rw [List.map_append, List.mem_append]
    rintro (hmem | hmem)
    · exact hndA.2.2 hmem (by simp)
    · exact hndA.2.1.1 hmem
  refine ⟨hnd1, List.Nodup.erase c hk, fun a ha => hbd a (List.mem_of_mem_erase ha), ?_⟩
  intro a
  rw [List.Nodup.mem_erase_iff hk]
  constructor
  · rintro ⟨hax, hain⟩
    have h2 := (hiff a).mp hain
    rw [List.map_append, List.mem_append, List.map_cons, List.mem_cons] at h2
    rw [List.map_append, List.mem_append]
    rcases h2 with h2 | h2 | h2
    · exact Or.inl h2
    · exact absurd h2 hax
    · exact Or.inr h2
  · intro har
    refine ⟨fun hax => hcn (hax ▸ har), (hiff a).mpr ?_⟩
    rw [List.map_append, List.mem_append] at har
    rw [List.map_append, List.mem_append, List.map_cons, List.mem_cons]
    rcases har with h2 | h2
    · exact Or.inl h2
    · exact Or.inr (Or.inr h2)

theorem repXL_remove {k : XCur α} {pre post : List (Nat × α)} (hrc : repCur k pre post) :
    ∃ qs, repXL ((XCur.remove k).2).m ((XCur.remove k).2).l qs := by
  obtain ⟨b, hpre, hpost, htl, hnd, hk, hpos, hbd, hiff⟩ := repCur_decomp hrc
  by_cases hh : k.l.head = k.c
  · -- front of the list: pop_front
    have hpre0 : pre = [] := repCur_head_nil hrc hh
    subst hpre0
    rcases hpf : pop_front k.m k.l with ⟨r, m2, l2⟩
    have hml : XCur.remove k = (r, { k with m := m2, l := l2, c := l2.head }) := by
      rw [XCur.remove, if_pos hh, hpf]
    cases post with
    | nil =>
      have hrep := pop_front_nil (hrc.1 : repXL k.m k.l [])
      rw [hpf] at hrep
      injection hrep with h1 h2
      injection h2 with h2 h3
      subst h2
      subst h3
      exact ⟨[], by rw [hml]; exact hrc.1⟩
    | cons e rest =>
      obtain ⟨x, v⟩ := e
      obtain ⟨hval, hrep2⟩ :=
        repXL_pop_front (hrc.1 : repXL k.m k.l ((x, v) :: rest))
      rw [hpf] at hrep2
      exact ⟨rest, by rw [hml]; exact hrep2⟩
  by_cases htc : k.l.tail = k.c
  · -- at the tail position (or past the end of a one-element list): pop_back
    by_cases hc0 : k.c = 0
    · have hpost0 : post = [] := repCur_end_nil hrc hc0
      subst hpost0
      have hr2 : repXL k.m k.l pre := by
        have h2 := hrc.1
        rw [List.append_nil] at h2
        exact h2
      have hpre_ne : pre ≠ [] := by
        intro hcon
        subst hcon
        obtain ⟨-, hch⟩ := hpre
        exact hh hch.symm
      rcases List.eq_nil_or_concat pre with hcon | ⟨init, ep, hpc⟩
      · exact absurd hcon hpre_ne
      obtain ⟨t, z⟩ := ep
      rw [List.concat_eq_append] at hpc
      rw [hpc] at hr2
      obtain ⟨hval, hrep2⟩ := repXL_pop_back hr2
      rcases hpb : pop_back k.m k.l with ⟨r, m2, l2⟩
      have hml : XCur.remove k = (r, { k with m := m2, l := l2, c := 0 }) := by
        rw [XCur.remove, if_neg hh, if_pos htc, hpb]
      rw [hpb] at hrep2
      exact ⟨init, by rw [hml]; exact hrep2⟩
    · -- the cursor stands on the last node
      cases post with
      | nil =>
        exfalso
        obtain ⟨-, hq⟩ := hpost
        exact hc0 hq.symm
      | cons ec post2 =>
        obtain ⟨y, vc⟩ := ec
        have hy : y = k.c := by
          rw [Seg_cons] at hpost
          exact hpost.1
        subst hy
        have hndQ := hnd
        rw [List.map_append, List.nodup_append, List.map_cons, List.nodup_cons] at hndQ
        rcases List.eq_nil_or_concat post2 with rfl | ⟨mid2, e2, hp2⟩
        · -- exactly one node after the cursor start: ps = pre ++ [(k.c, vc)]
          obtain ⟨hval, hrep2⟩ :=
            repXL_pop_back (hrc.1 : repXL k.m k.l (pre ++ [(k.c, vc)]))
          rcases hpb : pop_back k.m k.l with ⟨r, m2, l2⟩
          have hml : XCur.remove k = (r, { k with m := m2, l := l2, c := 0 }) := by
            rw [XCur.remove, if_neg hh, if_pos htc, hpb]
          rw [hpb] at hrep2
          exact ⟨pre, by rw [hml]; exact hrep2⟩
        · -- impossible: the tail is the chain's last address, not the cursor node
          exfalso
          obtain ⟨t2, z2⟩ := e2
          rw [List.concat_eq_append] at hp2
          have hbt2 : b = t2 := by
            rw [hp2] at hpost
            exact Seg_last_of ((k.c, vc) :: mid2) (by
              rw [List.cons_append]
              exact hpost)
          have hlen2 : ¬ (pre ++ (k.c, vc) :: post2).length ≤ 1 := by
            rw [List.length_append, List.length_cons, hp2, List.length_append,
              List.length_singleton]
            omega
          rw [if_neg hlen2] at htl
          have hct2 : k.c = t2 := by rw [← htc, htl, hbt2]
          apply hndQ.2.1.1
          rw [hct2, hp2]
          rw [List.map_append, List.mem_append]
          right
          simp
  · -- interior removal, or a no-op when the cursor is past the end
    by_cases hc0 : k.c = 0
    · -- past the end of a list of two or more nodes: the lookup misses, no-op
      have hpost0 : post = [] := repCur_end_nil hrc hc0
      subst hpost0
      have h0none : hLookup k.m.heap k.c = none := by
        rw [hc0]
        exact hLookup_eq_none (fun hmem => absurd (hbd 0 hmem).1 (lt_irrefl 0))
      have hml : XCur.remove k = (none, { k with c := 0 }) := by
        rw [XCur.remove, if_neg hh, if_neg htc]
        simp only [h0none]
      refine ⟨pre, ?_⟩
      rw [hml]
      have h2 := hrc.1
      rw [List.append_nil] at h2
      exact h2
    · -- interior removal: erase the node and patch both neighbours
      cases post with
      | nil =>
        exfalso
        obtain ⟨-, hq⟩ := hpost
        exact hc0 hq.symm
      | cons ec post2 =>
        obtain ⟨y, vc⟩ := ec
        rw [Seg_cons] at hpost
        obtain ⟨rfl, hcne0, ndc, hlc, hdc, hrest⟩ := hpost
        have hpre_ne : pre ≠ [] := by
          intro hcon
          subst hcon
          obtain ⟨-, hch⟩ := hpre
          exact hh hch.symm
        rcases List.eq_nil_or_concat pre with hcon | ⟨pre0, ep, hpc⟩
        · exact absurd hcon hpre_ne
        obtain ⟨P, vp⟩ := ep
        rw [List.concat_eq_append] at hpc
        have hkp : k.p = P := Seg_last (by rw [hpc] at hpre; exact hpre)
        subst hkp
        have hpreA := hpre
        rw [hpc, Seg_append] at hpreA
        obtain ⟨b0, c0, hpre0, hlastP⟩ := hpreA
        rw [Seg_cons] at hlastP
        obtain ⟨hPc0, hc00, ndp, hlp, hdp, hlast2⟩ := hlastP
        subst hPc0
        obtain ⟨-, hkc⟩ := hlast2
        have hndp : ndp.link = b0 ^^^ k.c := by
          rw [hkc, ← Nat.xor_assoc, Nat.xor_self, Nat.zero_xor]
        -- the node after the cursor
        cases post2 with
        | nil =>
          -- then the cursor node is the last one, so tail = c, contradiction
          exfalso
          have hbt : b = k.c := by
            obtain ⟨hb2, -⟩ := hrest
            exact hb2
          have hlen2 : ¬ (pre ++ [(k.c, vc)]).length ≤ 1 := by
            rw [List.length_append, hpc, List.length_append]
            simp
          rw [if_neg hlen2] at htl
          exact htc (by rw [htl, hbt])
        | cons en post3 =>
          obtain ⟨n2, v2⟩ := en
          rw [Seg_cons] at hrest
          obtain ⟨hn2, hn20, ndn, hln, hdn, hrest2⟩ := hrest
          subst hn2
          -- address inequalities
          have hndA := hnd
          rw [List.map_append, List.nodup_append] at hndA
          have hpmem : k.p ∈ List.map Prod.fst pre := by rw [hpc]; simp
          have hcmem : k.c ∈ List.map Prod.fst ((k.c, vc) :: (k.p ^^^ ndc.link, v2) :: post3) := by
            simp
          have hnmem : k.p ^^^ ndc.link ∈
              List.map Prod.fst ((k.c, vc) :: (k.p ^^^ ndc.link, v2) :: post3) := by
            simp
          have hcp : k.c ≠ k.p := fun hcc =>
            hndA.2.2 hpmem (by
              rw [List.map_cons]
              exact List.mem_cons.mpr (Or.inl hcc.symm))
          have hnp : k.p ^^^ ndc.link ≠ k.p := fun hcc =>
            hndA.2.2 hpmem (by
              rw [List.map_cons, List.map_cons]
              exact List.mem_cons.mpr (Or.inr (List.mem_cons.mpr (Or.inl hcc.symm))))
          have hndQ := hndA.2.1
          rw [List.map_cons, List.nodup_cons] at hndQ
          have hnc : k.p ^^^ ndc.link ≠ k.c := by
            intro hcc
            exact hndQ.1 (by rw [← hcc]; simp)
          have hndR := hndQ.2
          rw [List.map_cons, List.nodup_cons] at hndR
          have hndP := hndA.1
          rw [hpc, List.map_append, List.nodup_append] at hndP
          -- the three lookups of the removal
          have hlpE : hLookup (hErase k.m.heap k.c) k.p = some ndp := by
            rw [hLookup_hErase hk _ _, if_neg (fun hcc => hcp hcc.symm)]
            exact hlp
          have hlnE : hLookup (hSetLink (hErase k.m.heap k.c) k.p
              (ndp.link ^^^ k.c ^^^ (k.p ^^^ ndc.link))) (k.p ^^^ ndc.link) = some ndn := by
            rw [hLookup_hSetLink_ne hnp _, hLookup_hErase hk _ _, if_neg hnc]
            exact hln
          have hml : XCur.remove k = (some ndc.data,
              { k with
                m := ⟨hSetLink (hSetLink (hErase k.m.heap k.c) k.p
                        (ndp.link ^^^ k.c ^^^ (k.p ^^^ ndc.link)))
                      (k.p ^^^ ndc.link) (ndn.link ^^^ k.c ^^^ k.p), k.m.fresh⟩,
                c := k.p ^^^ ndc.link }) := by
            rw [XCur.remove, if_neg hh, if_neg htc]
            simp only [hlc, hdc, hlpE, hlnE]
          refine ⟨pre ++ (k.p ^^^ ndc.link, v2) :: post3, ?_⟩
          rw [hml]
          obtain ⟨hw1, hw2, hw3, hw4⟩ :=
            @repXL_wf_erase_mid α k.m k.c vc
              pre ((k.p ^^^ ndc.link, v2) :: post3) hnd hk hbd hiff
          have hkeys : keysOf (hSetLink (hSetLink (hErase k.m.heap k.c) k.p
              (ndp.link ^^^ k.c ^^^ (k.p ^^^ ndc.link)))
              (k.p ^^^ ndc.link) (ndn.link ^^^ k.c ^^^ k.p)) = (keysOf k.m.heap).erase k.c := by
            rw [keysOf_hSetLink, keysOf_hSetLink, keysOf_hErase]
          -- frame conditions
          have hframe0 : ∀ y2 ∈ pre0,
              hLookup (hSetLink (hSetLink (hErase k.m.heap k.c) k.p
                  (ndp.link ^^^ k.c ^^^ (k.p ^^^ ndc.link)))
                  (k.p ^^^ ndc.link) (ndn.link ^^^ k.c ^^^ k.p)) (Prod.fst y2) =
                hLookup k.m.heap (Prod.fst y2) := by
            intro y2 hy2
            have hy2m : Prod.fst y2 ∈ List.map Prod.fst pre0 := List.mem_map.mpr ⟨y2, hy2, rfl⟩
            have hy2pre : Prod.fst y2 ∈ List.map Prod.fst pre := by
              rw [hpc, List.map_append, List.mem_append]
              exact Or.inl hy2m
            have hyp2 : Prod.fst y2 ≠ k.p := fun hcc =>
              hndP.2.2 hy2m (by rw [hcc]; simp)
            have hyc2 : Prod.fst y2 ≠ k.c := fun hcc =>
              hndA.2.2 hy2pre (by rw [hcc]; exact hcmem)
            have hyn2 : Prod.fst y2 ≠ k.p ^^^ ndc.link := fun hcc =>
              hndA.2.2 hy2pre (by rw [hcc]; exact hnmem)
            rw [hLookup_hSetLink_ne hyn2 _, hLookup_hSetLink_ne hyp2 _,
              hLookup_hErase hk _ _, if_neg hyc2]
          have hframe3 : ∀ y2 ∈ post3,
              hLookup (hSetLink (hSetLink (hErase k.m.heap k.c) k.p
                  (ndp.link ^^^ k.c ^^^ (k.p ^^^ ndc.link)))
                  (k.p ^^^ ndc.link) (ndn.link ^^^ k.c ^^^ k.p)) (Prod.fst y2) =
                hLookup k.m.heap (Prod.fst y2) := by
            intro y2 hy2
            have hy2m : Prod.fst y2 ∈ List.map Prod.fst post3 := List.mem_map.mpr ⟨y2, hy2, rfl⟩
            have hy2post : Prod.fst y2 ∈
                List.map Prod.fst ((k.c, vc) :: (k.p ^^^ ndc.link, v2) :: post3) := by
              rw [List.map_cons, List.map_cons]
              exact List.mem_cons_of_mem _ (List.mem_cons_of_mem _ hy2m)
            have hyc2 : Prod.fst y2 ≠ k.c := fun hcc => hndQ.1 (by
              rw [← hcc]
              rw [List.map_cons]
              exact List.mem_cons_of_mem _ hy2m)
            have hyn2 : Prod.fst y2 ≠ k.p ^^^ ndc.link := fun hcc =>
              hndR.1 (by rw [← hcc]; exact hy2m)
            have hyp2 : Prod.fst y2 ≠ k.p := fun hcc =>
              hndA.2.2 (by rw [← hcc] at hpmem; exact hpmem) hy2post
            rw [hLookup_hSetLink_ne hyn2 _, hLookup_hSetLink_ne hyp2 _,
              hLookup_hErase hk _ _, if_neg hyc2]
          -- xor arithmetic
          have hx1 : b0 ^^^ (ndp.link ^^^ k.c ^^^ (k.p ^^^ ndc.link)) = k.p ^^^ ndc.link := by
            rw [hndp, Nat.xor_cancel_right, ← Nat.xor_assoc, Nat.xor_self, Nat.zero_xor]
          have hx2 : k.p ^^^ (ndn.link ^^^ k.c ^^^ k.p) = k.c ^^^ ndn.link := by
            rw [Nat.xor_comm (ndn.link ^^^ k.c) k.p, ← Nat.xor_assoc, Nat.xor_self,
              Nat.zero_xor, Nat.xor_comm]
          refine ⟨b, ?_, ?_, hw1, ?_, hpos, ?_, ?_⟩
          · -- the new chain
            rw [hpc]
            have hassoc : (pre0 ++ [(k.p, vp)]) ++ (k.p ^^^ ndc.link, v2) :: post3 =
                pre0 ++ ((k.p, vp) :: (k.p ^^^ ndc.link, v2) :: post3) := by simp
            rw [hassoc, Seg_append]
            refine ⟨b0, k.p, Seg_frame hframe0 hpre0, ?_⟩
            rw [Seg_cons]
            refine ⟨rfl, hc00, ⟨ndp.link ^^^ k.c ^^^ (k.p ^^^ ndc.link), ndp.data⟩, ?_, hdp, ?_⟩
            · rw [hLookup_hSetLink_ne (fun hcc => hnp hcc.symm) _]
              exact hLookup_hSetLink_self hlpE _
            · rw [hx1, Seg_cons]
              refine ⟨rfl, hn20, ⟨ndn.link ^^^ k.c ^^^ k.p, ndn.data⟩,
                hLookup_hSetLink_self hlnE _, hdn, ?_⟩
              rw [hx2]
              exact Seg_frame hframe3 hrest2
          · -- tail pointer unchanged
            have hpre_len : pre.length = pre0.length + 1 := by rw [hpc]; simp
            have hlenN : ¬ (pre ++ (k.p ^^^ ndc.link, v2) :: post3).length ≤ 1 := by
              rw [List.length_append, List.length_cons, hpre_len]
              omega
            have hlenO : ¬ (pre ++ (k.c, vc) :: (k.p ^^^ ndc.link, v2) :: post3).length ≤ 1 := by
              rw [List.length_append, List.length_cons, List.length_cons, hpre_len]
              omega
            rw [if_neg hlenN, htl, if_neg hlenO]
          · rw [hkeys]
            exact hw2
          · rw [hkeys]
            exact hw3
          · intro a
            rw [hkeys]
            exact hw4 a

/-! ## The representation invariant of XorList (claim C10) -/

/-- C10 counterexample: splicing a one-node donor into a one-element list at
the cursor start succeeds and yields a list that iterates two elements while
its tail pointer is still null — `Cursor::splice` does not maintain the
claimed invariant that a list of two or more elements has a non-null tail. -/
theorem splice_breaks_rep_invariant :
    (sceneC10.map fun k => ((toList k.m k.l).length, k.l.head, k.l.tail)) =
      some (2, 2, 0) := by
  rfl

/-- C10 (amended): the representation predicate `repXL` — whose pointer-shape
consequences are exactly the claimed invariant (head null iff empty; a
one-element list has null tail and a null link in its sole node; two or more
elements give non-null, distinct head and tail) — holds for `new` and is
maintained by `push_back`, `push_front`, `pop_back`, `pop_front`, `clear`,
and by every cursor operation except `splice` and `split`: the motion
operations `next`/`prev`/`skip_forwards`/`skip_backwards`/`seek_to_start`/
`seek_to_end` never touch the store, and `remove`, `insert_before` and
`insert_after` at any valid cursor position rebuild the representation.
(`splice` and `split` break the invariant; see the counterexample.) -/
theorem xorlist_rep_invariant (α : Type) :
    (∀ (m : Mem α) (l : XLst) (ps : List (Nat × α)), repXL m l ps →
       ((l.head = 0 ↔ ps = []) ∧
        (ps.length = 1 → l.tail = 0 ∧ getLink m.heap l.head = 0) ∧
        (2 ≤ ps.length → l.head ≠ 0 ∧ l.tail ≠ 0 ∧ l.head ≠ l.tail))) ∧
    repXL (⟨[], 1⟩ : Mem α) XLst.new [] ∧
    (∀ (m : Mem α) (l : XLst) (ps : List (Nat × α)) (v : α), repXL m l ps →
       repXL (push_back m l v).1 (push_back m l v).2 (ps ++ [(m.fresh, v)])) ∧
    (∀ (m : Mem α) (l : XLst) (ps : List (Nat × α)) (v : α), repXL m l ps →
       repXL (push_front m l v).1 (push_front m l v).2 ((m.fresh, v) :: ps)) ∧
    (∀ (m : Mem α) (l : XLst) (ps : List (Nat × α)), repXL m l ps →
       ∃ qs, repXL (pop_front m l).2.1 (pop_front m l).2.2 qs) ∧
    (∀ (m : Mem α) (l : XLst) (ps : List (Nat × α)), repXL m l ps →
       ∃ qs, repXL (pop_back m l).2.1 (pop_back m l).2.2 qs) ∧
    (∀ (m : Mem α) (l : XLst) (ps : List (Nat × α)), repXL m l ps →
       repXL (clear m l).1 (clear m l).2 []) ∧
    (∀ k : XCur α,
       (XCur.next k).2.m = k.m ∧ (XCur.next k).2.l = k.l ∧
       (XCur.prev k).2.m = k.m ∧ (XCur.prev k).2.l = k.l ∧
       (∀ n, (skip_forwards k n).m = k.m ∧ (skip_forwards k n).l = k.l) ∧
       (∀ n, (skip_backwards k n).m = k.m ∧ (skip_backwards k n).l = k.l) ∧
       (seek_to_start k).m = k.m ∧ (seek_to_start k).l = k.l ∧
       (seek_to_end k).m = k.m ∧ (seek_to_end k).l = k.l) ∧
    (∀ (k : XCur α) (pre post : List (Nat × α)), repCur k pre post →
       ∃ qs, repXL ((XCur.remove k).2).m ((XCur.remove k).2).l qs) ∧
    (∀ (k : XCur α) (pre post : List (Nat × α)) (v : α), repCur k pre post →
       repXL (k.insert_before v).m (k.insert_before v).l (pre ++ (k.m.fresh, v) :: post)) ∧
    (∀ (k : XCur α) (pre post : List (Nat × α)) (v : α), repCur k pre post →
       repXL (k.insert_after v).m (k.insert_after v).l (pre ++ (k.m.fresh, v) :: post)) := by
  refine ⟨fun m l ps hr => repXL_props hr,
    repXL_nil_mem0,
    fun m l ps v hr => repXL_push_back hr,
    fun m l ps v hr => repXL_push_front hr,
    ?_, ?_,
    fun m l ps hr => repXL_clear hr,
    fun k => ⟨(XCur.next_store k).1, (XCur.next_store k).2,
      (XCur.prev_store k).1, (XCur.prev_store k).2,
      fun n => skip_forwards_store k n,
      fun n => skip_backwards_store k n,
      rfl, rfl, rfl, rfl⟩,
    fun k pre post hrc => repXL_remove hrc,
    fun k pre post v hrc => repXL_insert_before v hrc,
    fun k pre post v hrc => repXL_insert_after v hrc⟩
  · intro m l ps hr
    cases ps with
    | nil =>
      refine ⟨[], ?_⟩
      rw [pop_front_nil hr]
      exact hr
    | cons e rest =>
      obtain ⟨x, v⟩ := e
      exact ⟨rest, (repXL_pop_front hr).2⟩
  · intro m l ps hr
    rcases List.eq_nil_or_concat ps with rfl | ⟨init, e, hcon⟩
    · refine ⟨[], ?_⟩
      rw [pop_back_nil hr]
      exact hr
    · obtain ⟨t, z⟩ := e
      rw [List.concat_eq_append] at hcon
      subst hcon
      exact ⟨init, (repXL_pop_back hr).2⟩

/-- Witness for `xorlist_rep_invariant`: a concrete two-element list
`[10, 20]` with the cursor between the two elements satisfies `repCur`, and
the theorem's `insert_before` component applies to it. -/
theorem xorlist_rep_invariant_witness :
    repCur (⟨⟨[(2, ⟨1, 20⟩), (1, ⟨2, 10⟩)], 3⟩, ⟨1, 2⟩, 1, 2⟩ : XCur Nat)
      [(1, 10)] [(2, 20)] ∧
    repXL ((⟨⟨[(2, ⟨1, 20⟩), (1, ⟨2, 10⟩)], 3⟩, ⟨1, 2⟩, 1, 2⟩ : XCur Nat).insert_before 99).m
      ((⟨⟨[(2, ⟨1, 20⟩), (1, ⟨2, 10⟩)], 3⟩, ⟨1, 2⟩, 1, 2⟩ : XCur Nat).insert_before 99).l
      ([(1, 10)] ++ (3, 99) :: [(2, 20)]) := by
  have hrc : repCur (⟨⟨[(2, ⟨1, 20⟩), (1, ⟨2, 10⟩)], 3⟩, ⟨1, 2⟩, 1, 2⟩ : XCur Nat)
      [(1, 10)] [(2, 20)] := by
    refine ⟨⟨2, ?_, by decide, by decide, by decide, by decide, by decide,
      fun a => List.Perm.mem_iff (by decide)⟩, ?_⟩
    · exact ⟨rfl, by decide, rfl, rfl, by decide, rfl, rfl, rfl⟩
    · exact ⟨rfl, by decide, rfl, rfl, rfl⟩
  exact ⟨hrc,
    (xorlist_rep_invariant Nat).2.2.2.2.2.2.2.2.2.1 _ [(1, 10)] [(2, 20)] 99 hrc⟩

/-! ## Toolkit for the IList heap -/

theorem exists_hLookup_of_mem_keys {h : List (Nat × β)} {a : Nat} (ha : a ∈ keysOf h) :
    ∃ nd, hLookup h a = some nd := by
  induction h with
  | nil => simp [keysOf] at ha
  | cons e t ih =>
    obtain ⟨b, nd⟩ := e
    by_cases hab : a = b
    · exact ⟨nd, by rw [hLookup, if_pos hab]⟩
    · rw [keysOf, List.map_cons, List.mem_cons] at ha
      rcases ha with ha | ha
    
      · exact absurd ha hab
      · obtain ⟨nd2, h2⟩ := ih ha
        exact ⟨nd2, by rw [hLookup, if_neg hab]; exact h2⟩

theorem hLookup_of_mem {h : List (Nat × β)} (hk : (keysOf h).Nodup) {x : Nat} {nd : β}
    (hmem : (x, nd) ∈ h) : hLookup h x = some nd := by
  induction h with
  | nil => exact absurd hmem (List.not_mem_nil _)
  | cons e t ih =>
    obtain ⟨b, nd0⟩ := e
    rw [keysOf, List.map_cons, List.nodup_cons] at hk
    rcases List.mem_cons.mp hmem with heq | hmem2
    · injection heq with h1 h2
      subst h1
      subst h2
      rw [hLookup, if_pos rfl]
    · have hxb : x ≠ b := by
        intro hcc
        subst hcc
        exact hk.1 (List.mem_map.mpr ⟨(x, nd), hmem2, rfl⟩)
      rw [hLookup, if_neg hxb]
      exact ih hk.2 hmem2

theorem mem_of_hLookup {h : List (Nat × β)} {x : Nat} {nd : β}
    (hl : hLookup h x = some nd) : (x, nd) ∈ h := by
  induction h with
  | nil => exact absurd hl (by rw [hLookup]; exact Option.noConfusion)
  | cons e t ih =>
    obtain ⟨b, nd0⟩ := e
    by_cases hxb : x = b
    · rw [hLookup, if_pos hxb] at hl
      injection hl with h2
      subst h2
      subst hxb
      exact List.mem_cons_self _ _
    · rw [hLookup, if_neg hxb] at hl
      exact List.mem_cons_of_mem _ (ih hl)

theorem keysOf_iSetNext (h : List (Nat × INd α)) (a x : Nat) :
    keysOf (iSetNext h a x) = keysOf h := keysOf_hUpdate h a _

theorem keysOf_iSetPrev (h : List (Nat × INd α)) (a x : Nat) :
    keysOf (iSetPrev h a x) = keysOf h := keysOf_hUpdate h a _

theorem keysOf_iIncCount (h : List (Nat × INd α)) (a : Nat) :
    keysOf (iIncCount h a) = keysOf h := keysOf_hUpdate h a _

theorem keysOf_iDecCount (h : List (Nat × INd α)) (a : Nat) :
    keysOf (iDecCount h a) = keysOf h := keysOf_hUpdate h a _

theorem iNext_iSetNext_self {h : List (Nat × INd α)} {a : Nat} (ha : a ∈ keysOf h) (x : Nat) :
    iNext (iSetNext h a x) a = x := by
  obtain ⟨nd, hnd⟩ := exists_hLookup_of_mem_keys ha
  rw [iNext, iSetNext, hLookup_hUpdate, if_pos rfl, hnd]
  rfl

theorem iNext_iSetNext_ne {h : List (Nat × INd α)} {a y : Nat} (hne : y ≠ a) (x : Nat) :
    iNext (iSetNext h a x) y = iNext h y := by
  rw [iNext, iSetNext, hLookup_hUpdate, if_neg hne, iNext]

theorem iNext_iSetPrev (h : List (Nat × INd α)) (a x y : Nat) :
    iNext (iSetPrev h a x) y = iNext h y := by
  rw [iNext, iSetPrev, hLookup_hUpdate, iNext]
  by_cases hy : y = a
  · rw [if_pos hy, hy]
    cases hLookup h a <;> rfl
  · rw [if_neg hy]

theorem iNext_iIncCount (h : List (Nat × INd α)) (a y : Nat) :
    iNext (iIncCount h a) y = iNext h y := by
  rw [iNext, iIncCount, hLookup_hUpdate, iNext]
  by_cases hy : y = a
  · rw [if_pos hy, hy]
    cases hLookup h a <;> rfl
  · rw [if_neg hy]

theorem iNext_iDecCount (h : List (Nat × INd α)) (a y : Nat) :
    iNext (iDecCount h a) y = iNext h y := by
  rw [iNext, iDecCount, hLookup_hUpdate, iNext]
  by_cases hy : y = a
  · rw [if_pos hy, hy]
    cases hLookup h a <;> rfl
  · rw [if_neg hy]

theorem iPrev_iSetPrev_self {h : List (Nat × INd α)} {a : Nat} (ha : a ∈ keysOf h) (x : Nat) :
    iPrev (iSetPrev h a x) a = x := by
  obtain ⟨nd, hnd⟩ := exists_hLookup_of_mem_keys ha
  rw [iPrev, iSetPrev, hLookup_hUpdate, if_pos rfl, hnd]
  rfl

theorem iPrev_iSetPrev_ne {h : List (Nat × INd α)} {a y : Nat} (hne : y ≠ a) (x : Nat) :
    iPrev (iSetPrev h a x) y = iPrev h y := by
  rw [iPrev, iSetPrev, hLookup_hUpdate, if_neg hne, iPrev]

theorem iPrev_iSetNext (h : List (Nat × INd α)) (a x y : Nat) :
    iPrev (iSetNext h a x) y = iPrev h y := by
  rw [iPrev, iSetNext, hLookup_hUpdate, iPrev]
  by_cases hy : y = a
  · rw [if_pos hy, hy]
    cases hLookup h a <;> rfl
  · rw [if_neg hy]

theorem iPrev_iIncCount (h : List (Nat × INd α)) (a y : Nat) :
    iPrev (iIncCount h a) y = iPrev h y := by
  rw [iPrev, iIncCount, hLookup_hUpdate, iPrev]
  by_cases hy : y = a
  · rw [if_pos hy, hy]
    cases hLookup h a <;> rfl
  · rw [if_neg hy]

theorem iPrev_iDecCount (h : List (Nat × INd α)) (a y : Nat) :
    iPrev (iDecCount h a) y = iPrev h y := by
  rw [iPrev, iDecCount, hLookup_hUpdate, iPrev]
  by_cases hy : y = a
  · rw [if_pos hy, hy]
    cases hLookup h a <;> rfl
  · rw [if_neg hy]

theorem iCount_iSetNext (h : List (Nat × INd α)) (a x y : Nat) :
    iCount (iSetNext h a x) y = iCount h y := by
  rw [iCount, iSetNext, hLookup_hUpdate, iCount]
  by_cases hy : y = a
  · rw [if_pos hy, hy]
    cases hLookup h a <;> rfl
  · rw [if_neg hy]

theorem iCount_iSetPrev (h : List (Nat × INd α)) (a x y : Nat) :
    iCount (iSetPrev h a x) y = iCount h y := by
  rw [iCount, iSetPrev, hLookup_hUpdate, iCount]
  by_cases hy : y = a
  · rw [if_pos hy, hy]
    cases hLookup h a <;> rfl
  · rw [if_neg hy]

theorem iCount_iIncCount_self {h : List (Nat × INd α)} {a : Nat} (ha : a ∈ keysOf h) :
    iCount (iIncCount h a) a = iCount h a + 1 := by
  obtain ⟨nd, hnd⟩ := exists_hLookup_of_mem_keys ha
  rw [iCount, iIncCount, hLookup_hUpdate, if_pos rfl, hnd, iCount, hnd]
  rfl

theorem iCount_iIncCount_ne {h : List (Nat × INd α)} {a y : Nat} (hne : y ≠ a) :
    iCount (iIncCount h a) y = iCount h y := by
  rw [iCount, iIncCount, hLookup_hUpdate, if_neg hne, iCount]

theorem iCount_iDecCount_self {h : List (Nat × INd α)} {a : Nat} (ha : a ∈ keysOf h) :
    iCount (iDecCount h a) a = iCount h a - 1 := by
  obtain ⟨nd, hnd⟩ := exists_hLookup_of_mem_keys ha
  rw [iCount, iDecCount, hLookup_hUpdate, if_pos rfl, hnd, iCount, hnd]
  rfl

theorem iCount_iDecCount_ne {h : List (Nat × INd α)} {a y : Nat} (hne : y ≠ a) :
    iCount (iDecCount h a) y = iCount h y := by
  rw [iCount, iDecCount, hLookup_hUpdate, if_neg hne, iCount]

theorem iNext_eq_zero_of_not_mem {h : List (Nat × INd α)} {a : Nat}
    (ha : a ∉ keysOf h) : iNext h a = 0 := by
  rw [iNext, hLookup_eq_none ha]

theorem iPrev_eq_zero_of_not_mem {h : List (Nat × INd α)} {a : Nat}
    (ha : a ∉ keysOf h) : iPrev h a = 0 := by
  rw [iPrev, hLookup_eq_none ha]

theorem mem_keys_of_iNext_ne {h : List (Nat × INd α)} {a : Nat}
    (ha : iNext h a ≠ 0) : a ∈ keysOf h := by
  by_contra hmem
  exact ha (iNext_eq_zero_of_not_mem hmem)

/-- Getter form of well-formedness, keyed by address and phrased over the
state components. -/
theorem wfI_getters {h : List (Nat × INd α)} {hd : List Nat} {f : Nat}
    (hw : wfI ⟨h, hd, f⟩) : ∀ x ∈ keysOf h,
    iCount h x ≤ usizeMax ∧
    (iNext h x = 0 ↔ iPrev h x = 0) ∧
    iNext h x ≠ x ∧ iPrev h x ≠ x ∧
    (iNext h x ≠ 0 →
      iNext h x ∈ keysOf h ∧ iPrev h (iNext h x) = x) ∧
    (iPrev h x ≠ 0 →
      iPrev h x ∈ keysOf h ∧ iNext h (iPrev h x) = x) ∧
    (iCount h x ≠ usizeMax →
      iCount h x = hd.count x + (if iNext h x ≠ 0 then 1 else 0)) := by
  intro x hx
  obtain ⟨nd, hnd⟩ := exists_hLookup_of_mem_keys hx
  have hmem : (x, nd) ∈ h := mem_of_hLookup hnd
  obtain ⟨hk, hf2, hbd, hhd, hcl, hri⟩ := hw
  have hc := hcl (x, nd) hmem
  have hgn : iNext h x = nd.next := by rw [iNext, hnd]
  have hgp : iPrev h x = nd.prev := by rw [iPrev, hnd]
  have hgc : iCount h x = nd.count := by rw [iCount, hnd]
  rw [hgn, hgp, hgc]
  exact ⟨hc.1, hc.2.1, hc.2.2.1, hc.2.2.2.1, hc.2.2.2.2.1, hc.2.2.2.2.2,
    fun hns => hri (x, nd) hmem hns⟩

/-- Introduction form of well-formedness from the getter view, phrased over
the state components. -/
theorem wfI_of_getters {h : List (Nat × INd α)} {hd : List Nat} {f : Nat}
    (hk : (keysOf h).Nodup) (hf : 0 < f)
    (hbd : ∀ a ∈ keysOf h, 0 < a ∧ a < f)
    (hhd : ∀ a ∈ hd, a ∈ keysOf h ∧ iCount h a ≠ usizeMax)
    (hcl : ∀ x ∈ keysOf h,
      iCount h x ≤ usizeMax ∧
      (iNext h x = 0 ↔ iPrev h x = 0) ∧
      iNext h x ≠ x ∧ iPrev h x ≠ x ∧
      (iNext h x ≠ 0 → iNext h x ∈ keysOf h ∧ iPrev h (iNext h x) = x) ∧
      (iPrev h x ≠ 0 → iPrev h x ∈ keysOf h ∧ iNext h (iPrev h x) = x) ∧
      (iCount h x ≠ usizeMax →
        iCount h x = hd.count x + (if iNext h x ≠ 0 then 1 else 0))) :
    wfI ⟨h, hd, f⟩ := by
  refine ⟨hk, hf, hbd, hhd, ?_, ?_⟩
  · intro e hmem
    have hxk : e.1 ∈ keysOf h := List.mem_map.mpr ⟨e, hmem, rfl⟩
    have hl : hLookup h e.1 = some e.2 := by
      obtain ⟨x, nd⟩ := e
      exact hLookup_of_mem hk hmem
    have hgn : iNext h e.1 = e.2.next := by rw [iNext, hl]
    have hgp : iPrev h e.1 = e.2.prev := by rw [iPrev, hl]
    have hgc : iCount h e.1 = e.2.count := by rw [iCount, hl]
    have hc := hcl e.1 hxk
    rw [hgn, hgp, hgc] at hc
    exact ⟨hc.1, hc.2.1, hc.2.2.1, hc.2.2.2.1, hc.2.2.2.2.1, hc.2.2.2.2.2.1⟩
  · intro e hmem hns
    have hxk : e.1 ∈ keysOf h := List.mem_map.mpr ⟨e, hmem, rfl⟩
    have hl : hLookup h e.1 = some e.2 := by
      obtain ⟨x, nd⟩ := e
      exact hLookup_of_mem hk hmem
    have hgn : iNext h e.1 = e.2.next := by rw [iNext, hl]
    have hgc : iCount h e.1 = e.2.count := by rw [iCount, hl]
    have hc := (hcl e.1 hxk).2.2.2.2.2.2
    rw [hgn, hgc] at hc
    exact hc hns

/-! ## Characterising `remove_from_list` -/

theorem node_remove_getters_detached {h : List (Nat × INd α)} {a : Nat}
    (hn : iNext h a = 0) (hp : iPrev h a = 0) :
    keysOf (node_remove h a) = keysOf h ∧
    (∀ y, iNext (node_remove h a) y = iNext h y) ∧
    (∀ y, iPrev (node_remove h a) y = iPrev h y) ∧
    (∀ y, iCount (node_remove h a) y = iCount h y) ∧
    (∀ y, y ≠ a → hLookup (node_remove h a) y = hLookup h y) := by
  have hred : node_remove h a = iSetNext (iSetPrev h a 0) a 0 := by
    rw [node_remove]
    simp only [hn, hp, ne_eq, not_true_eq_false, if_false]
  rw [hred]
  refine ⟨by rw [keysOf_iSetNext, keysOf_iSetPrev], ?_, ?_, ?_, ?_⟩
  · intro y
    by_cases hy : y = a
    · subst hy
      rw [hn, iNext, iSetNext, hLookup_hUpdate, if_pos rfl]
      cases hLookup (iSetPrev h y 0) y <;> rfl
    · rw [iNext_iSetNext_ne hy, iNext_iSetPrev]
  · intro y
    by_cases hy : y = a
    · subst hy
      rw [hp, iPrev_iSetNext, iPrev, iSetPrev, hLookup_hUpdate, if_pos rfl]
      cases hLookup h y <;> rfl
    · rw [iPrev_iSetNext, iPrev_iSetPrev_ne hy]
  · intro y
    rw [iCount_iSetNext, iCount_iSetPrev]
  · intro y hy
    rw [iSetNext, hLookup_hUpdate, if_neg hy, iSetPrev, hLookup_hUpdate, if_neg hy]

theorem node_remove_getters_linked {h : List (Nat × INd α)} {a : Nat}
    (hak : a ∈ keysOf h)
    (hn : iNext h a ≠ 0) (hp : iPrev h a ≠ 0)
    (hna : iNext h a ≠ a) (hpa : iPrev h a ≠ a)
    (hpn : iPrev h a ≠ iNext h a)
    (hpk : iPrev h a ∈ keysOf h) (hnk : iNext h a ∈ keysOf h) :
    keysOf (node_remove h a) = keysOf h ∧
    iNext (node_remove h a) a = 0 ∧
    iPrev (node_remove h a) a = 0 ∧
    iCount (node_remove h a) a = iCount h a - 1 ∧
    iNext (node_remove h a) (iPrev h a) = iNext h a ∧
    iPrev (node_remove h a) (iNext h a) = iPrev h a ∧
    (∀ y, y ≠ a → iCount (node_remove h a) y = iCount h y) ∧
    (∀ y, y ≠ a → y ≠ iPrev h a → iNext (node_remove h a) y = iNext h y) ∧
    (∀ y, y ≠ a → y ≠ iNext h a → iPrev (node_remove h a) y = iPrev h y) ∧
    (∀ y, y ≠ a → y ≠ iPrev h a → y ≠ iNext h a →
      hLookup (node_remove h a) y = hLookup h y) := by
  have hred : node_remove h a =
      iSetPrev (iSetNext (iDecCount (iSetNext (iSetPrev h a 0) a 0) a)
        (iPrev h a) (iNext h a)) (iNext h a) (iPrev h a) := by
    rw [node_remove]
    simp only [hn, hp, ne_eq, not_false_eq_true, if_true]
  have hk1 : a ∈ keysOf (iSetPrev h a 0) := by rw [keysOf_iSetPrev]; exact hak
  have hk2 : a ∈ keysOf (iSetNext (iSetPrev h a 0) a 0) := by
    rw [keysOf_iSetNext, keysOf_iSetPrev]; exact hak
  have hk3 : iPrev h a ∈ keysOf (iDecCount (iSetNext (iSetPrev h a 0) a 0) a) := by
    rw [keysOf_iDecCount, keysOf_iSetNext, keysOf_iSetPrev]; exact hpk
  have hk4 : iNext h a ∈ keysOf (iSetNext (iDecCount (iSetNext (iSetPrev h a 0) a 0) a)
      (iPrev h a) (iNext h a)) := by
    rw [keysOf_iSetNext, keysOf_iDecCount, keysOf_iSetNext, keysOf_iSetPrev]; exact hnk
  rw [hred]
  refine ⟨?_, ?_, ?_, ?_, ?_, ?_, ?_, ?_, ?_, ?_⟩
  · rw [keysOf_iSetPrev, keysOf_iSetNext, keysOf_iDecCount, keysOf_iSetNext, keysOf_iSetPrev]
  · rw [iNext_iSetPrev, iNext_iSetNext_ne hpa.symm, iNext_iDecCount,
      iNext_iSetNext_self hk1]
  · rw [iPrev_iSetPrev_ne hna.symm, iPrev_iSetNext, iPrev_iDecCount, iPrev_iSetNext,
      iPrev_iSetPrev_self hak]
  · rw [iCount_iSetPrev, iCount_iSetNext, iCount_iDecCount_self hk2,
      iCount_iSetNext, iCount_iSetPrev]
  · rw [iNext_iSetPrev, iNext_iSetNext_self hk3]
  · rw [iPrev_iSetPrev_self hk4]
  · intro y hy
    rw [iCount_iSetPrev, iCount_iSetNext, iCount_iDecCount_ne hy,
      iCount_iSetNext, iCount_iSetPrev]
  · intro y hy hyp
    rw [iNext_iSetPrev, iNext_iSetNext_ne hyp, iNext_iDecCount, iNext_iSetNext_ne hy,
      iNext_iSetPrev]
  · intro y hy hyn
    rw [iPrev_iSetPrev_ne hyn, iPrev_iSetNext, iPrev_iDecCount, iPrev_iSetNext,
      iPrev_iSetPrev_ne hy]
  · intro y hy hyp hyn
    rw [iSetPrev, hLookup_hUpdate, if_neg hyn, iSetNext, hLookup_hUpdate, if_neg hyp,
      iDecCount, hLookup_hUpdate, if_neg hy, iSetNext, hLookup_hUpdate, if_neg hy,
      iSetPrev, hLookup_hUpdate, if_neg hy]

theorem wfI_node_remove {s : ISt α} (hw : wfI s) {a : Nat} (hak : a ∈ keysOf s.heap)
    (hans : iCount s.heap a ≠ usizeMax)
    (hsole : iNext s.heap a = 0 ∨ iPrev s.heap a ≠ iNext s.heap a) :
    wfI ⟨node_remove s.heap a, s.handles, s.fresh⟩ := by
  have wfg := wfI_getters hw
  have ga := wfg a hak
  obtain ⟨hk, hf, hbd, hhd, -, -⟩ := hw
  have ha0 : (0 : Nat) < a := (hbd a hak).1
  have ha0n : (a : Nat) ≠ 0 := by omega
  by_cases hn : iNext s.heap a = 0
  · -- detached node: every getter is unchanged
    have hp : iPrev s.heap a = 0 := (ga.2.1).mp hn
    obtain ⟨hkeys, hgN, hgP, hgC, -⟩ := node_remove_getters_detached hn hp
    refine wfI_of_getters (by rw [hkeys]; exact hk) hf
      (by rw [hkeys]; exact hbd) ?_ ?_
    · intro x hx
      have h2 := hhd x hx
      rw [hkeys, hgC]
      exact h2
    · intro x hx
      rw [hkeys] at hx
      have h2 := wfg x hx
      simp only [hkeys, hgN, hgP, hgC]
      exact h2
  · -- the node is linked on both sides
    have hp : iPrev s.heap a ≠ 0 := fun hc => hn ((ga.2.1).mpr hc)
    have hpn : iPrev s.heap a ≠ iNext s.heap a := by
      rcases hsole with hc | hc
      · exact absurd hc hn
      · exact hc
    have hna : iNext s.heap a ≠ a := ga.2.2.1
    have hpa : iPrev s.heap a ≠ a := ga.2.2.2.1
    obtain ⟨hnk, hprevna⟩ := ga.2.2.2.2.1 hn
    obtain ⟨hpk, hnextpa⟩ := ga.2.2.2.2.2.1 hp
    obtain ⟨hkeys, hNa, hPa, hCa, hNp, hPn, hgC, hgN, hgP, -⟩ :=
      node_remove_getters_linked hak hn hp hna hpa hpn hpk hnk
    have gp := wfg _ hpk
    have gn := wfg _ hnk
    have hca : iCount s.heap a = s.handles.count a + 1 := by
      have h2 := ga.2.2.2.2.2.2 hans
      rw [if_pos hn] at h2
      exact h2
    refine wfI_of_getters (by rw [hkeys]; exact hk) hf
      (by rw [hkeys]; exact hbd) ?_ ?_
    · -- handle validity: only the removed node's count changed, by one
      intro x hx
      have h2 := hhd x hx
      rw [hkeys]
      by_cases hxa : x = a
      · subst hxa
        refine ⟨h2.1, ?_⟩
        rw [hCa]
        have h3 := ga.1
        omega
      · rw [hgC x hxa]
        exact h2
    · intro x hx
      rw [hkeys] at hx
      by_cases hxa : x = a
      · -- the removed node: both links nulled, count decremented
        subst hxa
        rw [hNa, hPa, hCa, hkeys]
        refine ⟨by have h3 := ga.1; omega, Iff.rfl, fun hc => ha0n hc.symm,
          fun hc => ha0n hc.symm, fun hc => absurd rfl hc, fun hc => absurd rfl hc, ?_⟩
        intro _
        rw [if_neg (fun hc : (0 : Nat) ≠ 0 => hc rfl)]
        omega
      by_cases hxp : x = iPrev s.heap a
      · -- the left neighbour: its next pointer now skips to the right neighbour
        subst hxp
        have hPp : iPrev (node_remove s.heap a) (iPrev s.heap a) =
            iPrev s.heap (iPrev s.heap a) := hgP _ hpa hpn
        have hCp : iCount (node_remove s.heap a) (iPrev s.heap a) =
            iCount s.heap (iPrev s.heap a) := hgC _ hpa
        rw [hNp, hPp, hCp, hPn, hkeys]
        have hprevp0 : iPrev s.heap (iPrev s.heap a) ≠ 0 := by
          intro hc
          have h3 := (gp.2.1).mpr hc
          rw [hnextpa] at h3
          exact ha0n h3
        refine ⟨gp.1, iff_of_false hn hprevp0, fun hc => hpn hc.symm, gp.2.2.2.1,
          ?_, ?_, ?_⟩
        · intro _
          exact ⟨hnk, rfl⟩
        · intro hpv0
          obtain ⟨hpvk, hpvnext⟩ := gp.2.2.2.2.2.1 hpv0
          have hpva : iPrev s.heap (iPrev s.heap a) ≠ a := by
            intro hc
            rw [hc] at hpvnext
            exact hpn hpvnext.symm
          have hpvp : iPrev s.heap (iPrev s.heap a) ≠ iPrev s.heap a := gp.2.2.2.1
          refine ⟨hpvk, ?_⟩
          rw [hgN _ hpva hpvp]
          exact hpvnext
        · intro hns2
          have h5 := gp.2.2.2.2.2.2 hns2
          rw [hnextpa, if_pos ha0n] at h5
          rw [if_pos hn]
          exact h5
      by_cases hxn : x = iNext s.heap a
      · -- the right neighbour: its prev pointer now skips to the left neighbour
        subst hxn
        have hNn : iNext (node_remove s.heap a) (iNext s.heap a) =
            iNext s.heap (iNext s.heap a) := hgN _ hna (fun hc => hpn hc.symm)
        have hCn : iCount (node_remove s.heap a) (iNext s.heap a) =
            iCount s.heap (iNext s.heap a) := hgC _ hna
        rw [hNn, hPn, hCn, hNp, hkeys]
        have hnextn0 : iNext s.heap (iNext s.heap a) ≠ 0 := by
          intro hc
          have h3 := (gn.2.1).mp hc
          rw [hprevna] at h3
          exact ha0n h3
        refine ⟨gn.1, iff_of_false hnextn0 hp, gn.2.2.1, hpn, ?_, ?_, ?_⟩
        · intro ht0
          obtain ⟨htk, htprev⟩ := gn.2.2.2.2.1 ht0
          have hta : iNext s.heap (iNext s.heap a) ≠ a := by
            intro hc
            rw [hc] at htprev
            exact hpn htprev
          have htn : iNext s.heap (iNext s.heap a) ≠ iNext s.heap a := gn.2.2.1
          refine ⟨htk, ?_⟩
          rw [hgP _ hta htn]
          exact htprev
        · intro _
          exact ⟨hpk, rfl⟩
        · intro hns2
          have h5 := gn.2.2.2.2.2.2 hns2
          rw [if_pos hnextn0] at h5
          rw [if_pos hnextn0]
          exact h5
      · -- any other node: untouched, and its neighbours are untouched too
        have gx := wfg x hx
        rw [hgN x hxa hxp, hgP x hxa hxn, hgC x hxa, hkeys]
        refine ⟨gx.1, gx.2.1, gx.2.2.1, gx.2.2.2.1, ?_, ?_, gx.2.2.2.2.2.2⟩
        · intro ht0
          obtain ⟨htk, htprev⟩ := gx.2.2.2.2.1 ht0
          have hta : iNext s.heap x ≠ a := by
            intro hc
            rw [hc] at htprev
            exact hxp htprev.symm
          have htn : iNext s.heap x ≠ iNext s.heap a := by
            intro hc
            rw [hc, hprevna] at htprev
            exact hxa htprev.symm
          refine ⟨htk, ?_⟩
          rw [hgP _ hta htn]
          exact htprev
        · intro hpv0
          obtain ⟨hpvk, hpvnext⟩ := gx.2.2.2.2.2.1 hpv0
          have hpva : iPrev s.heap x ≠ a := by
            intro hc
            rw [hc] at hpvnext
            exact hxn hpvnext.symm
          have hpvp : iPrev s.heap x ≠ iPrev s.heap a := by
            intro hc
            rw [hc, hnextpa] at hpvnext
            exact hxa hpvnext.symm
          refine ⟨hpvk, ?_⟩
          rw [hgN _ hpva hpvp]
          exact hpvnext

/-! ## `insert_after` in detail -/

theorem insert_after_spec {s : ISt α} (hw : wfI s) {a b : Nat} (hbh : b ∈ s.handles)
    (hab : a ≠ b)
    (hsole : iNext s.heap b = 0 ∨ iPrev s.heap b ≠ iNext s.heap b)
    (hina : iNext s.heap a ≠ 0) :
    ∃ s2, insert_after s a b = some s2 ∧ wfI s2 ∧
      s2.handles = s.handles.erase b ∧ s2.fresh = s.fresh ∧
      keysOf s2.heap = keysOf s.heap ∧
      iNext s2.heap a = b ∧
      iPrev s2.heap b = a ∧
      iNext s2.heap b = iNext (node_remove s.heap b) a ∧
      iPrev s2.heap (iNext (node_remove s.heap b) a) = b ∧
      iCount s2.heap b = iCount (node_remove s.heap b) b ∧
      (∀ y, y ≠ a → y ≠ b → y ≠ iNext (node_remove s.heap b) a →
        hLookup s2.heap y = hLookup (node_remove s.heap b) y) := by
  have wfg := wfI_getters hw
  have hbl := hw.2.2.2.1 b hbh
  have hbk : b ∈ keysOf s.heap := hbl.1
  have hbns : iCount s.heap b ≠ usizeMax := hbl.2
  have gb := wfg b hbk
  -- the state after detaching the inserted node
  have hw1 : wfI (⟨node_remove s.heap b, s.handles, s.fresh⟩ : ISt α) :=
    wfI_node_remove hw hbk hbns hsole
  have hfacts : iNext (node_remove s.heap b) b = 0 ∧
      iPrev (node_remove s.heap b) b = 0 ∧
      iNext (node_remove s.heap b) a ≠ 0 ∧
      keysOf (node_remove s.heap b) = keysOf s.heap := by
    by_cases hbn : iNext s.heap b = 0
    · have hbp := (gb.2.1).mp hbn
      obtain ⟨hkeys, hgN, hgP, -, -⟩ := node_remove_getters_detached hbn hbp
      exact ⟨by rw [hgN]; exact hbn, by rw [hgP]; exact hbp, by rw [hgN]; exact hina, hkeys⟩
    · have hbp : iPrev s.heap b ≠ 0 := fun hc => hbn ((gb.2.1).mpr hc)
      have hbpn : iPrev s.heap b ≠ iNext s.heap b := hsole.resolve_left hbn
      obtain ⟨hbnk, -⟩ := gb.2.2.2.2.1 hbn
      obtain ⟨hbpk, -⟩ := gb.2.2.2.2.2.1 hbp
      obtain ⟨hkeys, hNb, hPb, -, hNp, -, -, hgN, -, -⟩ :=
        node_remove_getters_linked hbk hbn hbp gb.2.2.1 gb.2.2.2.1 hbpn hbpk hbnk
      refine ⟨hNb, hPb, ?_, hkeys⟩
      by_cases hap : a = iPrev s.heap b
      · rw [hap, hNp]
        exact hbn
      · rw [hgN a hab hap]
        exact hina
  obtain ⟨hNb1, hPb1, hnx, hK1⟩ := hfacts
  have wfg1 := wfI_getters hw1
  have hak1 : a ∈ keysOf (node_remove s.heap b) := mem_keys_of_iNext_ne hnx
  have hbk1 : b ∈ keysOf (node_remove s.heap b) := by rw [hK1]; exact hbk
  have g1a := wfg1 a hak1
  have g1b := wfg1 b hbk1
  have hnxa : iNext (node_remove s.heap b) a ≠ a := g1a.2.2.1
  obtain ⟨hnxk, hprev_nx_a⟩ := g1a.2.2.2.2.1 hnx
  have hpa1 : iPrev (node_remove s.heap b) a ≠ 0 := fun hc => hnx ((g1a.2.1).mpr hc)
  have ha0 : (0 : Nat) < a := (hw1.2.2.1 a hak1).1
  have hb0 : (0 : Nat) < b := (hw1.2.2.1 b hbk1).1
  have ha0n : (a : Nat) ≠ 0 := by omega
  have hb0n : (b : Nat) ≠ 0 := by omega
  have hnxb : iNext (node_remove s.heap b) a ≠ b := by
    intro hc
    rw [hc] at hprev_nx_a
    rw [hPb1] at hprev_nx_a
    exact ha0n hprev_nx_a.symm
  have g1nx := wfg1 _ hnxk
  have hnn0 : iNext (node_remove s.heap b) (iNext (node_remove s.heap b) a) ≠ 0 := by
    intro hc
    have h3 := (g1nx.2.1).mp hc
    rw [hprev_nx_a] at h3
    exact ha0n h3
  -- reduce the operation to an explicit heap
  have hcond1 : (iNext s.heap a = 0) = False := eq_false hina
  have hcond2 : (iNext (node_remove s.heap b) a ≠ 0) = True := eq_true hnx
  have heq : insert_after s a b = some
      ⟨iSetPrev (iSetNext (iSetNext (iSetPrev (node_remove s.heap b) b a) b
          (iNext (node_remove s.heap b) a)) a b)
        (iNext (node_remove s.heap b) a) b,
       s.handles.erase b, s.fresh⟩ := by
    simp only [insert_after, hcond1, hcond2, if_false, if_true]
  -- getters of the final heap
  have hKin : keysOf (iSetNext (iSetPrev (node_remove s.heap b) b a) b
      (iNext (node_remove s.heap b) a)) = keysOf (node_remove s.heap b) := by
    rw [keysOf_iSetNext, keysOf_iSetPrev]
  have hK5 : keysOf (iSetPrev (iSetNext (iSetNext (iSetPrev (node_remove s.heap b) b a) b
      (iNext (node_remove s.heap b) a)) a b) (iNext (node_remove s.heap b) a) b) =
      keysOf (node_remove s.heap b) := by
    rw [keysOf_iSetPrev, keysOf_iSetNext, hKin]
  have hN5a : iNext (iSetPrev (iSetNext (iSetNext (iSetPrev (node_remove s.heap b) b a) b
      (iNext (node_remove s.heap b) a)) a b) (iNext (node_remove s.heap b) a) b) a = b := by
    rw [iNext_iSetPrev, iNext_iSetNext_self (by rw [hKin]; exact hak1)]
  have hN5b : iNext (iSetPrev (iSetNext (iSetNext (iSetPrev (node_remove s.heap b) b a) b
      (iNext (node_remove s.heap b) a)) a b) (iNext (node_remove s.heap b) a) b) b =
      iNext (node_remove s.heap b) a := by
    rw [iNext_iSetPrev, iNext_iSetNext_ne (fun hc => hab hc.symm),
      iNext_iSetNext_self (by rw [keysOf_iSetPrev]; exact hbk1)]
  have hN5y : ∀ y, y ≠ a → y ≠ b →
      iNext (iSetPrev (iSetNext (iSetNext (iSetPrev (node_remove s.heap b) b a) b
        (iNext (node_remove s.heap b) a)) a b) (iNext (node_remove s.heap b) a) b) y =
      iNext (node_remove s.heap b) y := by
    intro y hya hyb
    rw [iNext_iSetPrev, iNext_iSetNext_ne hya, iNext_iSetNext_ne hyb, iNext_iSetPrev]
  have hP5b : iPrev (iSetPrev (iSetNext (iSetNext (iSetPrev (node_remove s.heap b) b a) b
      (iNext (node_remove s.heap b) a)) a b) (iNext (node_remove s.heap b) a) b) b = a := by
    rw [iPrev_iSetPrev_ne (fun hc => hnxb hc.symm), iPrev_iSetNext, iPrev_iSetNext,
      iPrev_iSetPrev_self hbk1]
  have hP5nx : iPrev (iSetPrev (iSetNext (iSetNext (iSetPrev (node_remove s.heap b) b a) b
      (iNext (node_remove s.heap b) a)) a b) (iNext (node_remove s.heap b) a) b)
      (iNext (node_remove s.heap b) a) = b := by
    rw [iPrev_iSetPrev_self (by rw [keysOf_iSetNext, hKin]; exact hnxk)]
  have hP5y : ∀ y, y ≠ b → y ≠ iNext (node_remove s.heap b) a →
      iPrev (iSetPrev (iSetNext (iSetNext (iSetPrev (node_remove s.heap b) b a) b
        (iNext (node_remove s.heap b) a)) a b) (iNext (node_remove s.heap b) a) b) y =
      iPrev (node_remove s.heap b) y := by
    intro y hyb hynx
    rw [iPrev_iSetPrev_ne hynx, iPrev_iSetNext, iPrev_iSetNext, iPrev_iSetPrev_ne hyb]
  have hC5 : ∀ y, iCount (iSetPrev (iSetNext (iSetNext (iSetPrev (node_remove s.heap b) b a) b
      (iNext (node_remove s.heap b) a)) a b) (iNext (node_remove s.heap b) a) b) y =
      iCount (node_remove s.heap b) y := by
    intro y
    rw [iCount_iSetPrev, iCount_iSetNext, iCount_iSetNext, iCount_iSetPrev]
  have hL5 : ∀ y, y ≠ a → y ≠ b → y ≠ iNext (node_remove s.heap b) a →
      hLookup (iSetPrev (iSetNext (iSetNext (iSetPrev (node_remove s.heap b) b a) b
        (iNext (node_remove s.heap b) a)) a b) (iNext (node_remove s.heap b) a) b) y =
      hLookup (node_remove s.heap b) y := by
    intro y hya hyb hynx
    rw [iSetPrev, hLookup_hUpdate, if_neg hynx, iSetNext, hLookup_hUpdate, if_neg hya,
      iSetNext, hLookup_hUpdate, if_neg hyb, iSetPrev, hLookup_hUpdate, if_neg hyb]
  -- well-formedness of the final state
  have hwf2 : wfI (⟨iSetPrev (iSetNext (iSetNext (iSetPrev (node_remove s.heap b) b a) b
      (iNext (node_remove s.heap b) a)) a b) (iNext (node_remove s.heap b) a) b,
      s.handles.erase b, s.fresh⟩ : ISt α) := by
    refine wfI_of_getters (by rw [hK5, hK1]; exact hw.1) hw.2.1
      (by rw [hK5, hK1]; exact hw.2.2.1) ?_ ?_
    · intro y hy
      have hy2 : y ∈ s.handles := List.mem_of_mem_erase hy
      have h2 := hw1.2.2.2.1 y hy2
      rw [hK5, hC5]
      exact h2
    · intro x hx
      rw [hK5] at hx
      by_cases hxa : x = a
      · rw [hxa, hN5a, hP5y a hab (Ne.symm hnxa), hC5, hK5]
        refine ⟨g1a.1, iff_of_false hb0n hpa1, fun hc => hab hc.symm, g1a.2.2.2.1,
          ?_, ?_, ?_⟩
        · intro _
          exact ⟨hbk1, hP5b⟩
        · intro hpv0
          obtain ⟨hpvk, hpvnext⟩ := g1a.2.2.2.2.2.1 hpv0
          have hpva : iPrev (node_remove s.heap b) a ≠ a := g1a.2.2.2.1
          have hpvb : iPrev (node_remove s.heap b) a ≠ b := by
            intro hc
            rw [hc, hNb1] at hpvnext
            exact ha0n hpvnext.symm
          refine ⟨hpvk, ?_⟩
          rw [hN5y _ hpva hpvb]
          exact hpvnext
        · intro hns
          have h5 := g1a.2.2.2.2.2.2 hns
          rw [if_pos hnx] at h5
          rw [if_pos hb0n, List.count_erase_of_ne hab]
          exact h5
      by_cases hxb : x = b
      · rw [hxb, hN5b, hP5b, hC5, hK5]
        have hcount1 : iCount (node_remove s.heap b) b = s.handles.count b := by
          have h5 := g1b.2.2.2.2.2.2 (hw1.2.2.2.1 b hbh).2
          rw [if_neg (fun hc => hc hNb1)] at h5
          omega
        refine ⟨g1b.1, iff_of_false hnx ha0n, hnxb, hab, ?_, ?_, ?_⟩
        · intro _
          exact ⟨hnxk, hP5nx⟩
        · intro _
          exact ⟨hak1, hN5a⟩
        · intro _
          rw [hcount1, if_pos hnx, List.count_erase_self]
          have hpos := List.count_pos_iff.mpr hbh
          omega
      by_cases hxnx : x = iNext (node_remove s.heap b) a
      · rw [hxnx, hN5y _ hnxa hnxb, hP5nx, hC5, hK5]
        refine ⟨g1nx.1, iff_of_false hnn0 hb0n, g1nx.2.2.1, fun hc => hnxb hc.symm,
          ?_, ?_, ?_⟩
        · intro ht0
          obtain ⟨htk, htprev⟩ := g1nx.2.2.2.2.1 ht0
          have hta : iNext (node_remove s.heap b) (iNext (node_remove s.heap b) a) ≠
              iNext (node_remove s.heap b) a := g1nx.2.2.1
          have hnx0 : (0 : Nat) < iNext (node_remove s.heap b) a :=
            (hw1.2.2.1 _ hnxk).1
          have htb : iNext (node_remove s.heap b) (iNext (node_remove s.heap b) a) ≠ b := by
            intro hc
            rw [hc, hPb1] at htprev
            omega
          refine ⟨htk, ?_⟩
          rw [hP5y _ htb hta]
          exact htprev
        · intro _
          exact ⟨hbk1, hN5b⟩
        · intro hns
          have h5 := g1nx.2.2.2.2.2.2 hns
          rw [if_pos hnn0] at h5
          rw [if_pos hnn0, List.count_erase_of_ne hnxb]
          exact h5
      · have g1x := wfg1 x hx
        rw [hN5y _ hxa hxb, hP5y _ hxb hxnx, hC5, hK5]
        have hx0 : (0 : Nat) < x := (hw1.2.2.1 x hx).1
        refine ⟨g1x.1, g1x.2.1, g1x.2.2.1, g1x.2.2.2.1, ?_, ?_, ?_⟩
        · intro ht0
          obtain ⟨htk, htprev⟩ := g1x.2.2.2.2.1 ht0
          have htb : iNext (node_remove s.heap b) x ≠ b := by
            intro hc
            rw [hc, hPb1] at htprev
            omega
          have htnx : iNext (node_remove s.heap b) x ≠ iNext (node_remove s.heap b) a := by
            intro hc
            rw [hc, hprev_nx_a] at htprev
            exact hxa htprev.symm
          refine ⟨htk, ?_⟩
          rw [hP5y _ htb htnx]
          exact htprev
        · intro hpv0
          obtain ⟨hpvk, hpvnext⟩ := g1x.2.2.2.2.2.1 hpv0
          have hpva : iPrev (node_remove s.heap b) x ≠ a := by
            intro hc
            rw [hc] at hpvnext
            exact hxnx hpvnext.symm
          have hpvb : iPrev (node_remove s.heap b) x ≠ b := by
            intro hc
            rw [hc, hNb1] at hpvnext
            omega
          refine ⟨hpvk, ?_⟩
          rw [hN5y _ hpva hpvb]
          exact hpvnext
        · intro hns
          have h5 := g1x.2.2.2.2.2.2 hns
          rw [List.count_erase_of_ne hxb]
          exact h5
  refine ⟨_, heq, hwf2, rfl, rfl, by rw [hK5, hK1], hN5a, hP5b, hN5b, hP5nx, hC5 b, hL5⟩

theorem insert_before_spec {s : ISt α} (hw : wfI s) {a b : Nat} (hbh : b ∈ s.handles)
    (hab : a ≠ b)
    (hsole : iNext s.heap b = 0 ∨ iPrev s.heap b ≠ iNext s.heap b)
    (hina : iNext s.heap a ≠ 0) :
    ∃ s2, insert_before s a b = some s2 ∧ wfI s2 ∧
      s2.handles = s.handles.erase b ∧ s2.fresh = s.fresh ∧
      keysOf s2.heap = keysOf s.heap ∧
      iNext s2.heap b = a ∧
      iPrev s2.heap a = b ∧
      iPrev s2.heap b = iPrev (node_remove s.heap b) a ∧
      iNext s2.heap (iPrev (node_remove s.heap b) a) = b ∧
      iCount s2.heap b = iCount (node_remove s.heap b) b ∧
      (∀ y, y ≠ a → y ≠ b → y ≠ iPrev (node_remove s.heap b) a →
        hLookup s2.heap y = hLookup (node_remove s.heap b) y) := by
  have wfg := wfI_getters hw
  have hbl := hw.2.2.2.1 b hbh
  have hbk : b ∈ keysOf s.heap := hbl.1
  have hbns : iCount s.heap b ≠ usizeMax := hbl.2
  have gb := wfg b hbk
  have hw1 : wfI (⟨node_remove s.heap b, s.handles, s.fresh⟩ : ISt α) :=
    wfI_node_remove hw hbk hbns hsole
  have hfacts : iNext (node_remove s.heap b) b = 0 ∧
      iPrev (node_remove s.heap b) b = 0 ∧
      iNext (node_remove s.heap b) a ≠ 0 ∧
      keysOf (node_remove s.heap b) = keysOf s.heap := by
    by_cases hbn : iNext s.heap b = 0
    · have hbp := (gb.2.1).mp hbn
      obtain ⟨hkeys, hgN, hgP, -, -⟩ := node_remove_getters_detached hbn hbp
      exact ⟨by rw [hgN]; exact hbn, by rw [hgP]; exact hbp, by rw [hgN]; exact hina, hkeys⟩
    · have hbp : iPrev s.heap b ≠ 0 := fun hc => hbn ((gb.2.1).mpr hc)
      have hbpn : iPrev s.heap b ≠ iNext s.heap b := hsole.resolve_left hbn
      obtain ⟨hbnk, -⟩ := gb.2.2.2.2.1 hbn
      obtain ⟨hbpk, -⟩ := gb.2.2.2.2.2.1 hbp
      obtain ⟨hkeys, hNb, hPb, -, hNp, -, -, hgN, -, -⟩ :=
        node_remove_getters_linked hbk hbn hbp gb.2.2.1 gb.2.2.2.1 hbpn hbpk hbnk
      refine ⟨hNb, hPb, ?_, hkeys⟩
      by_cases hap : a = iPrev s.heap b
      · rw [hap, hNp]
        exact hbn
      · rw [hgN a hab hap]
        exact hina
  obtain ⟨hNb1, hPb1, hnx, hK1⟩ := hfacts
  have wfg1 := wfI_getters hw1
  have hak1 : a ∈ keysOf (node_remove s.heap b) := mem_keys_of_iNext_ne hnx
  have hbk1 : b ∈ keysOf (node_remove s.heap b) := by rw [hK1]; exact hbk
  have g1a := wfg1 a hak1
  have g1b := wfg1 b hbk1
  have hnxa : iNext (node_remove s.heap b) a ≠ a := g1a.2.2.1
  obtain ⟨hnxk, hprev_nx_a⟩ := g1a.2.2.2.2.1 hnx
  have hpv : iPrev (node_remove s.heap b) a ≠ 0 := fun hc => hnx ((g1a.2.1).mpr hc)
  obtain ⟨hpvk, hnext_pv_a⟩ := g1a.2.2.2.2.2.1 hpv
  have hpva : iPrev (node_remove s.heap b) a ≠ a := g1a.2.2.2.1
  have ha0 : (0 : Nat) < a := (hw1.2.2.1 a hak1).1
  have hb0 : (0 : Nat) < b := (hw1.2.2.1 b hbk1).1
  have ha0n : (a : Nat) ≠ 0 := by omega
  have hb0n : (b : Nat) ≠ 0 := by omega
  have hnxb : iNext (node_remove s.heap b) a ≠ b := by
    intro hc
    rw [hc] at hprev_nx_a
    rw [hPb1] at hprev_nx_a
    exact ha0n hprev_nx_a.symm
  have hpvb : iPrev (node_remove s.heap b) a ≠ b := by
    intro hc
    rw [hc] at hnext_pv_a
    rw [hNb1] at hnext_pv_a
    exact ha0n hnext_pv_a.symm
  have g1pv := wfg1 _ hpvk
  have hpp0 : iPrev (node_remove s.heap b) (iPrev (node_remove s.heap b) a) ≠ 0 := by
    intro hc
    have h3 := (g1pv.2.1).mpr hc
    rw [hnext_pv_a] at h3
    exact ha0n h3
  -- reduce the operation to an explicit heap
  have hcond1 : (iNext s.heap a = 0) = False := eq_false hina
  have hcond2 : (iPrev (node_remove s.heap b) a ≠ 0) = True := eq_true hpv
  have heq : insert_before s a b = some
      ⟨iSetNext (iSetPrev (iSetPrev (iSetNext (node_remove s.heap b) b a) b
          (iPrev (node_remove s.heap b) a)) a b)
        (iPrev (node_remove s.heap b) a) b,
       s.handles.erase b, s.fresh⟩ := by
    simp only [insert_before, hcond1, hcond2, if_false, if_true]
  -- getters of the final heap
  have hKin : keysOf (iSetPrev (iSetNext (node_remove s.heap b) b a) b
      (iPrev (node_remove s.heap b) a)) = keysOf (node_remove s.heap b) := by
    rw [keysOf_iSetPrev, keysOf_iSetNext]
  have hK5 : keysOf (iSetNext (iSetPrev (iSetPrev (iSetNext (node_remove s.heap b) b a) b
      (iPrev (node_remove s.heap b) a)) a b) (iPrev (node_remove s.heap b) a) b) =
      keysOf (node_remove s.heap b) := by
    rw [keysOf_iSetNext, keysOf_iSetPrev, hKin]
  have hN5b : iNext (iSetNext (iSetPrev (iSetPrev (iSetNext (node_remove s.heap b) b a) b
      (iPrev (node_remove s.heap b) a)) a b) (iPrev (node_remove s.heap b) a) b) b = a := by
    rw [iNext_iSetNext_ne (fun hc => hpvb hc.symm), iNext_iSetPrev, iNext_iSetPrev,
      iNext_iSetNext_self hbk1]
  have hN5pv : iNext (iSetNext (iSetPrev (iSetPrev (iSetNext (node_remove s.heap b) b a) b
      (iPrev (node_remove s.heap b) a)) a b) (iPrev (node_remove s.heap b) a) b)
      (iPrev (node_remove s.heap b) a) = b := by
    rw [iNext_iSetNext_self (by rw [keysOf_iSetPrev, hKin]; exact hpvk)]
  have hN5y : ∀ y, y ≠ iPrev (node_remove s.heap b) a → y ≠ b →
      iNext (iSetNext (iSetPrev (iSetPrev (iSetNext (node_remove s.heap b) b a) b
        (iPrev (node_remove s.heap b) a)) a b) (iPrev (node_remove s.heap b) a) b) y =
      iNext (node_remove s.heap b) y := by
    intro y hypv hyb
    rw [iNext_iSetNext_ne hypv, iNext_iSetPrev, iNext_iSetPrev, iNext_iSetNext_ne hyb]
  have hP5a : iPrev (iSetNext (iSetPrev (iSetPrev (iSetNext (node_remove s.heap b) b a) b
      (iPrev (node_remove s.heap b) a)) a b) (iPrev (node_remove s.heap b) a) b) a = b := by
    rw [iPrev_iSetNext, iPrev_iSetPrev_self (by rw [hKin]; exact hak1)]
  have hP5b : iPrev (iSetNext (iSetPrev (iSetPrev (iSetNext (node_remove s.heap b) b a) b
      (iPrev (node_remove s.heap b) a)) a b) (iPrev (node_remove s.heap b) a) b) b =
      iPrev (node_remove s.heap b) a := by
    rw [iPrev_iSetNext, iPrev_iSetPrev_ne (fun hc => hab hc.symm),
      iPrev_iSetPrev_self (by rw [keysOf_iSetNext]; exact hbk1)]
  have hP5y : ∀ y, y ≠ a → y ≠ b →
      iPrev (iSetNext (iSetPrev (iSetPrev (iSetNext (node_remove s.heap b) b a) b
        (iPrev (node_remove s.heap b) a)) a b) (iPrev (node_remove s.heap b) a) b) y =
      iPrev (node_remove s.heap b) y := by
    intro y hya hyb
    rw [iPrev_iSetNext, iPrev_iSetPrev_ne hya, iPrev_iSetPrev_ne hyb, iPrev_iSetNext]
  have hC5 : ∀ y, iCount (iSetNext (iSetPrev (iSetPrev (iSetNext (node_remove s.heap b) b a) b
      (iPrev (node_remove s.heap b) a)) a b) (iPrev (node_remove s.heap b) a) b) y =
      iCount (node_remove s.heap b) y := by
    intro y
    rw [iCount_iSetNext, iCount_iSetPrev, iCount_iSetPrev, iCount_iSetNext]
  have hL5 : ∀ y, y ≠ a → y ≠ b → y ≠ iPrev (node_remove s.heap b) a →
      hLookup (iSetNext (iSetPrev (iSetPrev (iSetNext (node_remove s.heap b) b a) b
        (iPrev (node_remove s.heap b) a)) a b) (iPrev (node_remove s.heap b) a) b) y =
      hLookup (node_remove s.heap b) y := by
    intro y hya hyb hypv
    rw [iSetNext, hLookup_hUpdate, if_neg hypv, iSetPrev, hLookup_hUpdate, if_neg hya,
      iSetPrev, hLookup_hUpdate, if_neg hyb, iSetNext, hLookup_hUpdate, if_neg hyb]
  -- well-formedness of the final state
  have hwf2 : wfI (⟨iSetNext (iSetPrev (iSetPrev (iSetNext (node_remove s.heap b) b a) b
      (iPrev (node_remove s.heap b) a)) a b) (iPrev (node_remove s.heap b) a) b,
      s.handles.erase b, s.fresh⟩ : ISt α) := by
    refine wfI_of_getters (by rw [hK5, hK1]; exact hw.1) hw.2.1
      (by rw [hK5, hK1]; exact hw.2.2.1) ?_ ?_
    · intro y hy
      have hy2 : y ∈ s.handles := List.mem_of_mem_erase hy
      have h2 := hw1.2.2.2.1 y hy2
      rw [hK5, hC5]
      exact h2
    · intro x hx
      rw [hK5] at hx
      by_cases hxa : x = a
      · rw [hxa, hN5y a (fun hc => hpva hc.symm) hab, hP5a, hC5, hK5]
        refine ⟨g1a.1, iff_of_false hnx hb0n, hnxa, fun hc => hab hc.symm, ?_, ?_, ?_⟩
        · intro _
          refine ⟨hnxk, ?_⟩
          rw [hP5y _ hnxa hnxb]
          exact hprev_nx_a
        · intro _
          exact ⟨hbk1, hN5b⟩
        · intro hns
          have h5c := g1a.2.2.2.2.2.2 hns
          rw [if_pos hnx] at h5c
          rw [if_pos hnx, List.count_erase_of_ne hab]
          exact h5c
      by_cases hxb : x = b
      · rw [hxb, hN5b, hP5b, hC5, hK5]
        have hcount1 : iCount (node_remove s.heap b) b = s.handles.count b := by
          have h5c := g1b.2.2.2.2.2.2 (hw1.2.2.2.1 b hbh).2
          rw [if_neg (fun hc => hc hNb1)] at h5c
          omega
        refine ⟨g1b.1, iff_of_false ha0n hpv, hab, hpvb, ?_, ?_, ?_⟩
        · intro _
          exact ⟨hak1, hP5a⟩
        · intro _
          exact ⟨hpvk, hN5pv⟩
        · intro _
          rw [hcount1, if_pos ha0n, List.count_erase_self]
          have hpos := List.count_pos_iff.mpr hbh
          omega
      by_cases hxpv : x = iPrev (node_remove s.heap b) a
      · rw [hxpv, hN5pv, hP5y _ hpva hpvb, hC5, hK5]
        refine ⟨g1pv.1, iff_of_false hb0n hpp0, fun hc => hpvb hc.symm, g1pv.2.2.2.1,
          ?_, ?_, ?_⟩
        · intro _
          exact ⟨hbk1, hP5b⟩
        · intro hpp1
          obtain ⟨hppk, hppnext⟩ := g1pv.2.2.2.2.2.1 hpp1
          have hppv : iPrev (node_remove s.heap b) (iPrev (node_remove s.heap b) a) ≠
              iPrev (node_remove s.heap b) a := g1pv.2.2.2.1
          have hppb : iPrev (node_remove s.heap b) (iPrev (node_remove s.heap b) a) ≠ b := by
            intro hc
            rw [hc, hNb1] at hppnext
            exact hpv hppnext.symm
          refine ⟨hppk, ?_⟩
          rw [hN5y _ hppv hppb]
          exact hppnext
        · intro hns
          have h5c := g1pv.2.2.2.2.2.2 hns
          rw [hnext_pv_a, if_pos ha0n] at h5c
          rw [if_pos hb0n, List.count_erase_of_ne hpvb]
          exact h5c
      · have g1x := wfg1 x hx
        rw [hN5y _ hxpv hxb, hP5y _ hxa hxb, hC5, hK5]
        have hx0 : (0 : Nat) < x := (hw1.2.2.1 x hx).1
        refine ⟨g1x.1, g1x.2.1, g1x.2.2.1, g1x.2.2.2.1, ?_, ?_, ?_⟩
        · intro ht0
          obtain ⟨htk, htprev⟩ := g1x.2.2.2.2.1 ht0
          have hta : iNext (node_remove s.heap b) x ≠ a := by
            intro hc
            rw [hc] at htprev
            exact hxpv htprev.symm
          have htb : iNext (node_remove s.heap b) x ≠ b := by
            intro hc
            rw [hc, hPb1] at htprev
            omega
          refine ⟨htk, ?_⟩
          rw [hP5y _ hta htb]
          exact htprev
        · intro hq0
          obtain ⟨hqk, hqnext⟩ := g1x.2.2.2.2.2.1 hq0
          have hqpv : iPrev (node_remove s.heap b) x ≠ iPrev (node_remove s.heap b) a := by
            intro hc
            rw [hc, hnext_pv_a] at hqnext
            exact hxa hqnext.symm
          have hqb : iPrev (node_remove s.heap b) x ≠ b := by
            intro hc
            rw [hc, hNb1] at hqnext
            omega
          refine ⟨hqk, ?_⟩
          rw [hN5y _ hqpv hqb]
          exact hqnext
        · intro hns
          have h5c := g1x.2.2.2.2.2.2 hns
          rw [List.count_erase_of_ne hxb]
          exact h5c
  refine ⟨_, heq, hwf2, rfl, rfl, by rw [hK5, hK1], hN5b, hP5a, hP5b, hN5pv, hC5 b, hL5⟩

/-! ## Preservation by the handle-minting operations -/

theorem iNext_cons_self (k : Nat) (nd : INd α) (t : List (Nat × INd α)) :
    iNext ((k, nd) :: t) k = nd.next := by
  rw [iNext, hLookup_cons_self]

theorem iNext_cons_ne (k : Nat) (nd : INd α) (t : List (Nat × INd α)) {y : Nat}
    (hy : y ≠ k) : iNext ((k, nd) :: t) y = iNext t y := by
  rw [iNext, hLookup_cons_ne _ _ _ hy, iNext]

theorem iPrev_cons_self (k : Nat) (nd : INd α) (t : List (Nat × INd α)) :
    iPrev ((k, nd) :: t) k = nd.prev := by
  rw [iPrev, hLookup_cons_self]

theorem iPrev_cons_ne (k : Nat) (nd : INd α) (t : List (Nat × INd α)) {y : Nat}
    (hy : y ≠ k) : iPrev ((k, nd) :: t) y = iPrev t y := by
  rw [iPrev, hLookup_cons_ne _ _ _ hy, iPrev]

theorem iCount_cons_self (k : Nat) (nd : INd α) (t : List (Nat × INd α)) :
    iCount ((k, nd) :: t) k = nd.count := by
  rw [iCount, hLookup_cons_self]

theorem iCount_cons_ne (k : Nat) (nd : INd α) (t : List (Nat × INd α)) {y : Nat}
    (hy : y ≠ k) : iCount ((k, nd) :: t) y = iCount t y := by
  rw [iCount, hLookup_cons_ne _ _ _ hy, iCount]

theorem wfI_mint {s : ISt α} (hw : wfI s) {n : Nat} (hk : n ∈ keysOf s.heap)
    (hns : iCount s.heap n ≠ usizeMax)
    (hov : iCount s.heap n + 1 ≠ usizeMax) :
    wfI (⟨iIncCount s.heap n, n :: s.handles, s.fresh⟩ : ISt α) := by
  have wfg := wfI_getters hw
  have hcle : iCount s.heap n ≤ usizeMax := (wfg n hk).1
  refine wfI_of_getters (by rw [keysOf_iIncCount]; exact hw.1) hw.2.1
    (by rw [keysOf_iIncCount]; exact hw.2.2.1) ?_ ?_
  · intro y hy
    rw [keysOf_iIncCount]
    by_cases hyn : y = n
    · rw [hyn, iCount_iIncCount_self hk]
      exact ⟨hk, hov⟩
    · have hy2 : y ∈ s.handles := by
        rcases List.mem_cons.mp hy with hc | hc
        · exact absurd hc hyn
        · exact hc
      rw [iCount_iIncCount_ne hyn]
      exact hw.2.2.2.1 y hy2
  · intro x hx
    rw [keysOf_iIncCount] at hx
    simp only [keysOf_iIncCount, iNext_iIncCount, iPrev_iIncCount]
    by_cases hxn : x = n
    · have gn := wfg n hk
      rw [hxn, iCount_iIncCount_self hk]
      refine ⟨by omega, gn.2.1, gn.2.2.1, gn.2.2.2.1, gn.2.2.2.2.1, gn.2.2.2.2.2.1, ?_⟩
      intro _
      have h7 := gn.2.2.2.2.2.2 hns
      rw [List.count_cons_self]
      omega
    · have gx := wfg x hx
      rw [iCount_iIncCount_ne hxn]
      refine ⟨gx.1, gx.2.1, gx.2.2.1, gx.2.2.2.1, gx.2.2.2.2.1, gx.2.2.2.2.2.1, ?_⟩
      intro hns2
      have h7 := gx.2.2.2.2.2.2 hns2
      rw [List.count_cons_of_ne hxn]
      exact h7

theorem wfI_inode_clone {s : ISt α} (hw : wfI s) {a : Nat} (ha : a ∈ s.handles)
    (hov : iCount s.heap a + 1 ≠ usizeMax) : wfI (inode_clone s a) := by
  have h2 := hw.2.2.2.1 a ha
  exact wfI_mint hw h2.1 h2.2 hov

theorem wfI_inode_remove_from_list {s : ISt α} (hw : wfI s) {a : Nat}
    (ha : a ∈ s.handles)
    (hsole : iNext s.heap a = 0 ∨ iPrev s.heap a ≠ iNext s.heap a) :
    wfI (inode_remove_from_list s a) := by
  have h2 := hw.2.2.2.1 a ha
  exact wfI_node_remove hw h2.1 h2.2 hsole

theorem wfI_inode_new {s : ISt α} (hw : wfI s) (v : α) :
    wfI (inode_new s v).2 := by
  have wfg := wfI_getters hw
  have hfk : s.fresh ∉ keysOf s.heap := fun hm => absurd (hw.2.2.1 _ hm).2 (lt_irrefl _)
  have hfh : s.fresh ∉ s.handles := fun hm => hfk (hw.2.2.2.1 _ hm).1
  have hf0 : 0 < s.fresh := hw.2.1
  refine wfI_of_getters ?_ (Nat.succ_pos _) ?_ ?_ ?_
  · rw [keysOf_cons]
    exact List.nodup_cons.mpr ⟨hfk, hw.1⟩
  · intro y hy
    rw [keysOf_cons, List.mem_cons] at hy
    rcases hy with rfl | hc
    · exact ⟨hf0, by omega⟩
    · obtain ⟨h1, h2⟩ := hw.2.2.1 y hc
      exact ⟨h1, by omega⟩
  · intro y hy
    rw [keysOf_cons]
    rcases List.mem_cons.mp hy with rfl | hc
    · refine ⟨List.mem_cons_self _ _, ?_⟩
      rw [iCount_cons_self]
      show (1 : Nat) ≠ usizeMax
      decide
    · have h2 := hw.2.2.2.1 y hc
      have hyf : y ≠ s.fresh := fun heq => hfh (heq ▸ hc)
      refine ⟨List.mem_cons_of_mem _ h2.1, ?_⟩
      rw [iCount_cons_ne _ _ _ hyf]
      exact h2.2
  · intro x hx
    rw [keysOf_cons, List.mem_cons] at hx
    simp only [keysOf_cons]
    rcases hx with rfl | hx2
    · rw [iNext_cons_self, iPrev_cons_self, iCount_cons_self]
      refine ⟨by show (1 : Nat) ≤ usizeMax; decide, Iff.rfl, ?_, ?_, ?_, ?_, ?_⟩
      · show (0 : Nat) ≠ s.fresh
        omega
      · show (0 : Nat) ≠ s.fresh
        omega
      · show (0 : Nat) ≠ 0 → _
        exact fun hc => absurd rfl hc
      · show (0 : Nat) ≠ 0 → _
        exact fun hc => absurd rfl hc
      · intro _
        show (1 : Nat) = (s.fresh :: s.handles).count s.fresh +
          (if (0 : Nat) ≠ 0 then 1 else 0)
        rw [List.count_cons_self, List.count_eq_zero.mpr hfh,
          if_neg (fun hc => hc rfl)]
    · have gx := wfg x hx2
      have hxf : x ≠ s.fresh := fun heq => hfk (heq ▸ hx2)
      rw [iNext_cons_ne _ _ _ hxf, iPrev_cons_ne _ _ _ hxf, iCount_cons_ne _ _ _ hxf]
      refine ⟨gx.1, gx.2.1, gx.2.2.1, gx.2.2.2.1, ?_, ?_, ?_⟩
      · intro ht0
        obtain ⟨htk, htprev⟩ := gx.2.2.2.2.1 ht0
        have htf : iNext s.heap x ≠ s.fresh := fun heq => hfk (heq ▸ htk)
        refine ⟨List.mem_cons_of_mem _ htk, ?_⟩
        rw [iPrev_cons_ne _ _ _ htf]
        exact htprev
      · intro hq0
        obtain ⟨hqk, hqnext⟩ := gx.2.2.2.2.2.1 hq0
        have hqf : iPrev s.heap x ≠ s.fresh := fun heq => hfk (heq ▸ hqk)
        refine ⟨List.mem_cons_of_mem _ hqk, ?_⟩
        rw [iNext_cons_ne _ _ _ hqf]
        exact hqnext
      · intro hns
        have h7 := gx.2.2.2.2.2.2 hns
        rw [List.count_cons_of_ne hxf]
        exact h7

theorem wfI_ilist_new {s : ISt α} (hw : wfI s) :
    wfI (ilist_new s).2 := by
  have wfg := wfI_getters hw
  have hfk : s.fresh ∉ keysOf s.heap := fun hm => absurd (hw.2.2.1 _ hm).2 (lt_irrefl _)
  have hf0 : 0 < s.fresh := hw.2.1
  refine wfI_of_getters ?_ (Nat.succ_pos _) ?_ ?_ ?_
  · rw [keysOf_cons]
    exact List.nodup_cons.mpr ⟨hfk, hw.1⟩
  · intro y hy
    rw [keysOf_cons, List.mem_cons] at hy
    rcases hy with rfl | hc
    · exact ⟨hf0, by omega⟩
    · obtain ⟨h1, h2⟩ := hw.2.2.1 y hc
      exact ⟨h1, by omega⟩
  · intro y hy
    have h2 := hw.2.2.2.1 y hy
    have hyf : y ≠ s.fresh := fun heq => hfk (heq ▸ h2.1)
    rw [keysOf_cons]
    refine ⟨List.mem_cons_of_mem _ h2.1, ?_⟩
    rw [iCount_cons_ne _ _ _ hyf]
    exact h2.2
  · intro x hx
    rw [keysOf_cons, List.mem_cons] at hx
    simp only [keysOf_cons]
    rcases hx with rfl | hx2
    · rw [iNext_cons_self, iPrev_cons_self, iCount_cons_self]
      refine ⟨le_refl _, Iff.rfl, ?_, ?_, ?_, ?_, ?_⟩
      · show (0 : Nat) ≠ s.fresh
        omega
      · show (0 : Nat) ≠ s.fresh
        omega
      · show (0 : Nat) ≠ 0 → _
        exact fun hc => absurd rfl hc
      · show (0 : Nat) ≠ 0 → _
        exact fun hc => absurd rfl hc
      · intro hns
        exact absurd rfl hns
    · have gx := wfg x hx2
      have hxf : x ≠ s.fresh := fun heq => hfk (heq ▸ hx2)
      rw [iNext_cons_ne _ _ _ hxf, iPrev_cons_ne _ _ _ hxf, iCount_cons_ne _ _ _ hxf]
      refine ⟨gx.1, gx.2.1, gx.2.2.1, gx.2.2.2.1, ?_, ?_, ?_⟩
      · intro ht0
        obtain ⟨htk, htprev⟩ := gx.2.2.2.2.1 ht0
        have htf : iNext s.heap x ≠ s.fresh := fun heq => hfk (heq ▸ htk)
        refine ⟨List.mem_cons_of_mem _ htk, ?_⟩
        rw [iPrev_cons_ne _ _ _ htf]
        exact htprev
      · intro hq0
        obtain ⟨hqk, hqnext⟩ := gx.2.2.2.2.2.1 hq0
        have hqf : iPrev s.heap x ≠ s.fresh := fun heq => hfk (heq ▸ hqk)
        refine ⟨List.mem_cons_of_mem _ hqk, ?_⟩
        rw [iNext_cons_ne _ _ _ hqf]
        exact hqnext
      · intro hns
        exact gx.2.2.2.2.2.2 hns

theorem wfI_ilist_head {s : ISt α} (hw : wfI s) {sent : Nat}
    (hne : iNext s.heap sent ≠ 0)
    (hns : iCount s.heap (iNext s.heap sent) ≠ usizeMax)
    (hov : iCount s.heap (iNext s.heap sent) + 1 ≠ usizeMax) :
    wfI (ilist_head s sent).2 := by
  have hsk : sent ∈ keysOf s.heap := mem_keys_of_iNext_ne hne
  have hnk : iNext s.heap sent ∈ keysOf s.heap :=
    ((wfI_getters hw sent hsk).2.2.2.2.1 hne).1
  have heq : (ilist_head s sent).2 = ⟨iIncCount s.heap (iNext s.heap sent),
      iNext s.heap sent :: s.handles, s.fresh⟩ := by
    rw [ilist_head, if_neg hne]
  rw [heq]
  exact wfI_mint hw hnk hns hov

theorem wfI_ilist_tail {s : ISt α} (hw : wfI s) {sent : Nat}
    (hne : iNext s.heap sent ≠ 0)
    (hns : iCount s.heap (iPrev s.heap sent) ≠ usizeMax)
    (hov : iCount s.heap (iPrev s.heap sent) + 1 ≠ usizeMax) :
    wfI (ilist_tail s sent).2 := by
  have hsk : sent ∈ keysOf s.heap := mem_keys_of_iNext_ne hne
  have gs := wfI_getters hw sent hsk
  have hpe : iPrev s.heap sent ≠ 0 := fun hc => hne (gs.2.1.mpr hc)
  have hpk : iPrev s.heap sent ∈ keysOf s.heap := (gs.2.2.2.2.2.1 hpe).1
  have heq : (ilist_tail s sent).2 = ⟨iIncCount s.heap (iPrev s.heap sent),
      iPrev s.heap sent :: s.handles, s.fresh⟩ := by
    rw [ilist_tail, if_neg hne]
  rw [heq]
  exact wfI_mint hw hpk hns hov

theorem wfI_inode_next {s : ISt α} (hw : wfI s) (a : Nat)
    (hov : iCount s.heap (iNext s.heap a) + 1 ≠ usizeMax) :
    wfI (inode_next s a).2 := by
  by_cases hn : iNext s.heap a = 0
  · have hc1 : (iNext s.heap a ≠ 0) = False := eq_false (fun hcc => hcc hn)
    simp only [inode_next, hc1, if_false]
    exact hw
  · have hc1 : (iNext s.heap a ≠ 0) = True := eq_true hn
    by_cases hns : iCount s.heap (iNext s.heap a) = usizeMax
    · have hc2 : (iCount s.heap (iNext s.heap a) = usizeMax) = True := eq_true hns
      simp only [inode_next, hc1, hc2, if_true]
      exact hw
    · have hc2 : (iCount s.heap (iNext s.heap a) = usizeMax) = False := eq_false hns
      simp only [inode_next, hc1, hc2, if_true, if_false]
      have hak : a ∈ keysOf s.heap := mem_keys_of_iNext_ne hn
      have hnk : iNext s.heap a ∈ keysOf s.heap :=
        ((wfI_getters hw a hak).2.2.2.2.1 hn).1
      exact wfI_mint hw hnk hns hov

theorem wfI_inode_prev {s : ISt α} (hw : wfI s) (a : Nat)
    (hov : iCount s.heap (iPrev s.heap a) + 1 ≠ usizeMax) :
    wfI (inode_prev s a).2 := by
  by_cases hn : iPrev s.heap a = 0
  · have hc1 : (iPrev s.heap a ≠ 0) = False := eq_false (fun hcc => hcc hn)
    simp only [inode_prev, hc1, if_false]
    exact hw
  · have hc1 : (iPrev s.heap a ≠ 0) = True := eq_true hn
    by_cases hns : iCount s.heap (iPrev s.heap a) = usizeMax
    · have hc2 : (iCount s.heap (iPrev s.heap a) = usizeMax) = True := eq_true hns
      simp only [inode_prev, hc1, hc2, if_true]
      exact hw
    · have hc2 : (iCount s.heap (iPrev s.heap a) = usizeMax) = False := eq_false hns
      simp only [inode_prev, hc1, hc2, if_true, if_false]
      have hak : a ∈ keysOf s.heap := by
        by_contra hm
        exact hn (iPrev_eq_zero_of_not_mem hm)
      have hpk : iPrev s.heap a ∈ keysOf s.heap :=
        ((wfI_getters hw a hak).2.2.2.2.2.1 hn).1
      exact wfI_mint hw hpk hns hov

theorem wfI_inode_drop {s : ISt α} (hw : wfI s) {a : Nat} (ha : a ∈ s.handles) :
    wfI (inode_drop s a) := by
  have wfg := wfI_getters hw
  have hal := hw.2.2.2.1 a ha
  have hak : a ∈ keysOf s.heap := hal.1
  have hans : iCount s.heap a ≠ usizeMax := hal.2
  have ga := wfg a hak
  have hcnt := ga.2.2.2.2.2.2 hans
  have hcpos : 0 < s.handles.count a := List.count_pos_iff.mpr ha
  have humax : 0 < usizeMax := by decide
  have hred : iCount (iDecCount s.heap a) a = iCount s.heap a - 1 :=
    iCount_iDecCount_self hak
  by_cases hz : iCount s.heap a - 1 = 0
  · -- the count reaches zero: the node is freed
    have hc : (iCount (iDecCount s.heap a) a = 0) = True := by
      rw [hred]
      exact eq_true hz
    simp only [inode_drop, hc, if_true]
    have hni : iNext s.heap a = 0 := by
      by_cases hni : iNext s.heap a = 0
      · exact hni
      · rw [if_pos hni] at hcnt
        omega
    have hpi : iPrev s.heap a = 0 := ga.2.1.mp hni
    have hcnt1 : s.handles.count a = 1 := by
      rw [if_neg (fun hc2 => hc2 hni)] at hcnt
      omega
    have hnd1 : (keysOf (iDecCount s.heap a)).Nodup := by
      rw [keysOf_iDecCount]
      exact hw.1
    have hL : ∀ y, y ≠ a →
        hLookup (hErase (iDecCount s.heap a) a) y = hLookup s.heap y := by
      intro y hy
      rw [hLookup_hErase hnd1, if_neg hy, iDecCount, hLookup_hUpdate, if_neg hy]
    have hNE : ∀ y, y ≠ a →
        iNext (hErase (iDecCount s.heap a) a) y = iNext s.heap y := by
      intro y hy
      rw [iNext, hL y hy, iNext]
    have hPE : ∀ y, y ≠ a →
        iPrev (hErase (iDecCount s.heap a) a) y = iPrev s.heap y := by
      intro y hy
      rw [iPrev, hL y hy, iPrev]
    have hCE : ∀ y, y ≠ a →
        iCount (hErase (iDecCount s.heap a) a) y = iCount s.heap y := by
      intro y hy
      rw [iCount, hL y hy, iCount]
    have hKE : keysOf (hErase (iDecCount s.heap a) a) = (keysOf s.heap).erase a := by
      rw [keysOf_hErase, keysOf_iDecCount]
    have hane : a ∉ s.handles.erase a := by
      intro hmem
      have hp2 := List.count_pos_iff.mpr hmem
      rw [List.count_erase_self, hcnt1] at hp2
      omega
    refine wfI_of_getters (by rw [hKE]; exact List.Nodup.erase a hw.1) hw.2.1 ?_ ?_ ?_
    · intro y hy
      rw [hKE] at hy
      exact hw.2.2.1 y (List.mem_of_mem_erase hy)
    · intro y hy
      have hy2 : y ∈ s.handles := List.mem_of_mem_erase hy
      have hya : y ≠ a := fun hc => hane (hc ▸ hy)
      have h2 := hw.2.2.2.1 y hy2
      rw [hKE, hCE y hya]
      exact ⟨(List.Nodup.mem_erase_iff hw.1).mpr ⟨hya, h2.1⟩, h2.2⟩
    · intro x hx
      rw [hKE] at hx
      obtain ⟨hxa, hx2⟩ := (List.Nodup.mem_erase_iff hw.1).mp hx
      have gx := wfg x hx2
      have hx0 : (0 : Nat) < x := (hw.2.2.1 x hx2).1
      rw [hKE, hNE x hxa, hPE x hxa, hCE x hxa]
      refine ⟨gx.1, gx.2.1, gx.2.2.1, gx.2.2.2.1, ?_, ?_, ?_⟩
      · intro ht0
        obtain ⟨htk, htprev⟩ := gx.2.2.2.2.1 ht0
        have hta : iNext s.heap x ≠ a := by
          intro hc
          rw [hc, hpi] at htprev
          omega
        refine ⟨(List.Nodup.mem_erase_iff hw.1).mpr ⟨hta, htk⟩, ?_⟩
        rw [hPE _ hta]
        exact htprev
      · intro hq0
        obtain ⟨hqk, hqnext⟩ := gx.2.2.2.2.2.1 hq0
        have hqa : iPrev s.heap x ≠ a := by
          intro hc
          rw [hc, hni] at hqnext
          omega
        refine ⟨(List.Nodup.mem_erase_iff hw.1).mpr ⟨hqa, hqk⟩, ?_⟩
        rw [hNE _ hqa]
        exact hqnext
      · intro hns
        have h7 := gx.2.2.2.2.2.2 hns
        rw [List.count_erase_of_ne hxa]
        exact h7
  · -- the node survives with a decremented count
    have hc : (iCount (iDecCount s.heap a) a = 0) = False := by
      rw [hred]
      exact eq_false hz
    simp only [inode_drop, hc, if_false]
    refine wfI_of_getters (by rw [keysOf_iDecCount]; exact hw.1) hw.2.1
      (by rw [keysOf_iDecCount]; exact hw.2.2.1) ?_ ?_
    · intro y hy
      have hy2 : y ∈ s.handles := List.mem_of_mem_erase hy
      have h2 := hw.2.2.2.1 y hy2
      rw [keysOf_iDecCount]
      by_cases hya : y = a
      · rw [hya, iCount_iDecCount_self hak]
        have hle : iCount s.heap a ≤ usizeMax := ga.1
        exact ⟨hak, by omega⟩
      · rw [iCount_iDecCount_ne hya]
        exact ⟨h2.1, h2.2⟩
    · intro x hx
      rw [keysOf_iDecCount] at hx
      have gx := wfg x hx
      simp only [keysOf_iDecCount, iNext_iDecCount, iPrev_iDecCount]
      by_cases hxa : x = a
      · rw [hxa, iCount_iDecCount_self hak]
        refine ⟨by have := ga.1; omega, ga.2.1, ga.2.2.1, ga.2.2.2.1,
          ga.2.2.2.2.1, ga.2.2.2.2.2.1, ?_⟩
        intro _
        rw [List.count_erase_self]
        omega
      · rw [iCount_iDecCount_ne hxa]
        refine ⟨gx.1, gx.2.1, gx.2.2.1, gx.2.2.2.1, gx.2.2.2.2.1, gx.2.2.2.2.2.1, ?_⟩
        intro hns
        have h7 := gx.2.2.2.2.2.2 hns
        rw [List.count_erase_of_ne hxa]
        exact h7

theorem inode_drop_twice_frees {s : ISt α} (hw : wfI s) {a : Nat}
    (hn2 : s.handles.count a = 2) (hni : iNext s.heap a = 0) :
    a ∈ keysOf (inode_drop s a).heap ∧
    a ∉ keysOf (inode_drop (inode_drop s a) a).heap := by
  have ha : a ∈ s.handles := List.count_pos_iff.mp (by omega)
  have hal := hw.2.2.2.1 a ha
  have hak : a ∈ keysOf s.heap := hal.1
  have hcnt := (wfI_getters hw a hak).2.2.2.2.2.2 hal.2
  rw [if_neg (fun hc => hc hni), hn2] at hcnt
  have hc2 : iCount s.heap a = 2 := by omega
  have he1 : inode_drop s a = ⟨iDecCount s.heap a, s.handles.erase a, s.fresh⟩ := by
    have hc : (iCount (iDecCount s.heap a) a = 0) = False := by
      rw [iCount_iDecCount_self hak, hc2]
      exact eq_false (by decide)
    simp only [inode_drop, hc, if_false]
  have hak1 : a ∈ keysOf (iDecCount s.heap a) := by
    rw [keysOf_iDecCount]
    exact hak
  have hcd : iCount (iDecCount s.heap a) a = 1 := by
    rw [iCount_iDecCount_self hak, hc2]
  have he2 : inode_drop (⟨iDecCount s.heap a, s.handles.erase a, s.fresh⟩ : ISt α) a =
      ⟨hErase (iDecCount (iDecCount s.heap a) a) a, (s.handles.erase a).erase a,
        s.fresh⟩ := by
    have hc : (iCount (iDecCount (iDecCount s.heap a) a) a = 0) = True := by
      rw [iCount_iDecCount_self hak1, hcd]
      exact eq_true (by decide)
    simp only [inode_drop, hc, if_true]
  rw [he1, he2]
  constructor
  · show a ∈ keysOf (iDecCount s.heap a)
    rw [keysOf_iDecCount]
    exact hak
  · show a ∉ keysOf (hErase (iDecCount (iDecCount s.heap a) a) a)
    rw [keysOf_hErase, keysOf_iDecCount, keysOf_iDecCount]
    intro hmem
    exact absurd rfl ((List.Nodup.mem_erase_iff hw.1).mp hmem).1

/-! ## Preservation by the `IList` push operations -/

theorem wfI_push_empty {s : ISt α} (hw : wfI s) {sent b : Nat}
    (hsk : sent ∈ keysOf s.heap)
    (hsent : iCount s.heap sent = usizeMax)
    (hemp : iNext s.heap sent = 0)
    (hbh : b ∈ s.handles)
    (hsole : iNext s.heap b = 0 ∨ iPrev s.heap b ≠ iNext s.heap b) :
    wfI (⟨iSetPrev (iSetNext (iSetPrev (iSetNext (node_remove s.heap b) b sent) b sent)
        sent b) sent b, s.handles.erase b, s.fresh⟩ : ISt α) := by
  have wfg := wfI_getters hw
  have hbl := hw.2.2.2.1 b hbh
  have hbk : b ∈ keysOf s.heap := hbl.1
  have hbns : iCount s.heap b ≠ usizeMax := hbl.2
  have hbs : b ≠ sent := fun hc => hbns (hc ▸ hsent)
  have hsb : sent ≠ b := fun hc => hbs hc.symm
  have hb0 : (0 : Nat) < b := (hw.2.2.1 b hbk).1
  have hb0n : (b : Nat) ≠ 0 := by omega
  have hs0 : (0 : Nat) < sent := (hw.2.2.1 sent hsk).1
  have hs0n : (sent : Nat) ≠ 0 := by omega
  have gb := wfg b hbk
  have hw1 : wfI (⟨node_remove s.heap b, s.handles, s.fresh⟩ : ISt α) :=
    wfI_node_remove hw hbk hbns hsole
  have hfacts : iNext (node_remove s.heap b) b = 0 ∧
      iPrev (node_remove s.heap b) b = 0 ∧
      iNext (node_remove s.heap b) sent = 0 ∧
      iPrev (node_remove s.heap b) sent = 0 ∧
      iCount (node_remove s.heap b) sent = usizeMax ∧
      keysOf (node_remove s.heap b) = keysOf s.heap := by
    have hps : iPrev s.heap sent = 0 := (wfg sent hsk).2.1.mp hemp
    by_cases hbn : iNext s.heap b = 0
    · have hbp := (gb.2.1).mp hbn
      obtain ⟨hkeys, hgN, hgP, hgC, -⟩ := node_remove_getters_detached hbn hbp
      exact ⟨by rw [hgN]; exact hbn, by rw [hgP]; exact hbp, by rw [hgN]; exact hemp,
        by rw [hgP]; exact hps, by rw [hgC]; exact hsent, hkeys⟩
    · have hbp : iPrev s.heap b ≠ 0 := fun hc => hbn ((gb.2.1).mpr hc)
      have hbpn : iPrev s.heap b ≠ iNext s.heap b := hsole.resolve_left hbn
      obtain ⟨hbnk, hbnprev⟩ := gb.2.2.2.2.1 hbn
      obtain ⟨hbpk, hbpnext⟩ := gb.2.2.2.2.2.1 hbp
      obtain ⟨hkeys, hNb, hPb, -, -, -, hgC, hgN, hgP, -⟩ :=
        node_remove_getters_linked hbk hbn hbp gb.2.2.1 gb.2.2.2.1 hbpn hbpk hbnk
      have hsp : sent ≠ iPrev s.heap b := by
        intro hc
        rw [← hc] at hbpnext
        rw [hemp] at hbpnext
        exact hb0n hbpnext.symm
      have hsn : sent ≠ iNext s.heap b := by
        intro hc
        rw [← hc] at hbnprev
        rw [hps] at hbnprev
        exact hb0n hbnprev.symm
      exact ⟨hNb, hPb, by rw [hgN sent hsb hsp]; exact hemp,
        by rw [hgP sent hsb hsn]; exact hps, by rw [hgC sent hsb]; exact hsent, hkeys⟩
  obtain ⟨hNb1, hPb1, hNs1, hPs1, hCs1, hK1⟩ := hfacts
  have wfg1 := wfI_getters hw1
  have hbk1 : b ∈ keysOf (node_remove s.heap b) := by rw [hK1]; exact hbk
  have hsk1 : sent ∈ keysOf (node_remove s.heap b) := by rw [hK1]; exact hsk
  have g1b := wfg1 b hbk1
  have g1s := wfg1 sent hsk1
  have hcount1 : iCount (node_remove s.heap b) b = s.handles.count b := by
    have h5c := g1b.2.2.2.2.2.2 (hw1.2.2.2.1 b hbh).2
    rw [if_neg (fun hc => hc hNb1)] at h5c
    omega
  -- getters of the final heap
  have hK5 : keysOf (iSetPrev (iSetNext (iSetPrev (iSetNext (node_remove s.heap b) b sent)
      b sent) sent b) sent b) = keysOf (node_remove s.heap b) := by
    rw [keysOf_iSetPrev, keysOf_iSetNext, keysOf_iSetPrev, keysOf_iSetNext]
  have hN5b : iNext (iSetPrev (iSetNext (iSetPrev (iSetNext (node_remove s.heap b) b sent)
      b sent) sent b) sent b) b = sent := by
    rw [iNext_iSetPrev, iNext_iSetNext_ne hbs, iNext_iSetPrev, iNext_iSetNext_self hbk1]
  have hN5s : iNext (iSetPrev (iSetNext (iSetPrev (iSetNext (node_remove s.heap b) b sent)
      b sent) sent b) sent b) sent = b := by
    rw [iNext_iSetPrev,
      iNext_iSetNext_self (by rw [keysOf_iSetPrev, keysOf_iSetNext]; exact hsk1)]
  have hP5b : iPrev (iSetPrev (iSetNext (iSetPrev (iSetNext (node_remove s.heap b) b sent)
      b sent) sent b) sent b) b = sent := by
    rw [iPrev_iSetPrev_ne hbs, iPrev_iSetNext,
      iPrev_iSetPrev_self (by rw [keysOf_iSetNext]; exact hbk1)]
  have hP5s : iPrev (iSetPrev (iSetNext (iSetPrev (iSetNext (node_remove s.heap b) b sent)
      b sent) sent b) sent b) sent = b := by
    rw [iPrev_iSetPrev_self
      (by rw [keysOf_iSetNext, keysOf_iSetPrev, keysOf_iSetNext]; exact hsk1)]
  have hN5y : ∀ y, y ≠ sent → y ≠ b →
      iNext (iSetPrev (iSetNext (iSetPrev (iSetNext (node_remove s.heap b) b sent)
        b sent) sent b) sent b) y = iNext (node_remove s.heap b) y := by
    intro y hys hyb
    rw [iNext_iSetPrev, iNext_iSetNext_ne hys, iNext_iSetPrev, iNext_iSetNext_ne hyb]
  have hP5y : ∀ y, y ≠ sent → y ≠ b →
      iPrev (iSetPrev (iSetNext (iSetPrev (iSetNext (node_remove s.heap b) b sent)
        b sent) sent b) sent b) y = iPrev (node_remove s.heap b) y := by
    intro y hys hyb
    rw [iPrev_iSetPrev_ne hys, iPrev_iSetNext, iPrev_iSetPrev_ne hyb, iPrev_iSetNext]
  have hC5 : ∀ y, iCount (iSetPrev (iSetNext (iSetPrev (iSetNext (node_remove s.heap b)
      b sent) b sent) sent b) sent b) y = iCount (node_remove s.heap b) y := by
    intro y
    rw [iCount_iSetPrev, iCount_iSetNext, iCount_iSetPrev, iCount_iSetNext]
  refine wfI_of_getters (by rw [hK5, hK1]; exact hw.1) hw.2.1
    (by rw [hK5, hK1]; exact hw.2.2.1) ?_ ?_
  · intro y hy
    have hy2 : y ∈ s.handles := List.mem_of_mem_erase hy
    have h2 := hw1.2.2.2.1 y hy2
    rw [hK5, hC5]
    exact h2
  · intro x hx
    rw [hK5] at hx
    by_cases hxb : x = b
    · rw [hxb, hN5b, hP5b, hC5, hK5]
      refine ⟨g1b.1, Iff.rfl, hsb, hsb, ?_, ?_, ?_⟩
      · intro _
        exact ⟨hsk1, hP5s⟩
      · intro _
        exact ⟨hsk1, hN5s⟩
      · intro _
        rw [hcount1, if_pos hs0n, List.count_erase_self]
        have hpos := List.count_pos_iff.mpr hbh
        omega
    by_cases hxs : x = sent
    · rw [hxs, hN5s, hP5s, hC5, hK5]
      refine ⟨g1s.1, Iff.rfl, hbs, hbs, ?_, ?_, ?_⟩
      · intro _
        exact ⟨hbk1, hP5b⟩
      · intro _
        exact ⟨hbk1, hN5b⟩
      · intro hns
        exact absurd hCs1 hns
    · have g1x := wfg1 x hx
      rw [hN5y _ hxs hxb, hP5y _ hxs hxb, hC5, hK5]
      have hx0 : (0 : Nat) < x := (hw1.2.2.1 x hx).1
      refine ⟨g1x.1, g1x.2.1, g1x.2.2.1, g1x.2.2.2.1, ?_, ?_, ?_⟩
      · intro ht0
        obtain ⟨htk, htprev⟩ := g1x.2.2.2.2.1 ht0
        have htb : iNext (node_remove s.heap b) x ≠ b := by
          intro hc
          rw [hc, hPb1] at htprev
          omega
        have hts : iNext (node_remove s.heap b) x ≠ sent := by
          intro hc
          rw [hc, hPs1] at htprev
          omega
        refine ⟨htk, ?_⟩
        rw [hP5y _ hts htb]
        exact htprev
      · intro hq0
        obtain ⟨hqk, hqnext⟩ := g1x.2.2.2.2.2.1 hq0
        have hqb : iPrev (node_remove s.heap b) x ≠ b := by
          intro hc
          rw [hc, hNb1] at hqnext
          omega
        have hqs : iPrev (node_remove s.heap b) x ≠ sent := by
          intro hc
          rw [hc, hNs1] at hqnext
          omega
        refine ⟨hqk, ?_⟩
        rw [hN5y _ hqs hqb]
        exact hqnext
      · intro hns
        have h7 := g1x.2.2.2.2.2.2 hns
        rw [List.count_erase_of_ne hxb]
        exact h7

theorem wfI_ilist_push_front {s : ISt α} (hw : wfI s) {sent b : Nat}
    (hsk : sent ∈ keysOf s.heap)
    (hsent : iCount s.heap sent = usizeMax)
    (hbh : b ∈ s.handles)
    (hsole : iNext s.heap b = 0 ∨ iPrev s.heap b ≠ iNext s.heap b) :
    wfI (ilist_push_front s sent b) := by
  by_cases hemp : iNext s.heap sent = 0
  · have hc : (iNext s.heap sent = 0) = True := eq_true hemp
    simp only [ilist_push_front, hc, if_true]
    exact wfI_push_empty hw hsk hsent hemp hbh hsole
  · have hsb : sent ≠ b :=
      fun hc => (hw.2.2.2.1 b hbh).2 (by rw [← hc]; exact hsent)
    obtain ⟨s2, hs2, hwf2, -⟩ := insert_after_spec hw hbh hsb hsole hemp
    have hc : (iNext s.heap sent = 0) = False := eq_false hemp
    simp only [ilist_push_front, hc, if_false]
    rw [hs2]
    exact hwf2

theorem wfI_ilist_push_back {s : ISt α} (hw : wfI s) {sent b : Nat}
    (hsk : sent ∈ keysOf s.heap)
    (hsent : iCount s.heap sent = usizeMax)
    (hbh : b ∈ s.handles)
    (hsole : iNext s.heap b = 0 ∨ iPrev s.heap b ≠ iNext s.heap b) :
    wfI (ilist_push_back s sent b) := by
  by_cases hemp : iNext s.heap sent = 0
  · have hc : (iNext s.heap sent = 0) = True := eq_true hemp
    simp only [ilist_push_back, hc, if_true]
    exact wfI_push_empty hw hsk hsent hemp hbh hsole
  · have hsb : sent ≠ b :=
      fun hc => (hw.2.2.2.1 b hbh).2 (by rw [← hc]; exact hsent)
    obtain ⟨s2, hs2, hwf2, -⟩ := insert_before_spec hw hbh hsb hsole hemp
    have hc : (iNext s.heap sent = 0) = False := eq_false hemp
    simp only [ilist_push_back, hc, if_false]
    rw [hs2]
    exact hwf2

/-- C6 (amended): the reference-count invariant — every non-sentinel node's
count equals the number of outstanding handles to it plus one if it is linked
into a list — is part of the well-formedness predicate `wfI`, and `wfI` is
preserved by `INode::new`, `IList::new`, `Clone`, `Drop`, `remove_from_list`,
`insert_after`/`insert_before`, `push_front`/`push_back`, `head`/`tail` and
`next`/`prev`, under two provisos absent from the claim: the inserted node is
not the receiver itself (`a ≠ b`, see the counterexample for the aliased
case), and the handle passed to an inserting operation is the node's sole
list position (`next = 0 ∨ prev ≠ next`).  Counts are also assumed not to
overflow into the sentinel marker `!0`.  Consequently, for a detached node
shared via exactly two handles, dropping one handle keeps the node allocated
and dropping both frees it exactly once. -/
theorem ilist_refcount_invariant (α : Type) :
    (∀ s : ISt α, wfI s → refInv s) ∧
    (∀ (s : ISt α) (v : α), wfI s → wfI (inode_new s v).2) ∧
    (∀ s : ISt α, wfI s → wfI (ilist_new s).2) ∧
    (∀ (s : ISt α) (a : Nat), wfI s → a ∈ s.handles →
      iCount s.heap a + 1 ≠ usizeMax → wfI (inode_clone s a)) ∧
    (∀ (s : ISt α) (a : Nat), wfI s → a ∈ s.handles → wfI (inode_drop s a)) ∧
    (∀ (s : ISt α) (a : Nat), wfI s → a ∈ s.handles →
      (iNext s.heap a = 0 ∨ iPrev s.heap a ≠ iNext s.heap a) →
      wfI (inode_remove_from_list s a)) ∧
    (∀ (s s2 : ISt α) (a b : Nat), wfI s → b ∈ s.handles → a ≠ b →
      (iNext s.heap b = 0 ∨ iPrev s.heap b ≠ iNext s.heap b) →
      insert_after s a b = some s2 → wfI s2) ∧
    (∀ (s s2 : ISt α) (a b : Nat), wfI s → b ∈ s.handles → a ≠ b →
      (iNext s.heap b = 0 ∨ iPrev s.heap b ≠ iNext s.heap b) →
      insert_before s a b = some s2 → wfI s2) ∧
    (∀ (s : ISt α) (sent b : Nat), wfI s → sent ∈ keysOf s.heap →
      iCount s.heap sent = usizeMax → b ∈ s.handles →
      (iNext s.heap b = 0 ∨ iPrev s.heap b ≠ iNext s.heap b) →
      wfI (ilist_push_front s sent b)) ∧
    (∀ (s : ISt α) (sent b : Nat), wfI s → sent ∈ keysOf s.heap →
      iCount s.heap sent = usizeMax → b ∈ s.handles →
      (iNext s.heap b = 0 ∨ iPrev s.heap b ≠ iNext s.heap b) →
      wfI (ilist_push_back s sent b)) ∧
    (∀ (s : ISt α) (sent : Nat), wfI s → iNext s.heap sent ≠ 0 →
      iCount s.heap (iNext s.heap sent) ≠ usizeMax →
      iCount s.heap (iNext s.heap sent) + 1 ≠ usizeMax →
      wfI (ilist_head s sent).2) ∧
    (∀ (s : ISt α) (sent : Nat), wfI s → iNext s.heap sent ≠ 0 →
      iCount s.heap (iPrev s.heap sent) ≠ usizeMax →
      iCount s.heap (iPrev s.heap sent) + 1 ≠ usizeMax →
      wfI (ilist_tail s sent).2) ∧
    (∀ (s : ISt α) (a : Nat), wfI s →
      iCount s.heap (iNext s.heap a) + 1 ≠ usizeMax → wfI (inode_next s a).2) ∧
    (∀ (s : ISt α) (a : Nat), wfI s →
      iCount s.heap (iPrev s.heap a) + 1 ≠ usizeMax → wfI (inode_prev s a).2) ∧
    (∀ (s : ISt α) (a : Nat), wfI s → s.handles.count a = 2 → iNext s.heap a = 0 →
      a ∈ keysOf (inode_drop s a).heap ∧
      a ∉ keysOf (inode_drop (inode_drop s a) a).heap) := by
  refine ⟨fun s hw => hw.2.2.2.2.2,
    fun s v hw => wfI_inode_new hw v,
    fun s hw => wfI_ilist_new hw,
    fun s a hw ha hov => wfI_inode_clone hw ha hov,
    fun s a hw ha => wfI_inode_drop hw ha,
    fun s a hw ha hsole => wfI_inode_remove_from_list hw ha hsole,
    ?_, ?_,
    fun s sent b hw hsk hsent hbh hsole => wfI_ilist_push_front hw hsk hsent hbh hsole,
    fun s sent b hw hsk hsent hbh hsole => wfI_ilist_push_back hw hsk hsent hbh hsole,
    fun s sent hw hne hns hov => wfI_ilist_head hw hne hns hov,
    fun s sent hw hne hns hov => wfI_ilist_tail hw hne hns hov,
    fun s a hw hov => wfI_inode_next hw a hov,
    fun s a hw hov => wfI_inode_prev hw a hov,
    fun s a hw h2 hni => inode_drop_twice_frees hw h2 hni⟩
  · intro s s2 a b hw hbh hab hsole hs2
    by_cases hina : iNext s.heap a = 0
    · rw [insert_after, if_pos hina] at hs2
      exact Option.noConfusion hs2
    · obtain ⟨s2x, h1, h2, -⟩ := insert_after_spec hw hbh hab hsole hina
      rw [h1] at hs2
      rw [← Option.some.inj hs2]
      exact h2
  · intro s s2 a b hw hbh hab hsole hs2
    by_cases hina : iNext s.heap a = 0
    · rw [insert_before, if_pos hina] at hs2
      exact Option.noConfusion hs2
    · obtain ⟨s2x, h1, h2, -⟩ := insert_before_spec hw hbh hab hsole hina
      rw [h1] at hs2
      rw [← Option.some.inj hs2]
      exact h2

/-- C6 counterexample: a pure public-API call sequence — create a node with
handles, push it into a list, clone a handle and pass it to `insert_after`
called on the node itself, then `remove_from_list` — leaves the node with
count 1, a self-referential `next` link and one outstanding handle, so the
claimed count = handles + linked equation (which would require count 2)
fails. -/
theorem ilist_refcount_cex :
    iCount sceneC6.heap 2 = 1 ∧ sceneC6.handles.count 2 = 1 ∧
    iNext sceneC6.heap 2 = 2 ∧ ¬ refInv sceneC6 := by
  refine ⟨rfl, rfl, rfl, ?_⟩
  unfold refInv
  decide

/-- Witness for C6: the clone component applied to the concrete well-formed
state `sceneC7`. -/
theorem ilist_refcount_invariant_witness :
    wfI sceneC7 ∧ 3 ∈ sceneC7.handles ∧ wfI (inode_clone sceneC7 3) := by
  have hw : wfI sceneC7 := by
    unfold wfI refInv
    decide
  exact ⟨hw, by decide,
    (ilist_refcount_invariant Nat).2.2.2.1 sceneC7 3 hw (by decide) (by decide)⟩

/-- C7: `insert_after`/`insert_before` fail hard (the `assert!` panic,
modelled as `none`) exactly when the receiver is not in a list, performing
no mutation in that case; when the receiver is in a list (and the inserted
node is a distinct node whose handle is its sole list position), they first
detach the inserted node from whatever list held it and then splice it in
adjacent to the receiver, updating the four link fields of the three nodes
involved — receiver, inserted node and the receiver's former neighbour —
and leaving every other node untouched. -/
theorem inode_insert_spec (α : Type) (s : ISt α) (a b : Nat) :
    (insert_after s a b = none ↔ ¬ in_list s.heap a) ∧
    (insert_before s a b = none ↔ ¬ in_list s.heap a) ∧
    (wfI s → b ∈ s.handles → a ≠ b →
      (iNext s.heap b = 0 ∨ iPrev s.heap b ≠ iNext s.heap b) →
      in_list s.heap a →
      ∃ s2, insert_after s a b = some s2 ∧ wfI s2 ∧
        s2.handles = s.handles.erase b ∧ s2.fresh = s.fresh ∧
        keysOf s2.heap = keysOf s.heap ∧
        iNext s2.heap a = b ∧
        iPrev s2.heap b = a ∧
        iNext s2.heap b = iNext (node_remove s.heap b) a ∧
        iPrev s2.heap (iNext (node_remove s.heap b) a) = b ∧
        iCount s2.heap b = iCount (node_remove s.heap b) b ∧
        (∀ y, y ≠ a → y ≠ b → y ≠ iNext (node_remove s.heap b) a →
          hLookup s2.heap y = hLookup (node_remove s.heap b) y)) ∧
    (wfI s → b ∈ s.handles → a ≠ b →
      (iNext s.heap b = 0 ∨ iPrev s.heap b ≠ iNext s.heap b) →
      in_list s.heap a →
      ∃ s2, insert_before s a b = some s2 ∧ wfI s2 ∧
        s2.handles = s.handles.erase b ∧ s2.fresh = s.fresh ∧
        keysOf s2.heap = keysOf s.heap ∧
        iNext s2.heap b = a ∧
        iPrev s2.heap a = b ∧
        iPrev s2.heap b = iPrev (node_remove s.heap b) a ∧
        iNext s2.heap (iPrev (node_remove s.heap b) a) = b ∧
        iCount s2.heap b = iCount (node_remove s.heap b) b ∧
        (∀ y, y ≠ a → y ≠ b → y ≠ iPrev (node_remove s.heap b) a →
          hLookup s2.heap y = hLookup (node_remove s.heap b) y)) := by
  refine ⟨?_, ?_, fun hw hbh hab hsole hin => insert_after_spec hw hbh hab hsole hin,
    fun hw hbh hab hsole hin => insert_before_spec hw hbh hab hsole hin⟩
  · by_cases h : iNext s.heap a = 0
    · have he : insert_after s a b = none := by rw [insert_after, if_pos h]
      exact iff_of_true he (fun hc => hc h)
    · have hc1 : (iNext s.heap a = 0) = False := eq_false h
      have he : insert_after s a b ≠ none := by
        simp only [insert_after, hc1, if_false]
        exact fun hcc => Option.noConfusion hcc
      exact iff_of_false he (fun hc2 => hc2 h)
  · by_cases h : iNext s.heap a = 0
    · have he : insert_before s a b = none := by rw [insert_before, if_pos h]
      exact iff_of_true he (fun hc => hc h)
    · have hc1 : (iNext s.heap a = 0) = False := eq_false h
      have he : insert_before s a b ≠ none := by
        simp only [insert_before, hc1, if_false]
        exact fun hcc => Option.noConfusion hcc
      exact iff_of_false he (fun hc2 => hc2 h)

/-- Witness for C7: inserting the detached node 3 after the listed node 2 in
the concrete state `sceneC7` succeeds and preserves well-formedness. -/
theorem inode_insert_spec_witness :
    wfI sceneC7 ∧ in_list sceneC7.heap 2 ∧ 3 ∈ sceneC7.handles ∧
    ∃ s2, insert_after sceneC7 2 3 = some s2 ∧ wfI s2 := by
  have hw : wfI sceneC7 := by
    unfold wfI refInv
    decide
  have hin : in_list sceneC7.heap 2 := by
    unfold in_list
    decide
  obtain ⟨s2, h1, h2, -⟩ := (inode_insert_spec Nat sceneC7 2 3).2.2.1 hw (by decide)
    (by decide) (by decide) hin
  exact ⟨hw, hin, by decide, s2, h1, h2⟩

end Dynalist
